import Mathlib

/-
Verification of the Logica C++ parser (parser_cpp/logica_parse.cpp) against its
natural-language specification.

The development is a shallow embedding of the parser:

* `Span` models `SpanString` (a byte range into a shared source buffer).  The
  C++ code works on bytes of a UTF-8 encoded buffer; here the buffer is a
  `List Char` of Unicode scalars.  On ASCII text, and for the single non-ASCII
  literal the parser recognises (the infinity sign), the two views coincide
  position for position.
* The cooperative `Traverser` of the C++ code, which yields one
  `(index, stack, status)` step per `Next()` call, is modelled by `traverserRun`,
  which produces the whole list of steps at once.  Characters skipped by the
  C++ `Next()` (comment interiors) simply do not appear in the list, exactly
  as they never appear as steps in C++.
* Functions that throw `ParsingException` (or would raise a C++ library
  exception such as `std::out_of_range`) return `Except Err _`.
* The mutually recursive descent parsers are written with an explicit `fuel`
  parameter that strictly decreases at every call, so that every definition is
  structurally recursive and evaluates inside the kernel.  Running out of fuel
  produces the distinguished error `Err.fuel`, which has no counterpart in the
  C++ code; all theorems about successful parses hold for every fuel value.
* JSON objects are modelled as insertion-ordered association lists with unique
  keys (`JObj`); `std::map` keeps keys sorted instead.  Key order is never
  observed by the parser logic modelled here (only lookups, in-place updates
  and erasures are performed), so the two representations agree on every
  observation made in this file.
-/

/-- C locale `isspace` restricted to the ASCII range, as used by the parser. -/
def isSpaceC (c : Char) : Bool :=
  c == ' ' || c == '\t' || c == '\n' || c == '\x0b' || c == '\x0c' || c == '\r'

/-- C locale `isdigit`. -/
def isDigitC (c : Char) : Bool := '0' ≤ c && c ≤ '9'

/-- C locale `islower`. -/
def isLowerC (c : Char) : Bool := 'a' ≤ c && c ≤ 'z'

/-- C locale `isupper`. -/
def isUpperC (c : Char) : Bool := 'A' ≤ c && c ≤ 'Z'

/-- C locale `isalpha`. -/
def isAlphaC (c : Char) : Bool := isLowerC c || isUpperC c

/-- C locale `isalnum`. -/
def isAlnumC (c : Char) : Bool := isAlphaC c || isDigitC c

/-- Model of `SpanString`: a shared source buffer together with a half-open
`[start, stop)` range into it. -/
structure Span where
  heritage : List Char
  start : Nat
  stop : Nat
  deriving DecidableEq, Repr

/-- The checked constructor of `SpanString`, which clamps `stop` to the buffer
size and `start` to `stop`. -/
def Span.mk' (h : List Char) (s e : Nat) : Span :=
  let e' := min e h.length
  ⟨h, min s e', e'⟩

/-- A span over a whole fresh buffer (the `SpanString(std::string)` constructor). -/
def Span.ofString (s : String) : Span :=
  ⟨s.data, 0, s.data.length⟩

/-- `SpanString::size()`. -/
def Span.size (s : Span) : Nat := s.stop - s.start

/-- `SpanString::view()`: the characters of the range. -/
def Span.view (s : Span) : List Char :=
  (s.heritage.drop s.start).take (s.stop - s.start)

/-- `SpanString::str()`. -/
def Span.str (s : Span) : String := String.mk s.view

/-- `SpanString::at(i)`.  The C++ accesses the buffer unchecked; all uses in
the parser are in bounds, and a default character stands in for the
out-of-range case. -/
def Span.at (s : Span) (i : Nat) : Char := s.heritage.getD (s.start + i) ' '

/-- `SpanString::slice(rel_start, rel_stop)`. -/
def Span.slice (s : Span) (a b : Nat) : Span :=
  Span.mk' s.heritage (s.start + a) (s.start + b)

/-- `SpanString::slice_from`. -/
def Span.sliceFrom (s : Span) (a : Nat) : Span := s.slice a s.size

/-- `SpanString::slice_to`. -/
def Span.sliceTo (s : Span) (b : Nat) : Span := s.slice 0 b

/-- A span built directly from absolute offsets of a shared buffer
(the three-argument `SpanString` constructor). -/
def Span.abs (h : List Char) (a b : Nat) : Span := Span.mk' h a b

/-- `SpanString::starts_with`. -/
def Span.startsWith (s : Span) (p : String) : Bool := p.data.isPrefixOf s.view

/-- `SpanString::ends_with`. -/
def Span.endsWith (s : Span) (p : String) : Bool := p.data.isSuffixOf s.view

/-- Well-formedness of the index range; guaranteed by the C++ constructor and
preserved by every slicing operation. -/
def Span.Wf (s : Span) : Prop := s.stop ≤ s.heritage.length ∧ s.start ≤ s.stop

/-- Errors: `ParsingException`, C++ library exceptions (`internal`), and the
fuel marker of this embedding. -/
inductive Err where
  | parse (msg : String) (loc : Span)
  | internal (msg : String)
  | fuel
  deriving DecidableEq, Repr

/-- Status of one traverser step. -/
inductive TStatus where
  | ok
  | unmatched
  | eolInString
  deriving DecidableEq, Repr

/-- One step of the character traverser: index, stack snapshot (top first),
status. -/
structure TStep where
  idx : Nat
  state : List Char
  status : TStatus
  deriving DecidableEq, Repr

/-- Matching open bracket of a close bracket (`kCloseToOpen`). -/
def closeToOpen (c : Char) : Option Char :=
  if c == ')' then some '(' else
  if c == '}' then some '{' else
  if c == ']' then some '[' else none

/-- `"""` starting at position `pos` of the span. -/
def tripleQuoteAt (s : Span) (pos : Nat) : Bool :=
  pos + 3 ≤ s.size && s.at pos == '"' && s.at (pos + 1) == '"' && s.at (pos + 2) == '"'

/-- `*/` starting at position `pos`. -/
def commentCloseAt (s : Span) (pos : Nat) : Bool :=
  pos + 2 ≤ s.size && s.at pos == '*' && s.at (pos + 1) == '/'

/-- `/*` starting at position `pos`. -/
def commentOpenAt (s : Span) (pos : Nat) : Bool :=
  pos + 2 ≤ s.size && s.at pos == '/' && s.at (pos + 1) == '*'

/-- The bracket-tracking tail of `Traverser::Next` (the `track_parenthesis`
block followed by the final `out = {idx, state, OK}`): pushes an opener, pops
a matched closer, or reports `UNMATCHED` with an empty snapshot while leaving
the internal stack unchanged. -/
def trackEmit (pos : Nat) (state : List Char) (c : Char) : TStep × List Char :=
  if c == '(' || c == '{' || c == '[' then
    let st' := c :: state
    (⟨pos, st', .ok⟩, st')
  else
    match closeToOpen c with
    | some o =>
        match state with
        | top :: rest =>
            if top == o then (⟨pos, rest, .ok⟩, rest)
            else (⟨pos, [], .unmatched⟩, state)
        | [] => (⟨pos, [], .unmatched⟩, state)
    | none => (⟨pos, state, .ok⟩, state)

/-- The traverser automaton: one iteration per `Traverser::Next` character
read, emitting the same steps in the same order.  `fuel` only needs to cover
the number of characters of the span, since every branch advances `pos` by at
least one. -/
def stepsGo (s : Span) : Nat → Nat → List Char → List TStep
  | 0, _, _ => []
  | fuel + 1, pos, state =>
    if pos < s.size then
      let c := s.at pos
      match state with
      | '#' :: rest =>
          if c == '\n' then ⟨pos, rest, .ok⟩ :: stepsGo s fuel (pos + 1) rest
          else stepsGo s fuel (pos + 1) state
      | '"' :: rest =>
          if c == '\n' then ⟨pos, [], .eolInString⟩ :: stepsGo s fuel (pos + 1) state
          else if c == '"' then ⟨pos, rest, .ok⟩ :: stepsGo s fuel (pos + 1) rest
          else ⟨pos, state, .ok⟩ :: stepsGo s fuel (pos + 1) state
      | '\'' :: rest =>
          if c == '\'' then ⟨pos, rest, .ok⟩ :: stepsGo s fuel (pos + 1) rest
          else if c == '\\' then
            let st' := '\\' :: state
            ⟨pos, st', .ok⟩ :: stepsGo s fuel (pos + 1) st'
          else ⟨pos, state, .ok⟩ :: stepsGo s fuel (pos + 1) state
      | '\\' :: rest =>
          let (step, st') := trackEmit pos rest c
          step :: stepsGo s fuel (pos + 1) st'
      | '`' :: rest =>
          if c == '`' then ⟨pos, rest, .ok⟩ :: stepsGo s fuel (pos + 1) rest
          else ⟨pos, state, .ok⟩ :: stepsGo s fuel (pos + 1) state
      | '3' :: rest =>
          if tripleQuoteAt s pos then
            ⟨pos, rest, .ok⟩ :: stepsGo s fuel (pos + 1) ('\x01' :: '\x01' :: rest)
          else ⟨pos, state, .ok⟩ :: stepsGo s fuel (pos + 1) state
      | '/' :: rest =>
          if commentCloseAt s pos then stepsGo s fuel (pos + 2) rest
          else stepsGo s fuel (pos + 1) state
      | '\x01' :: rest =>
          ⟨pos, rest, .ok⟩ :: stepsGo s fuel (pos + 1) rest
      | _ =>
          if c == '#' then stepsGo s fuel (pos + 1) ('#' :: state)
          else if tripleQuoteAt s pos then
            let st' := '3' :: state
            ⟨pos, st', .ok⟩ :: stepsGo s fuel (pos + 1) ('\x01' :: '\x01' :: st')
          else if c == '"' then
            let st' := '"' :: state
            ⟨pos, st', .ok⟩ :: stepsGo s fuel (pos + 1) st'
          else if c == '\'' then
            let st' := '\'' :: state
            ⟨pos, st', .ok⟩ :: stepsGo s fuel (pos + 1) st'
          else if c == '`' then
            let st' := '`' :: state
            ⟨pos, st', .ok⟩ :: stepsGo s fuel (pos + 1) st'
          else if commentOpenAt s pos then stepsGo s fuel (pos + 2) ('/' :: state)
          else
            let (step, st') := trackEmit pos state c
            step :: stepsGo s fuel (pos + 1) st'
    else []

/-- All steps yielded by a `Traverser` over span `s`. -/
def traverserRun (s : Span) : List TStep := stepsGo s (s.size + 1) 0 []

/-- Collector loop of `RemoveComments`. -/
def removeCommentsGo (s : Span) : List TStep → List Char → Except Err (List Char)
  | [], acc => .ok acc
  | step :: rest, acc =>
    match step.status with
    | .unmatched =>
        .error (.parse "Parenthesis matches nothing." (s.slice step.idx (step.idx + 1)))
    | .eolInString =>
        .error (.parse "End of line in string." (s.slice step.idx step.idx))
    | .ok => removeCommentsGo s rest (acc ++ [s.at step.idx])

/-- `RemoveComments`. -/
def removeComments (s : Span) : Except Err (List Char) :=
  removeCommentsGo s (traverserRun s) []

/-- Final `(status, state)` of a traverser run, as observed by `IsWhole`. -/
def lastState : List TStep → TStatus × List Char → TStatus × List Char
  | [], acc => acc
  | step :: rest, _ => lastState rest (step.status, step.state)

/-- `IsWhole`. -/
def isWhole (s : Span) : Bool :=
  let (status, st) := lastState (traverserRun s) (.ok, [])
  status == .ok && st.isEmpty

/-- The descending right-trim loop of `StripSpaces` (`while (right > left &&
isspace(v[right])) right--`). -/
def rightLoop (v : List Char) (left : Nat) : Nat → Nat
  | 0 => 0
  | r + 1 =>
    if left < r + 1 && isSpaceC (v.getD (r + 1) ' ') then rightLoop v left r
    else r + 1

/-- `StripSpaces`. -/
def stripSpaces (s : Span) : Span :=
  let v := s.view
  let left := (v.takeWhile isSpaceC).length
  if v.isEmpty then s.slice 0 0
  else
    let right := if v.length - 1 ≤ left then v.length - 1
                 else rightLoop v left (v.length - 1)
    s.slice left (right + 1)

/-- The peeling condition of `Strip`: a whole parenthesised span. -/
def peelCond (s : Span) : Bool :=
  decide (2 ≤ s.size) && s.at 0 == '(' && s.at (s.size - 1) == ')' &&
    isWhole (s.slice 1 (s.size - 1))

/-- The loop of `Strip`.  Each successful peel shrinks the span by two
characters, so fuel `s.size + 1` always runs the loop to its fixed point. -/
def stripGo : Nat → Span → Span
  | 0, s => s
  | fuel + 1, s =>
    let t := stripSpaces s
    if peelCond t then stripGo fuel (t.slice 1 (t.size - 1)) else t

/-- `Strip`. -/
def strip (s : Span) : Span := stripGo (s.size + 1) s

/-- Extract `l` characters of `v` starting at `i` (the `v.substr(i, l)`
comparison of `SplitRaw`). -/
def subAt (v : List Char) (i l : Nat) : List Char := (v.drop i).take l

/-- Main loop of `SplitRaw` over the emitted traverser steps.  `fuel` bounds
the number of loop iterations; one unit per step always suffices. -/
def splitRawGo (s : Span) (sep : List Char) (alnum : Bool) :
    Nat → List TStep → Nat → List Span → Except Err (List Span)
  | _, [], partStart, acc => .ok (acc ++ [s.slice partStart s.size])
  | 0, _ :: _, _, _ => .error .fuel
  | fuel + 1, step :: rest, partStart, acc =>
    if step.status != .ok then
      .error (.parse "Parenthesis matches nothing." (s.slice step.idx (step.idx + 1)))
    else if !step.state.isEmpty then splitRawGo s sep alnum fuel rest partStart acc
    else
      let v := s.view
      let i := step.idx
      let l := sep.length
      if i + l ≤ v.length && subAt v i l == sep then
        if l == 1 && sep.headD ' ' == '|' && i + 1 < v.length && v.getD (i + 1) ' ' == '|' then
          splitRawGo s sep alnum fuel rest partStart acc
        else if l == 1 && sep.headD ' ' == '|' && 0 < i && v.getD (i - 1) ' ' == '|' then
          splitRawGo s sep alnum fuel rest partStart acc
        else if alnum &&
            !(!(0 < i && isAlnumC (v.getD (i - 1) ' ')) &&
              !(i + l < v.length && isAlnumC (v.getD (i + l) ' '))) then
          splitRawGo s sep alnum fuel rest partStart acc
        else
          splitRawGo s sep alnum fuel (rest.drop (l - 1)) (i + l) (acc ++ [s.slice partStart i])
      else splitRawGo s sep alnum fuel rest partStart acc

/-- `SplitRaw`. -/
def splitRaw (s : Span) (sep : String) : Except Err (List Span) :=
  if sep.data.length == 0 then .ok [s]
  else
    let steps := traverserRun s
    splitRawGo s sep.data (sep.data.all isAlnumC) (steps.length + 1) steps 0 []

/-- `Split`. -/
def split (s : Span) (sep : String) : Except Err (List Span) := do
  let raw ← splitRaw s sep
  return raw.map strip

/-- `SplitInTwo`. -/
def splitInTwo (s : Span) (sep : String) : Except Err (Span × Span) := do
  let parts ← split s sep
  match parts with
  | [a, b] => return (a, b)
  | _ => .error (.parse ("I expected string to be split by " ++ sep ++ " in two.") s)

/-- `SplitInOneOrTwo`. -/
def splitInOneOrTwo (s : Span) (sep : String) : Except Err (Span ⊕ (Span × Span)) := do
  let parts ← split s sep
  match parts with
  | [a] => return .inl a
  | [a, b] => return .inr (a, b)
  | _ =>
      .error (.parse ("String should have been split by " ++ sep ++ " in 1 or 2 pieces.") s)

/-- One pass of `SplitOnWhitespace`: split every chunk on one separator. -/
def splitAllOn (sep : String) : List Span → Except Err (List Span)
  | [] => .ok []
  | c :: rest => do
      let first ← split c sep
      let more ← splitAllOn sep rest
      return first ++ more

/-- `SplitOnWhitespace`. -/
def splitOnWhitespace (s : Span) : Except Err (List Span) := do
  let s1 ← splitAllOn " " [s]
  let s2 ← splitAllOn "\n" s1
  let s3 ← splitAllOn "\t" s2
  return s3.filter (fun c => c.size != 0)

mutual
/-- Model of the minimal JSON value of the parser. -/
inductive Json where
  | null : Json
  | bool (b : Bool) : Json
  | num (n : Int) : Json
  | str (s : String) : Json
  | arr (a : JArr) : Json
  | obj (o : JObj) : Json
  deriving Repr

/-- Spine of a JSON array (kept as a dedicated inductive so that every
recursive function over `Json` is structural and evaluates in the kernel). -/
inductive JArr where
  | nil : JArr
  | cons (hd : Json) (tl : JArr) : JArr
  deriving Repr

/-- Spine of a JSON object: an insertion-ordered association list with unique
keys (see the header comment for the relation to `std::map`). -/
inductive JObj where
  | nil : JObj
  | cons (k : String) (v : Json) (tl : JObj) : JObj
  deriving Repr
end

mutual
def beqJson : Json → Json → Bool
  | .null, .null => true
  | .bool a, .bool b => a == b
  | .num a, .num b => a == b
  | .str a, .str b => a == b
  | .arr a, .arr b => beqJArr a b
  | .obj a, .obj b => beqJObj a b
  | _, _ => false

def beqJArr : JArr → JArr → Bool
  | .nil, .nil => true
  | .cons a t, .cons b u => beqJson a b && beqJArr t u
  | _, _ => false

def beqJObj : JObj → JObj → Bool
  | .nil, .nil => true
  | .cons k a t, .cons l b u => k == l && beqJson a b && beqJObj t u
  | _, _ => false
end

mutual
def beqJson_iff : ∀ a b : Json, beqJson a b = true ↔ a = b
  | .null, b => by cases b <;> simp [beqJson]
  | .bool x, b => by cases b <;> simp [beqJson]
  | .num x, b => by cases b <;> simp [beqJson]
  | .str x, b => by cases b <;> simp [beqJson]
  | .arr x, b => by cases b <;> simp [beqJson, beqJArr_iff x]
  | .obj x, b => by cases b <;> simp [beqJson, beqJObj_iff x]

def beqJArr_iff : ∀ a b : JArr, beqJArr a b = true ↔ a = b
  | .nil, b => by cases b <;> simp [beqJArr]
  | .cons x t, b => by
      cases b <;> simp [beqJArr, beqJson_iff x, beqJArr_iff t]

def beqJObj_iff : ∀ a b : JObj, beqJObj a b = true ↔ a = b
  | .nil, b => by cases b <;> simp [beqJObj]
  | .cons k x t, b => by
      cases b <;> simp [beqJObj, beqJson_iff x, beqJObj_iff t, and_assoc]
end

instance : DecidableEq Json := fun a b =>
  decidable_of_iff (beqJson a b = true) (beqJson_iff a b)

instance : DecidableEq JArr := fun a b =>
  decidable_of_iff (beqJArr a b = true) (beqJArr_iff a b)

instance : DecidableEq JObj := fun a b =>
  decidable_of_iff (beqJObj a b = true) (beqJObj_iff a b)

def JArr.ofList : List Json → JArr
  | [] => .nil
  | j :: t => .cons j (JArr.ofList t)

def JArr.toList : JArr → List Json
  | .nil => []
  | .cons j t => j :: JArr.toList t

def JArr.append : JArr → JArr → JArr
  | .nil, b => b
  | .cons j t, b => .cons j (JArr.append t b)

def JObj.ofList : List (String × Json) → JObj
  | [] => .nil
  | (k, v) :: t => .cons k v (JObj.ofList t)

/-- `std::map::find` / `count`, as a lookup. -/
def JObj.lookup : JObj → String → Option Json
  | .nil, _ => none
  | .cons k v t, key => if k == key then some v else JObj.lookup t key

/-- `map[key] = val`: replace the value in place, or append a new binding. -/
def JObj.set : JObj → String → Json → JObj
  | .nil, key, val => .cons key val .nil
  | .cons k v t, key, val =>
      if k == key then .cons k val t else .cons k v (JObj.set t key val)

/-- `map::erase(key)`. -/
def JObj.erase : JObj → String → JObj
  | .nil, _ => .nil
  | .cons k v t, key => if k == key then t else .cons k v (JObj.erase t key)

def JObj.hasKey (o : JObj) (key : String) : Bool := (o.lookup key).isSome

/-- An object literal. -/
def jobj (l : List (String × Json)) : Json := .obj (JObj.ofList l)

/-- An array literal. -/
def jarr (l : List Json) : Json := .arr (JArr.ofList l)

/-- `HasKey` of the C++ code: an object containing the key. -/
def Json.hasKey : Json → String → Bool
  | .obj o, key => o.hasKey key
  | _, _ => false

/-- `Json::as_object()`, raising like the C++ `std::get` on a wrong variant. -/
def Json.asObj : Json → Except Err JObj
  | .obj o => .ok o
  | _ => .error (.internal "as_object on non-object")

/-- `Json::as_array()`. -/
def Json.asArr : Json → Except Err JArr
  | .arr a => .ok a
  | _ => .error (.internal "as_array on non-array")

/-- `Json::as_string()`. -/
def Json.asStr : Json → Except Err String
  | .str s => .ok s
  | _ => .error (.internal "as_string on non-string")

/-- `std::map::at`, raising when the key is missing. -/
def JObj.atKey (o : JObj) (key : String) : Except Err Json :=
  match o.lookup key with
  | some v => .ok v
  | none => .error (.internal "map::at key missing")

/-- Fetch `j.as_object().at(key)` in one step. -/
def Json.getKey (j : Json) (key : String) : Except Err Json := do
  (← j.asObj).atKey key

/-- ASCII lower-casing, as C `tolower` in the default locale. -/
def toLowerC (c : Char) : Char :=
  if isUpperC c then Char.ofNat (c.toNat + 32) else c

/-- Hexadecimal digit test. -/
def isHexDigitC (c : Char) : Bool :=
  isDigitC c || ('a' ≤ c && c ≤ 'f') || ('A' ≤ c && c ≤ 'F')

/-- Value of a hexadecimal digit. -/
def hexDigitVal (c : Char) : Nat :=
  if isDigitC c then c.toNat - '0'.toNat
  else if 'a' ≤ c && c ≤ 'f' then 10 + (c.toNat - 'a'.toNat)
  else if 'A' ≤ c && c ≤ 'F' then 10 + (c.toNat - 'A'.toNat)
  else 0

/-- Decimal digit string to a natural number. -/
def digitsToNat (ds : List Char) : Nat :=
  ds.foldl (fun acc c => acc * 10 + (c.toNat - '0'.toNat)) 0

/-- Hexadecimal digit string to a natural number. -/
def hexDigitsToNat (ds : List Char) : Nat :=
  ds.foldl (fun acc c => acc * 16 + hexDigitVal c) 0

/-- A converted `strtod` subject sequence: decimal `m * 10^e`, hexadecimal
`m * 2^e`, infinity, or NaN. -/
inductive NumForm where
  | dec (m : Nat) (e : Int)
  | hex (m : Nat) (e : Int)
  | inf
  | nan
  deriving DecidableEq, Repr

/-- The optional-sign split shared by `strtod` and its exponent part: the
number of sign characters consumed, whether the sign was `-`, and the
remaining characters. -/
def signSplit : List Char → Nat × Bool × List Char
  | '+' :: r => (1, false, r)
  | '-' :: r => (1, true, r)
  | r => (0, false, r)

/-- Exponent part `[eE][+-]?digits` (or `[pP]` for hex), returning the number
of characters consumed and the signed exponent; not consumed when no digit
follows the marker (the longest valid subject sequence ends before it). -/
def munchExp (marks : List Char) (cs : List Char) : Nat × Int :=
  match cs with
  | e :: rest =>
      if marks.contains (toLowerC e) then
        let (signLen, neg, rest') := signSplit rest
        let ds := rest'.takeWhile isDigitC
        if ds.isEmpty then (0, 0)
        else (1 + signLen + ds.length,
              if neg then -(digitsToNat ds : Int) else (digitsToNat ds : Int))
      else (0, 0)
  | [] => (0, 0)

/-- Fractional-part split: an optional `.` followed by digits. -/
def munchFrac (digitTest : Char → Bool) (cs : List Char) : Nat × List Char :=
  match cs with
  | '.' :: rest => (1 + (rest.takeWhile digitTest).length, rest.takeWhile digitTest)
  | _ => (0, [])

/-- `nan(n-char-seq)` character test (C17: digits, letters, underscore). -/
def isNanChar (c : Char) : Bool := isAlnumC c || c == '_'

/-- The number of characters of a numeric `strtod` body (after whitespace and
sign) together with its converted form, or `none` when no conversion is
possible at all.  Follows C17 7.22.1.3: decimal and hexadecimal forms,
`inf`/`infinity` and `nan`/`nan(n-char-seq)` case-insensitively; `0x` with no
hexadecimal digit falls back to the decimal prefix `0`.  The extra characters
consumed by a parenthesised `nan(n-char-seq)` beyond the three of `nan`. -/
def munchNanTail (cs : List Char) : Nat :=
  match cs.drop 3 with
  | '(' :: rest =>
      let seq := rest.takeWhile isNanChar
      if rest.getD seq.length ' ' == ')' then 1 + seq.length + 1
      else 0
  | _ => 0

/-- The hexadecimal branch of the `strtod` body: `0x`/`0X` followed by a
hexadecimal mantissa with optional fraction and `p`-exponent; `none` when the
mantissa has no hexadecimal digit (the caller then falls back to the decimal
reading of the leading `0`). -/
def munchHex (cs : List Char) : Option (Nat × NumForm) :=
  match cs with
  | '0' :: x :: rest =>
      if x == 'x' || x == 'X' then
        let h1 := rest.takeWhile isHexDigitC
        let (fracLen, h2) := munchFrac isHexDigitC (rest.drop h1.length)
        if (h1 ++ h2).isEmpty then none
        else
          let afterMant := rest.drop (h1.length + fracLen)
          let (expLen, e2) := munchExp ['p'] afterMant
          some (2 + h1.length + fracLen + expLen,
                NumForm.hex (hexDigitsToNat (h1 ++ h2)) (e2 - 4 * h2.length))
      else none
  | _ => none

/-- The decimal branch of the `strtod` body: digits with optional fraction
and `e`-exponent; `none` when there is no digit at all. -/
def munchDec (cs : List Char) : Option (Nat × NumForm) :=
  let d1 := cs.takeWhile isDigitC
  let (fracLen, d2) := munchFrac isDigitC (cs.drop d1.length)
  if (d1 ++ d2).isEmpty then none
  else
    let afterMant := cs.drop (d1.length + fracLen)
    let (expLen, e10) := munchExp ['e'] afterMant
    some (d1.length + fracLen + expLen,
          NumForm.dec (digitsToNat (d1 ++ d2)) (e10 - d2.length))

def munchBody (cs : List Char) : Option (Nat × NumForm) :=
  let lower3 := (cs.take 3).map toLowerC
  let lower8 := (cs.take 8).map toLowerC
  if lower8 = "infinity".data then some (8, .inf)
  else if lower3 = "inf".data then some (3, .inf)
  else if lower3 = "nan".data then some (3 + munchNanTail cs, .nan)
  else
    match munchHex cs with
    | some r => some r
    | none => munchDec cs

/-- Model of C `strtod` acceptance: leading whitespace, an optional sign, and
the longest valid numeric body.  Returns the total number of characters of
the subject sequence (the offset of the end pointer) and the converted form;
`none` when no conversion is performed (`end == nptr`). -/
def cStrtod (cs : List Char) : Option (Nat × NumForm) :=
  let ws := (cs.takeWhile isSpaceC).length
  let afterWs := cs.drop ws
  let (signLen, _, rest) := signSplit afterWs
  match munchBody rest with
  | some (n, form) => some (ws + signLen + n, form)
  | none => none

/-- `errno == ERANGE` after `strtod`, for the converted value: overflow beyond
the largest finite double, or (as glibc reports) a nonzero result under the
least normal double `2^-1022`.  The model uses the exact magnitude thresholds
`2^1024` and `2^-1022`; rounding at the very boundary (a sliver below
`2^1024`, a sliver under `2^-1022` that rounds up to it) is not modelled. -/
def strtodRangeErr : NumForm → Bool
  | .dec m e =>
      (if 0 ≤ e then 2 ^ 1024 ≤ m * 10 ^ e.toNat
       else 2 ^ 1024 * 10 ^ (-e).toNat ≤ m) ||
      (m != 0 && (if 0 ≤ e then false else m * 2 ^ 1022 < 10 ^ (-e).toNat))
  | .hex m e =>
      (if 0 ≤ e then 2 ^ 1024 ≤ m * 2 ^ e.toNat
       else 2 ^ 1024 * 2 ^ (-e).toNat ≤ m) ||
      (m != 0 && (if 0 ≤ e then false else m * 2 ^ 1022 < 2 ^ (-e).toNat))
  | .inf => false
  | .nan => false

/-- Spec-side characterization of the optional sign of a `strtod` subject
sequence (C17 7.22.1.3). -/
def IsSignOpt (sgn : List Char) : Prop := sgn = [] ∨ sgn = ['+'] ∨ sgn = ['-']

/-- Value of a signed exponent digit string. -/
def ExpVal (sgn : List Char) (ds : List Char) : Int :=
  if sgn = ['-'] then -(digitsToNat ds : Int) else (digitsToNat ds : Int)

/-- Spec-side characterization of an optional exponent part: empty, or a
marker from `marks` followed by an optional sign and a nonempty digit
string. -/
def IsExpOpt (marks : List Char) (ex : List Char) (e : Int) : Prop :=
  (ex = [] ∧ e = 0) ∨
  ∃ m sgn ds, ex = m :: (sgn ++ ds) ∧ marks.contains (toLowerC m) = true ∧
    IsSignOpt sgn ∧ ds ≠ [] ∧ ds.all isDigitC = true ∧ e = ExpVal sgn ds

/-- Spec-side characterization of an optional fraction part: empty, or a
point followed by digits (`ds` are the fraction digits). -/
def IsFracOpt (digitTest : Char → Bool) (fr ds : List Char) : Prop :=
  (fr = [] ∧ ds = []) ∨ (fr = '.' :: ds ∧ ds.all digitTest = true)

/-- Spec-side characterization of a complete `strtod` body and its converted
form: `infinity`/`inf`, `nan`/`nan(n-char-seq)` (case-insensitively), a
hexadecimal `0x` mantissa with optional fraction and `p`-exponent, or a
decimal mantissa with optional fraction and `e`-exponent. -/
def StrtodBody (body : List Char) (form : NumForm) : Prop :=
  (body.map toLowerC = "infinity".data ∧ form = .inf) ∨
  (body.map toLowerC = "inf".data ∧ form = .inf) ∨
  ((body.take 3).map toLowerC = "nan".data ∧
     (body.drop 3 = [] ∨
       ∃ seq, body.drop 3 = '(' :: (seq ++ [')']) ∧ seq.all isNanChar = true) ∧
     form = .nan) ∨
  (∃ x h1 fr h2 ex e, body = '0' :: x :: (h1 ++ fr ++ ex) ∧ (x = 'x' ∨ x = 'X') ∧
     h1.all isHexDigitC = true ∧ IsFracOpt isHexDigitC fr h2 ∧ h1 ++ h2 ≠ [] ∧
     IsExpOpt ['p'] ex e ∧ form = .hex (hexDigitsToNat (h1 ++ h2)) (e - 4 * h2.length)) ∨
  (∃ d1 fr d2 ex e, body = d1 ++ fr ++ ex ∧ d1.all isDigitC = true ∧
     IsFracOpt isDigitC fr d2 ∧ d1 ++ d2 ≠ [] ∧ IsExpOpt ['e'] ex e ∧
     form = .dec (digitsToNat (d1 ++ d2)) (e - d2.length))

/-- Spec-side characterization of a whole text accepted by `strtod`: leading
whitespace, an optional sign and a complete body covering every character. -/
def StrtodWholeNum (cs : List Char) (form : NumForm) : Prop :=
  ∃ ws sgn body, cs = ws ++ sgn ++ body ∧ ws.all isSpaceC = true ∧ IsSignOpt sgn ∧
    StrtodBody body form


/-- `ParseNumber`. -/
def parseNumber (s0 : Span) : Option Json :=
  let s := if s0.endsWith "u" then s0.slice 0 (s0.size - 1) else s0
  if s.str == "∞" then some (jobj [("number", .str "-1")])
  else
    match cStrtod s.view with
    | none => none
    | some (consumed, form) =>
        if consumed == s.size && !strtodRangeErr form then
          some (jobj [("number", .str s.str)])
        else none

/-- The character-accumulation loop of `ParsePythonStyleStringLiteral`; `i`
walks the interior `[1, size-1)` of the quoted text.  Escapes `\xHH`,
`\uHHHH` and `\UHHHHHHHH` append the decoded scalar (the C++ appends its
UTF-8 bytes; over a `Char` buffer the scalar itself is the counterpart). -/
def pyLitGo (v : List Char) : Nat → Nat → List Char → List Char
  | 0, _, acc => acc
  | fuel + 1, i, acc =>
    if i + 1 < v.length then
      let c := v.getD i ' '
      if c != '\\' then pyLitGo v fuel (i + 1) (acc ++ [c])
      else if v.length - 1 ≤ i + 1 then pyLitGo v fuel (i + 1) (acc ++ ['\\'])
      else
        let j := i + 1
        let n := v.getD j ' '
        if n == '\\' then pyLitGo v fuel (j + 1) (acc ++ ['\\'])
        else if n == 'n' then pyLitGo v fuel (j + 1) (acc ++ ['\n'])
        else if n == 'r' then pyLitGo v fuel (j + 1) (acc ++ ['\r'])
        else if n == 't' then pyLitGo v fuel (j + 1) (acc ++ ['\t'])
        else if n == '\'' then pyLitGo v fuel (j + 1) (acc ++ ['\''])
        else if n == '"' then pyLitGo v fuel (j + 1) (acc ++ ['"'])
        else if n == 'x' then
          if j + 2 < v.length - 1 &&
              isHexDigitC (v.getD (j + 1) ' ') && isHexDigitC (v.getD (j + 2) ' ') then
            let code := hexDigitVal (v.getD (j + 1) ' ') * 16 + hexDigitVal (v.getD (j + 2) ' ')
            pyLitGo v fuel (j + 3) (acc ++ [Char.ofNat code])
          else pyLitGo v fuel (j + 1) acc
        else if n == 'u' then
          if j + 4 < v.length - 1 &&
              ((List.range 4).all fun k => isHexDigitC (v.getD (j + 1 + k) ' ')) then
            let code := hexDigitsToNat ((List.range 4).map fun k => v.getD (j + 1 + k) ' ')
            pyLitGo v fuel (j + 5) (acc ++ [Char.ofNat code])
          else pyLitGo v fuel (j + 1) acc
        else if n == 'U' then
          if j + 8 < v.length - 1 &&
              ((List.range 8).all fun k => isHexDigitC (v.getD (j + 1 + k) ' ')) then
            let code := hexDigitsToNat ((List.range 8).map fun k => v.getD (j + 1 + k) ' ')
            pyLitGo v fuel (j + 9) (acc ++ [Char.ofNat code])
          else pyLitGo v fuel (j + 1) acc
        else pyLitGo v fuel (j + 1) (acc ++ [n])
    else acc

/-- `ParsePythonStyleStringLiteral`. -/
def parsePythonStyleStringLiteral (s : Span) : String :=
  let v := s.view
  if v.length < 2 then ""
  else String.mk (pyLitGo v (v.length + 1) 1 [])

/-- The screened-quote scan of `ParseString` for `'…'` bodies: `true` when an
unescaped inner quote occurs (the python `break`). -/
def singleQuoteBroke : List Char → Bool → Bool
  | [], _ => false
  | c :: rest, screen =>
      if screen then singleQuoteBroke rest false
      else if c == '\'' then true
      else singleQuoteBroke rest (c == '\\')

/-- Substring occurrence test (`std::string_view::find != npos`). -/
def containsSub (v pat : List Char) : Bool :=
  match v with
  | [] => pat.isEmpty
  | _ :: rest => pat.isPrefixOf v || containsSub rest pat

/-- `ParseString`. -/
def parseString (s : Span) : Option Json :=
  let v := s.view
  if 2 ≤ v.length && v.headD ' ' == '"' && v.getLastD ' ' == '"' &&
      !((v.drop 1).take (v.length - 2)).contains '"' then
    some (jobj [("the_string", .str (String.mk ((v.drop 1).take (v.length - 2))))])
  else if 2 ≤ v.length && v.headD ' ' == '\'' && v.getLastD ' ' == '\'' &&
      !singleQuoteBroke ((v.drop 1).take (v.length - 2)) false then
    some (jobj [("the_string", .str (parsePythonStyleStringLiteral s))])
  else if 6 ≤ v.length && (v.take 3) = ['"', '"', '"'] &&
      (v.drop (v.length - 3)) = ['"', '"', '"'] &&
      !containsSub ((v.drop 3).take (v.length - 6)) ['"', '"', '"'] then
    some (jobj [("the_string", .str (String.mk ((v.drop 3).take (v.length - 6))))])
  else none

/-- `ParseBoolean`. -/
def parseBoolean (s : Span) : Option Json :=
  if s.str == "true" || s.str == "false" then some (jobj [("the_bool", .str s.str)])
  else none

/-- `ParseNull`. -/
def parseNull (s : Span) : Option Json :=
  if s.str == "null" then some (jobj [("the_null", .str "null")]) else none

/-- `ParsePredicateLiteral`. -/
def parsePredicateLiteral (s : Span) : Option Json :=
  let text := s.str
  if text == "++?" || text == "nil" then some (jobj [("predicate_name", .str text)])
  else
    match s.view with
    | [] => none
    | c :: _ =>
        if !isUpperC c then none
        else if s.view.all (fun ch => isAlphaC ch || isDigitC ch || ch == '_') then
          some (jobj [("predicate_name", .str text)])
        else none

/-- `IsVariableChars`. -/
def isVariableChars (s : Span) : Bool :=
  s.view.all (fun c => isLowerC c || isDigitC c || c == '_')

/-- `ParseVariable`. -/
def parseVariable (s : Span) : Except Err (Option Json) :=
  match s.view with
  | [] => .ok none
  | c0 :: _ =>
      if !(isLowerC c0 || c0 == '_') then .ok none
      else if !isVariableChars s then .ok none
      else if s.startsWith "x_" then
        .error (.parse "Variables starting with x_ are reserved to be Logica compiler internal. Please use a different name." s)
      else .ok (some (jobj [("var_name", .str s.str)]))

/-- The global `TOO_MUCH` incantation switch, modelled as an explicit boolean
parameter `tm` (`true` for `TOO_MUCH == "fun"`) threaded through the parsing
routines; `EnactIncantations` computes it from the top-level source. -/
def enactIncantations (code : String) : Bool :=
  containsSub code.data "Signa inter verba conjugo, symbolum infixus evoco!".data

/-- `FunctorSyntaxErrorMessage`. -/
def functorSyntaxErrorMessage : String :=
  "Incorrect syntax for functor call. Functor call to be made as\n  R := F(A: V, ...)\nor\n  @Make(R, F, \x7bA: V, ...\x7d)\nWhere R, F, A's and V's are all predicate names."

/-- The `good_chars` set of `ParseGenericCall`. -/
def goodCallChars (tm : Bool) : List Char :=
  "abcdefghijklmnopqrstuvwxyzABCDEFGHIJKLMNOPQRSTUVWXYZ0123456789@_.${}+-`".data ++
    (if tm then "*^%/".data ++ [Char.ofNat 0] else [])

/-- The step-scanning loop of `ParseGenericCall`, looking for the first point
where the stack is exactly the opening bracket. -/
def genericCallScan (tm : Bool) (s : Span) (opening : Char) :
    List TStep → Except Err (Option Nat)
  | [] => .ok none
  | step :: rest =>
    if step.status != .ok then
      .error (.parse "Parenthesis matches nothing." (s.slice step.idx (step.idx + 1)))
    else if step.state == [opening] then
      let idx := step.idx
      let pred := (s.slice 0 idx).str
      let allGood := pred.data.all (fun c => (goodCallChars tm).contains c)
      if (0 < idx && allGood) || pred == "!" || pred == "++?" ||
          (2 ≤ idx && s.at 0 == '`' && s.at (idx - 1) == '`') then
        .ok (some idx)
      else .ok none
    else if !step.state.isEmpty && step.state != ['{'] && step.state.getLastD ' ' != '`' then
      .ok none
    else genericCallScan tm s opening rest

/-- `ParseGenericCall`. -/
def parseGenericCall (tm : Bool) (input : Span) (opening closing : Char) :
    Except Err (Option (String × Span)) := do
  let s := strip input
  if s.size == 0 then return none
  let pre : Option (Nat × String) ←
    if s.startsWith "->" then pure (some (2, "->"))
    else do
      match (← genericCallScan tm s opening (traverserRun s)) with
      | none => pure none
      | some idx => pure (some (idx, (s.slice 0 idx).str))
  match pre with
  | none => return none
  | some (idx, predicate) =>
      if s.at idx == opening && s.at (s.size - 1) == closing &&
          isWhole (s.slice (idx + 1) (s.size - 1)) then
        let predicate := if predicate == "`=`" then "=" else predicate
        let predicate := if predicate == "`~`" then "~" else predicate
        return some (predicate, s.slice (idx + 1) (s.size - 1))
      else return none

/-- `BuildTreeForCombine`. -/
def buildTreeForCombine (parsedExpression : Json) (op : Span) (parsedBody : Option Json)
    (fullText : Span) : Json :=
  let agg := jobj [("operator", .str op.str), ("argument", parsedExpression),
                   ("expression_heritage", .str fullText.str)]
  let aggFv := jobj [("field", .str "logica_value"), ("value", jobj [("aggregation", agg)])]
  let head := jobj [("predicate_name", .str "Combine"),
                    ("record", jobj [("field_value", jarr [aggFv])])]
  let result := jobj [("head", head), ("distinct_denoted", .bool true),
                      ("full_text", .str fullText.str)]
  match parsedBody with
  | some b =>
      match result with
      | .obj o => .obj (o.set "body" (jobj [("conjunction", b)]))
      | _ => result
  | none => result

/-- `NegationTree`. -/
def negationTree (s : Span) (negatedProposition : Json) : Json :=
  let numberOne := jobj [("literal", jobj [("the_number", jobj [("number", .str "1")])])]
  let agg := jobj [("operator", .str "Min"), ("argument", numberOne),
                   ("expression_heritage", .str s.str)]
  let fv := jobj [("field", .str "logica_value"), ("value", jobj [("aggregation", agg)])]
  let head := jobj [("predicate_name", .str "Combine"),
                    ("record", jobj [("field_value", jarr [fv])])]
  let combine := jobj [("body", negatedProposition), ("distinct_denoted", .bool true),
                       ("full_text", .str s.str), ("head", head)]
  let isnullFv := jobj [("field", .num 0),
                        ("value", jobj [("expression", jobj [("combine", combine)])])]
  let isnull := jobj [("predicate_name", .str "IsNull"),
                      ("record", jobj [("field_value", jarr [isnullFv])])]
  jobj [("predicate", isnull)]

/-- `PropositionalImplication` (the tree builder shared by `=>` and `<=>`). -/
def propositionalImplication (s consequenceStr : Span) (condition consequence : Json) :
    Except Err Json := do
  let ensureConjunction (x : Json) : Json :=
    if x.hasKey "conjunction" then x
    else jobj [("conjunction", jobj [("conjunct", jarr [x])])]
  let conjuncts ←
    if condition.hasKey "conjunction" then do
      pure (← (← (← condition.getKey "conjunction").getKey "conjunct").asArr)
    else pure (JArr.cons condition .nil)
  let conjuncts := conjuncts.append
    (JArr.cons (negationTree consequenceStr (ensureConjunction consequence)) .nil)
  return negationTree s (jobj [("conjunction", jobj [("conjunct", .arr conjuncts)])])

/-- Append one field-value entry to `call["record"]["field_value"]` (the
`push_back` mutations of `ParseHeadCall`). -/
def jsonAppendFv (call fv : Json) : Except Err Json := do
  let rec' ← call.getKey "record"
  let fvs ← (← rec'.getKey "field_value").asArr
  let recObj ← rec'.asObj
  let callObj ← call.asObj
  return .obj (callObj.set "record"
    (.obj (recObj.set "field_value" (.arr (fvs.append (JArr.cons fv .nil))))))

/-- `NestedElement`: fold the positional subscript arguments into nested
`Element` calls.  An empty argument list dereferences an empty optional in the
C++ code; that is the `internal` error case here. -/
def nestedElementGo (s : Span) (array : Json) : JArr → Nat → Option Json →
    Except Err (Option Json)
  | .nil, _, result => .ok result
  | .cons fv rest, i, result => do
      let fvo ← fv.asObj
      if !fvo.hasKey "field" then
        .error (.parse "Internal error in array subscription." s)
      else
        let field ← fvo.atKey "field"
        match field with
        | .num n =>
            if n != (i : Int) then
              .error (.parse "Array subscription must only have positional arguments." s)
            else do
              let fvo := fvo.set "field" (.num 1)
              let firstArgument := match result with
                | some r => jobj [("call", r)]
                | none => array
              let elementFvs := jarr [jobj [("field", .num 0),
                                            ("value", jobj [("expression", firstArgument)])],
                                      .obj fvo]
              let call := jobj [("predicate_name", .str "Element"),
                                ("record", jobj [("field_value", elementFvs)])]
              nestedElementGo s array rest (i + 1) (some call)
        | _ => .error (.parse "Array subscription must only have positional arguments." s)

/-- `NestedElement`. -/
def nestedElement (s : Span) (array args : Json) : Except Err Json := do
  let fvs ← (← args.getKey "field_value").asArr
  match (← nestedElementGo s array fvs 0 none) with
  | some r => .ok r
  | none => .error (.internal "empty optional in NestedElement")

/-- The base infix operator table of `ParseInfix`. -/
def baseInfixOps : List String :=
  ["||", "&&", "->", "==", "<=", ">=", "<", ">", "!=", "=", "~",
   " in ", " is not ", " is ", "++?", "++", "+", "-", "*", "/", "%", "^", "!"]

/-- ASCII white-space trim of an operator name (the loops at the end of
`ParseInfix`). -/
def trimOpName (op : String) : String :=
  String.mk (((op.data.dropWhile isSpaceC).reverse.dropWhile isSpaceC).reverse)

/-- Wrap a value under a single key. -/
def jwrap (k : String) (v : Json) : Json := jobj [(k, v)]

/-- Penultimate element of a list (`parts[parts.size() - 2]`). -/
def penultimate (l : List Span) (d : Span) : Span := (l.dropLast.getLastD d)

mutual

/-- `ParseExpression`: parse and stamp the heritage. -/
def parseExpression (tm : Bool) : Nat → Span → Except Err Json
  | 0, _ => .error .fuel
  | fuel + 1, s => do
    let e ← actuallyParseExpression tm fuel s
    let o ← e.asObj
    return .obj (o.set "expression_heritage" (.str s.str))

/-- `ActuallyParseExpression`: the ordered production list for expressions. -/
def actuallyParseExpression (tm : Bool) : Nat → Span → Except Err Json
  | 0, _ => .error .fuel
  | fuel + 1, s => do
    if let some v ← parseCombine tm fuel s then return jwrap "combine" v
    if let some v ← parseImplication tm fuel s then return jwrap "implication" v
    if let some v ← parseLiteral tm fuel s then return jwrap "literal" v
    if let some v := (← parseVariable s) then return jwrap "variable" v
    if let some v ← parseRecord tm fuel s then return jwrap "record" v
    if let some v ← parsePropImpl tm fuel s then
      if v.hasKey "predicate" then return jwrap "call" (← v.getKey "predicate")
    if let some v ← parseCall tm fuel s false then return jwrap "call" v
    if let some v ← parseUltraConciseCombine tm fuel s then return jwrap "combine" v
    if let some v ← parseInfixOp tm fuel s none (some ["~"]) then return jwrap "call" v
    if let some v ← parseSubscript tm fuel s then return jwrap "subscript" v
    if let some v ← parseNegationExpression tm fuel s then return v
    if let some v ← parseArraySub tm fuel s then return jwrap "call" v
    .error (.parse "Could not parse expression of a value." s)

/-- `ParseProposition`: the ordered production list for propositions. -/
def parseProposition (tm : Bool) : Nat → Span → Except Err Json
  | 0, _ => .error .fuel
  | fuel + 1, s => do
    if let some c ← parseDisjunction tm fuel s then return jwrap "disjunction" c
    let strConjuncts ← split s ","
    if let some c ← parseConjunction tm fuel s false then
      if 1 < strConjuncts.length then return jwrap "conjunction" c
    if tm then
      if let some c ← parsePropEquiv tm fuel s then
        return jwrap "conjunction" (jwrap "conjunct" (jarr [c]))
    if let some c ← parsePropImpl tm fuel s then return c
    if let some _ ← parseImplication tm fuel s then
      .error (.parse "If-then-else clause is only supported as an expression, not as a proposition." s)
    if let some c ← parseCall tm fuel s false then return jwrap "predicate" c
    if let some c ← parseInfixOp tm fuel s (some ["&&", "||"]) none then
      return jwrap "predicate" c
    if let some u ← parseUnification tm fuel s then return jwrap "unification" u
    if let some inc ← parseInclusion tm fuel s then return jwrap "inclusion" inc
    if let some cc ← parseConciseCombine tm fuel s then return jwrap "unification" cc
    if let some inf ← parseInfixOp tm fuel s none none then return jwrap "predicate" inf
    if let some neg ← parseNegation tm fuel s then return neg
    .error (.parse "Could not parse proposition." s)

/-- `ParseLiteral`. -/
def parseLiteral (tm : Bool) : Nat → Span → Except Err (Option Json)
  | 0, _ => .error .fuel
  | fuel + 1, s => do
    if let some v := parseNumber s then return some (jwrap "the_number" v)
    if let some v := parseString s then return some (jwrap "the_string" v)
    if let some v ← parseList tm fuel s then return some (jwrap "the_list" v)
    if let some v := parseBoolean s then return some (jwrap "the_bool" v)
    if let some v := parseNull s then return some (jwrap "the_null" v)
    if let some v := parsePredicateLiteral s then return some (jwrap "the_predicate" v)
    return none

/-- `ParseList`. -/
def parseList (tm : Bool) : Nat → Span → Except Err (Option Json)
  | 0, _ => .error .fuel
  | fuel + 1, s => do
    if 2 ≤ s.size && s.at 0 == '[' && s.at (s.size - 1) == ']' &&
        isWhole (s.slice 1 (s.size - 1)) then
      let inside := strip (s.slice 1 (s.size - 1))
      let elements ←
        if inside.size != 0 then do
          let elementsStr ← split inside ","
          parseExprList tm fuel elementsStr
        else pure .nil
      return some (jwrap "element" (.arr elements))
    else return none

/-- Map `ParseExpression` over a list of spans. -/
def parseExprList (tm : Bool) : Nat → List Span → Except Err JArr
  | 0, _ => .error .fuel
  | _, [] => .ok .nil
  | fuel + 1, e :: rest => do
      let v ← parseExpression tm fuel e
      let more ← parseExprList tm fuel rest
      return .cons v more

/-- Map `ParseProposition` over a list of spans (conjunct lists). -/
def parsePropList (tm : Bool) : Nat → List Span → Except Err JArr
  | 0, _ => .error .fuel
  | _, [] => .ok .nil
  | fuel + 1, p :: rest => do
      let v ← parseProposition tm fuel p
      let more ← parsePropList tm fuel rest
      return .cons v more

/-- `ParseRecord`. -/
def parseRecord (tm : Bool) : Nat → Span → Except Err (Option Json)
  | 0, _ => .error .fuel
  | fuel + 1, input => do
    let s := strip input
    if 2 ≤ s.size && s.at 0 == '{' && s.at (s.size - 1) == '}' &&
        isWhole (s.slice 1 (s.size - 1)) then
      return some (← parseRecordInternals tm fuel (s.slice 1 (s.size - 1)) true false)
    else return none

/-- `ParseRecordInternals`. -/
def parseRecordInternals (tm : Bool) : Nat → Span → Bool → Bool → Except Err Json
  | 0, _, _, _ => .error .fuel
  | fuel + 1, input, isRecordLiteral, isAggregationAllowed => do
    let s := strip input
    if 1 < (← split s ":-").length then
      .error (.parse "Unexpected :- in record internals." s)
    else if s.size == 0 then
      return jwrap "field_value" (jarr [])
    else if isWhole s then do
      let fieldValues ← split s ","
      let result ← parseRecordFVs tm fuel isRecordLiteral isAggregationAllowed
        fieldValues 0 false true []
      return jwrap "field_value" (.arr result)
    else
      return jwrap "field_value" (jarr [])

/-- The entry loop of `ParseRecordInternals` over the comma-separated
entries, carrying the 0-based index, the rest-of flag, the positional flag
and the observed field names. -/
def parseRecordFVs (tm : Bool) : Nat → Bool → Bool → List Span → Nat → Bool → Bool →
    List String → Except Err JArr
  | 0, _, _, _, _, _, _, _ => .error .fuel
  | _, _, _, [], _, _, _, _ => .ok .nil
  | fuel + 1, isRecordLiteral, isAggregationAllowed, fieldValue :: rest, idx,
      hadRestof, positionalOk, observed => do
    if hadRestof then
      .error (.parse "Field ..<rest_of> must go last." fieldValue)
    else if fieldValue.startsWith ".." then
      if isRecordLiteral then
        .error (.parse "Field ..<rest_of> in record literals is not currently suppported." fieldValue)
      else do
        let expr ← parseExpression tm fuel (fieldValue.sliceFrom 2)
        let item := jobj ([("field", .str "*"), ("value", jwrap "expression" expr)] ++
          (if observed.isEmpty then []
           else [("except", .arr (JArr.ofList (observed.map Json.str)))]))
        let more ← parseRecordFVs tm fuel isRecordLiteral isAggregationAllowed rest
          (idx + 1) true false observed
        return .cons item more
    else do
      match (← splitInOneOrTwo fieldValue ":") with
      | .inr (field, value0) => do
          let value ←
            if value0.size == 0 then do
              if field.size != 0 && isUpperC (field.at 0) then
                .error (.parse "Record fields may not start with capital letter." field)
              else if field.size != 0 && field.at 0 == '`' then
                .error (.parse "Backticks in variable names are disallowed." field)
              else pure field
            else pure value0
          let expr ← parseExpression tm fuel value
          let fv := jobj [("field", .str field.str), ("value", jwrap "expression" expr)]
          let more ← parseRecordFVs tm fuel isRecordLiteral isAggregationAllowed rest
            (idx + 1) hadRestof false (observed ++ [field.str])
          return .cons fv more
      | .inl _ => do
          match (← splitInOneOrTwo fieldValue "?") with
          | .inr (field, value) => do
              if !isAggregationAllowed then
                .error (.parse "Aggregation of fields is only allowed in the head of a rule." fieldValue)
              else if field.size == 0 then
                .error (.parse "Aggregated fields have to be named." fieldValue)
              else do
                let (op, expr) ← splitInTwo value "="
                let op := strip op
                let argument ← parseExpression tm fuel expr
                let agg := jobj [("operator", .str op.str), ("argument", argument),
                                 ("expression_heritage", .str value.str)]
                let fv := jobj [("field", .str field.str), ("value", jwrap "aggregation" agg)]
                let more ← parseRecordFVs tm fuel isRecordLiteral isAggregationAllowed rest
                  (idx + 1) hadRestof false (observed ++ [field.str])
                return .cons fv more
          | .inl _ => do
              if positionalOk then do
                let expr ← parseExpression tm fuel fieldValue
                let fv := jobj [("field", .num idx), ("value", jwrap "expression" expr)]
                let more ← parseRecordFVs tm fuel isRecordLiteral isAggregationAllowed rest
                  (idx + 1) hadRestof positionalOk
                  (observed ++ ["col" ++ toString idx])
                return .cons fv more
              else
                .error (.parse "Positional argument can not go after non-positional arguments." fieldValue)

/-- The operator loop of `ParseInfix`. -/
def parseInfixGo (tm : Bool) : Nat → Span → List String → List String →
    Except Err (Option Json)
  | 0, _, _, _ => .error .fuel
  | _, _, [], _ => .ok none
  | fuel + 1, s, op :: ops, dis => do
    if dis.contains op then parseInfixGo tm fuel s ops dis
    else do
      let parts ← splitRaw s op
      if 1 < parts.length then do
        let dflt := s.slice 0 0
        let left0 := Span.abs s.heritage s.start (penultimate parts dflt).stop
        let right0 := Span.abs s.heritage (parts.getLastD dflt).start s.stop
        if op == "~" && !left0.view.isEmpty && left0.view.getLastD ' ' == '!' then
          parseInfixGo tm fuel s ops dis
        else do
          let left := strip left0
          let right := strip right0
          if (op == "-" || op == "!") && left.size == 0 then do
            let rec' ← parseRecordInternals tm fuel right false false
            return some (jobj [("predicate_name", .str op), ("record", rec')])
          else if op == "~" && left.size == 0 then
            return none
          else do
            let leftExpr ← parseExpression tm fuel left
            let rightExpr ← parseExpression tm fuel right
            let fvs := jarr [jobj [("field", .str "left"),
                                   ("value", jwrap "expression" leftExpr)],
                             jobj [("field", .str "right"),
                                   ("value", jwrap "expression" rightExpr)]]
            return some (jobj [("predicate_name", .str (trimOpName op)),
                               ("record", jwrap "field_value" fvs)])
      else parseInfixGo tm fuel s ops dis

/-- `ParseInfix`. -/
def parseInfixOp (tm : Bool) : Nat → Span → Option (List String) → Option (List String) →
    Except Err (Option Json)
  | 0, _, _, _ => .error .fuel
  | fuel + 1, s, operators, disallow =>
    let userDefined := if tm then ["---", "-+-", "-*-", "-/-", "-%-", "-^-"] else []
    let ops := match operators with
      | some o => o
      | none => userDefined ++ baseInfixOps
    parseInfixGo tm fuel s ops (disallow.getD [])

/-- `ParseCombine`. -/
def parseCombine (tm : Bool) : Nat → Span → Except Err (Option Json)
  | 0, _ => .error .fuel
  | fuel + 1, input => do
    if !input.startsWith "combine " then return none
    let s := input.sliceFrom "combine ".length
    let vb ← splitInOneOrTwo s ":-"
    let (value, body?) := match vb with
      | .inl _ => (s, none)
      | .inr (v, b) => (v, some b)
    let (op, expr) ← splitInTwo value "="
    let op := strip op
    let parsedExpression ← parseExpression tm fuel expr
    let parsedBody ← parseBodyConjunction tm fuel body?
    return some (buildTreeForCombine parsedExpression op parsedBody s)

/-- Shared body handling of the combine forms: split on `,` and parse each
conjunct. -/
def parseBodyConjunction (tm : Bool) : Nat → Option Span → Except Err (Option Json)
  | 0, _ => .error .fuel
  | _, none => .ok none
  | fuel + 1, some body => do
      let conj ← split body ","
      let conjuncts ← parsePropList tm fuel conj
      return some (jwrap "conjunct" (.arr conjuncts))

/-- `ParseImplication`. -/
def parseImplication (tm : Bool) : Nat → Span → Except Err (Option Json)
  | 0, _ => .error .fuel
  | fuel + 1, s => do
    if !(s.startsWith "if " || s.startsWith "if\n") then return none
    let inner := s.sliceFrom 3
    let ifThens ← split inner "else if"
    let dflt := s.slice 0 0
    let (lastThen, lastElse) ← splitInTwo (ifThens.getLastD dflt) "else"
    let ifThens := ifThens.dropLast ++ [lastThen]
    let resultIfThens ← parseIfThens tm fuel ifThens
    let otherwise ← parseExpression tm fuel lastElse
    return some (jobj [("if_then", .arr resultIfThens), ("otherwise", otherwise)])

/-- The `cond then cons` loop of `ParseImplication`. -/
def parseIfThens (tm : Bool) : Nat → List Span → Except Err JArr
  | 0, _ => .error .fuel
  | _, [] => .ok .nil
  | fuel + 1, condCons :: rest => do
      let (cond, cons) ← splitInTwo condCons "then"
      let condition ← parseExpression tm fuel cond
      let consequence ← parseExpression tm fuel cons
      let more ← parseIfThens tm fuel rest
      return .cons (jobj [("condition", condition), ("consequence", consequence)]) more

/-- `ParseConciseCombine`. -/
def parseConciseCombine (tm : Bool) : Nat → Span → Except Err (Option Json)
  | 0, _ => .error .fuel
  | fuel + 1, s => do
    let parts ← split s "="
    match parts with
    | [lhsAndOp, combine] => do
        let leftParts ← splitOnWhitespace lhsAndOp
        if leftParts.length ≤ 1 then return none
        let dflt := s.slice 0 0
        let lhs := Span.abs s.heritage s.start (penultimate leftParts dflt).stop
        let op := leftParts.getLastD dflt
        if op.str == "!" || op.str == "<" || op.str == ">" then return none
        if op.size != 0 && isLowerC (op.at 0) then return none
        let leftExpr ← parseExpression tm fuel lhs
        let eb ← splitInOneOrTwo combine ":-"
        let (expr, body?) := match eb with
          | .inl _ => (combine, none)
          | .inr (e, b) => (e, some b)
        let parsedExpression ← parseExpression tm fuel expr
        let parsedBody ← parseBodyConjunction tm fuel body?
        let rightExpr := buildTreeForCombine parsedExpression op parsedBody s
        let rhs := jobj [("combine", rightExpr), ("expression_heritage", .str s.str)]
        return some (jobj [("left_hand_side", leftExpr), ("right_hand_side", rhs)])
    | _ => return none

/-- `ParseUltraConciseCombine`. -/
def parseUltraConciseCombine (tm : Bool) : Nat → Span → Except Err (Option Json)
  | 0, _ => .error .fuel
  | fuel + 1, s => do
    match (← parseGenericCall tm s '{' '}') with
    | none => return none
    | some (pred, multiset) => do
        let op := Span.ofString pred
        let vb ← splitInOneOrTwo multiset ":-"
        let (value, body?) := match vb with
          | .inl _ => (multiset, none)
          | .inr (v, b) => (v, some b)
        let parsedExpression ← parseExpression tm fuel value
        let parsedBody ← parseBodyConjunction tm fuel body?
        return some (buildTreeForCombine parsedExpression op parsedBody s)

/-- `ParseInclusion`. -/
def parseInclusion (tm : Bool) : Nat → Span → Except Err (Option Json)
  | 0, _ => .error .fuel
  | fuel + 1, s => do
    let parts ← split s " in "
    match parts with
    | [element, list] => do
        let listExpr ← parseExpression tm fuel list
        let elementExpr ← parseExpression tm fuel element
        return some (jobj [("list", listExpr), ("element", elementExpr)])
    | _ => return none

/-- `ParseCall`. -/
def parseCall (tm : Bool) : Nat → Span → Bool → Except Err (Option Json)
  | 0, _, _ => .error .fuel
  | fuel + 1, s, isAggregationAllowed => do
    match (← parseGenericCall tm s '(' ')') with
    | none => return none
    | some (pred, inner) => do
        let args ← parseRecordInternals tm fuel inner false isAggregationAllowed
        return some (jobj [("predicate_name", .str pred), ("record", args)])

/-- `ParseArraySub`. -/
def parseArraySub (tm : Bool) : Nat → Span → Except Err (Option Json)
  | 0, _ => .error .fuel
  | fuel + 1, s => do
    match (← parseGenericCall tm s '[' ']') with
    | none => return none
    | some (pred, inner) => do
        let args ← parseRecordInternals tm fuel inner false false
        let array ← parseExpression tm fuel (Span.ofString pred)
        return some (← nestedElement s array args)

/-- `ParseUnification`. -/
def parseUnification (tm : Bool) : Nat → Span → Except Err (Option Json)
  | 0, _ => .error .fuel
  | fuel + 1, s => do
    let parts ← split s "=="
    match parts with
    | [l, r] => do
        let lhs ← parseExpression tm fuel l
        let rhs ← parseExpression tm fuel r
        return some (jobj [("left_hand_side", lhs), ("right_hand_side", rhs)])
    | _ => return none

/-- `ParseNegation`. -/
def parseNegation (tm : Bool) : Nat → Span → Except Err (Option Json)
  | 0, _ => .error .fuel
  | fuel + 1, s => do
    let parts ← split s "~"
    if parts.length == 1 then return none
    let dflt := s.slice 0 0
    if parts.length != 2 || (parts.headD dflt).size != 0 then
      .error (.parse "Negation \"~\" is a unary operator." s)
    else do
      let negated := strip (parts.getLastD dflt)
      let conjParts ← split negated ","
      let conjuncts ← parsePropList tm fuel conjParts
      let negatedProp := jwrap "conjunction" (jwrap "conjunct" (.arr conjuncts))
      return some (negationTree s negatedProp)

/-- `ParseNegationExpression`. -/
def parseNegationExpression (tm : Bool) : Nat → Span → Except Err (Option Json)
  | 0, _ => .error .fuel
  | fuel + 1, s => do
    match (← parseNegation tm fuel s) with
    | none => return none
    | some proposition => return some (jwrap "call" (← proposition.getKey "predicate"))

/-- `ParseSubscript`. -/
def parseSubscript (tm : Bool) : Nat → Span → Except Err (Option Json)
  | 0, _ => .error .fuel
  | fuel + 1, s => do
    let path ← splitRaw s "."
    if path.length < 2 then return none
    let dflt := s.slice 0 0
    let recordStr := Span.abs s.heritage s.start (penultimate path dflt).stop
    let record ← parseExpression tm fuel (strip recordStr)
    let last := path.getLastD dflt
    if !last.view.all (fun c => isLowerC c || isDigitC c || c == '_') then
      .error (.parse "Subscript must be lowercase." s)
    else do
      let sub := jwrap "literal" (jwrap "the_symbol" (jobj [("symbol", .str last.str)]))
      return some (jobj [("record", record), ("subscript", sub)])

/-- `ParseDisjunction`. -/
def parseDisjunction (tm : Bool) : Nat → Span → Except Err (Option Json)
  | 0, _ => .error .fuel
  | fuel + 1, s => do
    let parts ← split s "|"
    if parts.length == 1 then return none
    let disj ← parsePropList tm fuel parts
    return some (jwrap "disjunct" (.arr disj))

/-- `ParseConjunction`. -/
def parseConjunction (tm : Bool) : Nat → Span → Bool → Except Err (Option Json)
  | 0, _, _ => .error .fuel
  | fuel + 1, s, allowSingleton => do
    let parts ← split s ","
    if parts.length == 1 && !allowSingleton then return none
    let conj ← parsePropList tm fuel parts
    return some (jwrap "conjunct" (.arr conj))

/-- `ParsePropositionalImplication`. -/
def parsePropImpl (tm : Bool) : Nat → Span → Except Err (Option Json)
  | 0, _ => .error .fuel
  | fuel + 1, s => do
    let parts ← split s "=>"
    match parts with
    | [p0, p1] => do
        let cond ← parseProposition tm fuel p0
        let cons ← parseProposition tm fuel p1
        return some (← propositionalImplication s p1 cond cons)
    | _ => return none

/-- `ParsePropositionalEquivalence`. -/
def parsePropEquiv (tm : Bool) : Nat → Span → Except Err (Option Json)
  | 0, _ => .error .fuel
  | fuel + 1, s => do
    let parts ← split s "<=>"
    match parts with
    | [p0, p1] => do
        let left1 ← parseProposition tm fuel p0
        let right1 ← parseProposition tm fuel p1
        let left2 ← parseProposition tm fuel p0
        let right2 ← parseProposition tm fuel p1
        let a ← propositionalImplication s p1 left1 right1
        let b ← propositionalImplication s p0 right2 left2
        return some (jwrap "conjunction" (jwrap "conjunct" (jarr [a, b])))
    | _ => return none

end

/-- The head-scanning loop of `ParseHeadCall`: remembers whether a `(` was
ever opened, and yields the index of the first step at which the stack
returns to empty afterwards. -/
def headCallScan (s : Span) : List TStep → Bool → Except Err (Bool × Option Nat)
  | [], sawOpen => .ok (sawOpen, none)
  | step :: rest, sawOpen =>
    if step.status != .ok then
      .error (.parse "Parenthesis matches nothing." (s.slice step.idx (step.idx + 1)))
    else
      let sawOpen := sawOpen || step.state == ['(']
      if sawOpen && step.state.isEmpty then .ok (sawOpen, some step.idx)
      else headCallScan s rest sawOpen

/-- `check_agg` of `ParseHeadCall`: reject aggregations in the record of a
non-distinct head. -/
def checkAggFvs (callStr : Span) : JArr → Except Err Unit
  | .nil => .ok ()
  | .cons fv rest => do
      let fvo ← fv.asObj
      let value ← fvo.atKey "value"
      if value.hasKey "aggregation" then
        .error (.parse "Aggregation appears in a non-distinct predicate. Did you forget distinct?" callStr)
      else checkAggFvs callStr rest

/-- `check_agg` over a parsed head call. -/
def checkAgg (callStr : Span) (distinctFromOutside : Bool) (call : Json) :
    Except Err Unit := do
  if distinctFromOutside then return ()
  let fvs ← (← (← call.getKey "record").getKey "field_value").asArr
  checkAggFvs callStr fvs

/-- `ParseHeadCall`: returns the parsed call and the is-distinct flag. -/
def parseHeadCall (tm : Bool) : Nat → Span → Bool → Except Err (Json × Bool)
  | 0, _, _ => .error .fuel
  | fuel + 1, s, distinctFromOutside => do
    let (sawOpen, found) ← headCallScan s (traverserRun s) false
    if !sawOpen then .error (.parse "Found no call in rule head." s)
    else do
      let idx := found.getD 0
      let callStr := s.slice 0 (idx + 1)
      let postCallStr := s.sliceFrom (idx + 1)
      let call? ← parseCall tm fuel callStr true
      match call? with
      | none => .error (.parse "Could not parse predicate call." callStr)
      | some call => do
          let opExpr ← split postCallStr "="
          match opExpr with
          | [one] =>
              if one.size != 0 then
                .error (.parse "Unexpected text in the head of a rule." one)
              else do
                checkAgg callStr distinctFromOutside call
                return (call, false)
          | [opStr, exprStr] =>
              if opStr.size == 0 then do
                let expr ← parseExpression tm fuel exprStr
                let fv := jobj [("field", .str "logica_value"),
                                ("value", jwrap "expression" expr)]
                let call ← jsonAppendFv call fv
                checkAgg callStr distinctFromOutside call
                return (call, false)
              else do
                let argument ← parseExpression tm fuel exprStr
                let agg := jobj [("operator", .str opStr.str), ("argument", argument),
                                 ("expression_heritage", .str postCallStr.str)]
                let fv := jobj [("field", .str "logica_value"),
                                ("value", jwrap "aggregation" agg)]
                let call ← jsonAppendFv call fv
                return (call, true)
          | _ => .error (.parse "Too many '=' in predicate value." postCallStr)

/-- `ParseFunctorRule`. -/
def parseFunctorRule (tm : Bool) : Nat → Span → Except Err (Option Json)
  | 0, _ => .error .fuel
  | fuel + 1, s => do
    let parts ← split s ":="
    match parts with
    | [p0, p1] => do
        let newPredicate ← parseExpression tm fuel p0
        let definitionExpr ← parseExpression tm fuel p1
        if !definitionExpr.hasKey "call" then
          .error (.parse functorSyntaxErrorMessage p1)
        else do
          let definition ← definitionExpr.getKey "call"
          let litOk ←
            if newPredicate.hasKey "literal" then do
              pure ((← newPredicate.getKey "literal").hasKey "the_predicate")
            else pure false
          if !litOk then .error (.parse functorSyntaxErrorMessage p0)
          else do
            let applicant := jwrap "expression" (jwrap "literal" (jwrap "the_predicate"
              (jobj [("predicate_name", ← definition.getKey "predicate_name")])))
            let arguments := jwrap "expression" (jwrap "record"
              (← definition.getKey "record"))
            let fvs := jarr [jobj [("field", .num 0),
                                   ("value", jwrap "expression" newPredicate)],
                             jobj [("field", .num 1), ("value", applicant)],
                             jobj [("field", .num 2), ("value", arguments)]]
            let head := jobj [("predicate_name", .str "@Make"),
                              ("record", jwrap "field_value" fvs)]
            return some (jobj [("full_text", .str s.str), ("head", head)])
    | _ => return none

/-- `GrabDenotation` (named `grabDenot` here): strip one trailing denotation
from a rule head. -/
def grabDenot (tm : Bool) : Nat → Span → String → Bool →
    Except Err (Span × Bool × Option Json)
  | 0, _, _, _ => .error .fuel
  | fuel + 1, head, denot, withArguments => do
    let headCouldbe ← split head denot
    if 2 < headCouldbe.length then
      .error (.parse "Too many denotations." head)
    else
      if withArguments then
        match headCouldbe with
        | [h, argPart] => do
            let arg := strip argPart
            if arg.size != 0 && arg.at 0 == '(' then
              .error (.parse "Can not parse denotations when extracting." head)
            else do
              let args ← parseRecordInternals tm fuel arg false false
              return (h, true, some args)
        | _ => return (head, false, none)
      else
        match headCouldbe with
        | [h, tail] =>
            if (stripSpaces tail).size != 0 then
              .error (.parse "Too many denotations or incorrect place." head)
            else return (h, true, none)
        | _ => return (head, false, none)

/-- `ParseRule`. -/
def parseRule (tm : Bool) : Nat → Span → Except Err Json
  | 0, _ => .error .fuel
  | fuel + 1, s => do
    let parts ← split s ":-"
    if 2 < parts.length then
      .error (.parse "Too many :- in a rule. Did you forget semicolon?" s)
    else do
      let dflt := s.slice 0 0
      let head0 := parts.headD dflt
      let (h1, couldbe, _) ← grabDenot tm fuel head0 "couldbe" false
      let (h2, cantbe, _) ← grabDenot tm fuel h1 "cantbe" false
      let (h3, shouldbe, _) ← grabDenot tm fuel h2 "shouldbe" false
      let (h4, limit, limitWhat) ← grabDenot tm fuel h3 "limit" true
      let (h5, orderBy, orderByWhat) ← grabDenot tm fuel h4 "order_by" true
      let head := h5
      let headDistinct ← split head "distinct"
      let base : JObj ←
        match headDistinct with
        | [_] => do
            let (parsedHead, isDistinct) ← parseHeadCall tm fuel head false
            let o := JObj.cons "head" parsedHead .nil
            pure (if isDistinct then o.set "distinct_denoted" (.bool true) else o)
        | [h, tail] =>
            if tail.size != 0 then
              .error (.parse "Can not parse rule head. Something is wrong with distinct." head)
            else do
              let (parsedHead, _) ← parseHeadCall tm fuel h true
              pure ((JObj.cons "head" parsedHead .nil).set "distinct_denoted" (.bool true))
        | _ => .error (.parse "Can not parse rule head. Something is wrong with distinct." head)
      let base := if couldbe then base.set "couldbe_denoted" (.bool true) else base
      let base := if cantbe then base.set "cantbe_denoted" (.bool true) else base
      let base := if shouldbe then base.set "shouldbe_denoted" (.bool true) else base
      let base := if orderBy then base.set "orderby_denoted" (orderByWhat.getD .null) else base
      let base := if limit then base.set "limit_denoted" (limitWhat.getD .null) else base
      let base ←
        match parts with
        | [_, bodyStr] => do
            let body ← parseProposition tm fuel bodyStr
            pure (base.set "body" body)
        | _ => pure base
      return .obj (base.set "full_text" (.str s.str))

/-- `ParseFunctionRuleImpl`. -/
def parseFunctionRuleImpl (tm : Bool) : Nat → Span → Except Err (Option (Json × Json))
  | 0, _ => .error .fuel
  | fuel + 1, s => do
    let parts ← splitRaw s "-->"
    match parts with
    | [p0, p1] => do
        let thisCall ← parseCall tm fuel p0 false
        match thisCall with
        | none =>
            .error (.parse "Left hand side of function definition must be a predicate call." p0)
        | some call => do
            let predName ← (← call.getKey "predicate_name").asStr
            let annRule ← parseRule tm fuel
              (Span.ofString ("@CompileAsUdf(" ++ predName ++ ")"))
            let rule ← parseRule tm fuel
              (Span.ofString (p0.str ++ " = " ++ p1.str))
            return some (annRule, rule)
    | _ => return none

/-- `AggregationOperator`: map an aggregating operator to its call name. -/
def aggregationOperator (raw : String) : String :=
  if raw == "+" then "Agg+"
  else if raw == "++" then "Agg++"
  else if raw == "*" then "`*`"
  else raw

/-- `AggregationConvert`: turn `{ operator, argument, expression_heritage }`
into an expression holding a call of the mapped operator on the argument. -/
def aggregationConvert (a : Json) : Except Err Json := do
  let op ← (← a.getKey "operator").asStr
  let argument ← a.getKey "argument"
  let her ← a.getKey "expression_heritage"
  let fv0 := jobj [("field", .num 0), ("value", jwrap "expression" argument)]
  let call := jobj [("predicate_name", .str (aggregationOperator op)),
                    ("record", jwrap "field_value" (jarr [fv0]))]
  return jobj [("call", call), ("expression_heritage", her)]

/-- The in-place slot transformation of `RewriteAggregationsInternal`: when a
child value object carries an `aggregation` object, erase that object's
`operator` and `argument` and add `expression` holding the converted call. -/
def aggSlotConv (v : Json) : Except Err Json :=
  match v with
  | .obj vo =>
      match vo.lookup "aggregation" with
      | some (.obj ao) => do
          let expr ← aggregationConvert (.obj ao)
          return .obj (vo.set "aggregation"
            (.obj (((ao.erase "operator").erase "argument").set "expression" expr)))
      | _ => .ok v
  | _ => .ok v

/-- The first (conversion) loop of `RewriteAggregationsInternal` over the
children of an object. -/
def convPassJObj : JObj → Except Err JObj
  | .nil => .ok .nil
  | .cons k v t => do return .cons k (← aggSlotConv v) (← convPassJObj t)

mutual

/-- `RewriteAggregationsInternal`.  The C++ recursion descends into freshly
inserted subtrees, so this model uses fuel; it terminates in C++ because each
conversion consumes one original aggregation slot, and every theorem below is
conditional on a successful (non-fuel) run. -/
def rwAggs : Nat → Json → Except Err Json
  | 0, _ => .error .fuel
  | fuel + 1, .obj o => do
      let o' ← convPassJObj o
      return .obj (← rwAggsEntries fuel o')
  | fuel + 1, .arr a => do
      return .arr (← rwAggsElems fuel a)
  | _ + 1, j => .ok j

/-- The second (recursion) loop of `RewriteAggregationsInternal` over object
children. -/
def rwAggsEntries : Nat → JObj → Except Err JObj
  | 0, _ => .error .fuel
  | _ + 1, .nil => .ok .nil
  | fuel + 1, .cons k v t => do
      let v' ← match v with
        | .obj _ => rwAggs fuel v
        | .arr _ => rwAggs fuel v
        | _ => pure v
      return .cons k v' (← rwAggsEntries fuel t)

/-- Recursion of `RewriteAggregationsInternal` over array elements. -/
def rwAggsElems : Nat → JArr → Except Err JArr
  | 0, _ => .error .fuel
  | _ + 1, .nil => .ok .nil
  | fuel + 1, .cons v t => do
      let v' ← match v with
        | .obj _ => rwAggs fuel v
        | .arr _ => rwAggs fuel v
        | _ => pure v
      return .cons v' (← rwAggsElems fuel t)

end

/-- `RewriteAggregationsAsExpressions`. -/
def rewriteAggregationsAsExpressions (fuel : Nat) (rules : Json) : Except Err Json :=
  rwAggs fuel rules

/-- `conjunction_of_dnfs`: the distributive product of a list of DNFs. -/
def conjunctionOfDnfs : List (List (List Json)) → List (List Json)
  | [] => [[]]
  | [d] => d
  | first :: rest =>
      let other := conjunctionOfDnfs rest
      first.flatMap (fun a => other.map (fun b => a ++ b))

mutual

/-- `proposition_to_dnf`: flatten top-level conjunctions and disjunctions
into a disjunction (list) of conjunct lists; anything else is a leaf. -/
def propositionToDnf : Nat → Json → Except Err (List (List Json))
  | 0, _ => .error .fuel
  | fuel + 1, prop => do
    if prop.hasKey "conjunction" then do
      let cs ← (← (← prop.getKey "conjunction").getKey "conjunct").asArr
      let dnfs ← propToDnfList fuel cs.toList
      return conjunctionOfDnfs dnfs
    else if prop.hasKey "disjunction" then do
      let ds ← (← (← prop.getKey "disjunction").getKey "disjunct").asArr
      let parts ← propToDnfList fuel ds.toList
      return parts.flatten
    else return [[prop]]

/-- `proposition_to_dnf` mapped over a list of propositions. -/
def propToDnfList : Nat → List Json → Except Err (List (List (List Json)))
  | 0, _ => .error .fuel
  | _ + 1, [] => .ok []
  | fuel + 1, p :: rest => do
      return (← propositionToDnf fuel p) :: (← propToDnfList fuel rest)

end

/-- One rule of `DnfRewrite`: a rule without body passes through; a rule with
body is duplicated once per conjunct list of the DNF of its body. -/
def dnfRewriteRule (fuel : Nat) (rule : Json) : Except Err (List Json) := do
  if !rule.hasKey "body" then return [rule]
  let dnf ← propositionToDnf fuel (← rule.getKey "body")
  let ro ← rule.asObj
  return dnf.map (fun conjuncts =>
    .obj (ro.set "body" (jwrap "conjunction" (jwrap "conjunct" (.arr (JArr.ofList conjuncts))))))

/-- The rule loop of `DnfRewrite`. -/
def dnfRewriteRules (fuel : Nat) : List Json → Except Err (List Json)
  | [] => .ok []
  | rule :: rest => do
      return (← dnfRewriteRule fuel rule) ++ (← dnfRewriteRules fuel rest)

/-- `DnfRewrite`. -/
def dnfRewrite (fuel : Nat) (rulesJson : Json) : Except Err Json := do
  let rules ← rulesJson.asArr
  return .arr (JArr.ofList (← dnfRewriteRules fuel rules.toList))

/-- `StripAggregationHeritage` on one field-value entry. -/
def stripAggHeritageFv (fv : Json) : Except Err Json := do
  let fvo ← fv.asObj
  let vo ← (← fvo.atKey "value").asObj
  if vo.hasKey "aggregation" then do
    let ao ← (← vo.atKey "aggregation").asObj
    return .obj (fvo.set "value"
      (.obj (vo.set "aggregation" (.obj (ao.erase "expression_heritage")))))
  else return fv

/-- `StripAggregationHeritage`. -/
def stripAggregationHeritage (fieldValues : Json) : Except Err Json := do
  let a ← fieldValues.asArr
  let rec go : JArr → Except Err JArr
    | .nil => .ok .nil
    | .cons fv t => do return .cons (← stripAggHeritageFv fv) (← go t)
  return .arr (← go a)

/-- Sorted-set insertion (`std::set<std::string>`). -/
def setInsert (x : String) : List String → List String
  | [] => [x]
  | y :: rest =>
      if x < y then x :: y :: rest
      else if x == y then y :: rest
      else y :: setInsert x rest

/-- Union of sorted string sets (`set::insert(begin, end)`). -/
def setUnion (a b : List String) : List String := b.foldl (fun s x => setInsert x s) a

/-- `DefinedPredicates`: the sorted set of head predicate names. -/
def definedPredicates : List Json → Except Err (List String)
  | [] => .ok []
  | r :: rest => do
      let name ← (← (← r.getKey "head").getKey "predicate_name").asStr
      return setInsert name (← definedPredicates rest)

/-- `MadePredicates`: the sorted set of names constructed through `@Make`. -/
def madePredicates : List Json → Except Err (List String)
  | [] => .ok []
  | r :: rest => do
      let head ← r.getKey "head"
      let name ← (← head.getKey "predicate_name").asStr
      let acc ← madePredicates rest
      if name == "@Make" then do
        let fvs ← (← (← head.getKey "record").getKey "field_value").asArr
        match fvs with
        | .cons fv0 _ => do
            let made ← (← (← (← (← (← fv0.getKey "value").getKey "expression").getKey
              "literal").getKey "the_predicate").getKey "predicate_name").asStr
            return setInsert made acc
        | .nil => .error (.internal "array index out of range")
      else return acc

mutual

/-- `RenamePredicate` over the children of an object: rename every
`predicate_name` (and string `field`) binding equal to `old`, count the
renames, and recurse into object and array children. -/
def renamePredicateObj (old new : String) : JObj → JObj × Nat
  | .nil => (.nil, 0)
  | .cons k v t =>
      let (v', n1) :=
        match v with
        | .str s =>
            if (k == "predicate_name" || k == "field") && s == old then (.str new, 1)
            else (.str s, 0)
        | .obj o2 =>
            let (o2', n) := renamePredicateObj old new o2
            (.obj o2', n)
        | .arr a2 =>
            let (a2', n) := renamePredicateArr old new a2
            (.arr a2', n)
        | other => (other, 0)
      let (t', n2) := renamePredicateObj old new t
      (.cons k v' t', n1 + n2)

/-- `RenamePredicate` over array elements. -/
def renamePredicateArr (old new : String) : JArr → JArr × Nat
  | .nil => (.nil, 0)
  | .cons v t =>
      let (v', n1) :=
        match v with
        | .obj o2 =>
            let (o2', n) := renamePredicateObj old new o2
            (.obj o2', n)
        | .arr a2 =>
            let (a2', n) := renamePredicateArr old new a2
            (.arr a2', n)
        | other => (other, 0)
      let (t', n2) := renamePredicateArr old new t
      (.cons v' t', n1 + n2)

end

/-- `RenamePredicate`. -/
def renamePredicate (old new : String) : Json → Json × Nat
  | .obj o =>
      let (o', n) := renamePredicateObj old new o
      (.obj o', n)
  | .arr a =>
      let (a', n) := renamePredicateArr old new a
      (.arr a', n)
  | j => (j, 0)

/-- Append one rule to its name group, keeping first-occurrence order. -/
def groupInsert (name : String) (r : Json) : List (String × List Json) →
    List (String × List Json)
  | [] => [(name, [r])]
  | (n, rs) :: rest =>
      if n == name then (n, rs ++ [r]) :: rest
      else (n, rs) :: groupInsert name r rest

/-- Field-name grouping of `MultiBodyAggregationRewrite`: the list of head
predicate names in first-occurrence order with their rules. -/
def groupByName (l : List (String × Json)) : List (String × List Json) :=
  l.foldl (fun acc nr => groupInsert nr.1 nr.2 acc) []

/-- Head predicate names of a list of rules, paired with the rules. -/
def rulesWithNames : List Json → Except Err (List (String × Json))
  | [] => .ok []
  | r :: rest => do
      let name ← (← (← r.getKey "head").getKey "predicate_name").asStr
      return (name, r) :: (← rulesWithNames rest)

/-- The `split_aggregation` loop over the head field values: produce the
aggregating signature entry and the transformed (auxiliary) entry for each
field. -/
def splitAggFvs : JArr → Except Err (JArr × JArr)
  | .nil => .ok (.nil, .nil)
  | .cons fv rest => do
      let (aggRest, trRest) ← splitAggFvs rest
      let fvo ← fv.asObj
      let field ← fvo.atKey "field"
      let value ← (← fvo.atKey "value").asObj
      if value.hasKey "aggregation" then do
        let a ← (← value.atKey "aggregation").asObj
        let aggA := jobj [("operator", ← a.atKey "operator"),
                          ("argument", jwrap "variable" (jobj [("var_name", field)])),
                          ("expression_heritage", ← a.atKey "expression_heritage")]
        let aggEntry := jobj [("field", field), ("value", jwrap "aggregation" aggA)]
        let trEntry := jobj [("field", field),
                             ("value", jwrap "expression" (← a.atKey "argument"))]
        return (.cons aggEntry aggRest, .cons trEntry trRest)
      else do
        let aggEntry := jobj [("field", field),
          ("value", jwrap "expression" (jwrap "variable" (jobj [("var_name", field)])))]
        return (.cons aggEntry aggRest, .cons fv trRest)

/-- `split_aggregation`: strip the distinct marker, rename the head to the
`_MultBodyAggAux` auxiliary, and split the head record into the aggregating
signature and the transformed field values. -/
def splitAggregation (rule : Json) : Except Err (Json × Json) := do
  if !rule.hasKey "distinct_denoted" then
    .error (.parse "Inconsistency in distinct denoting."
      (Span.ofString (← (← (← rule.getKey "head").getKey "predicate_name").asStr)))
  else do
    let ro ← rule.asObj
    let ro := ro.erase "distinct_denoted"
    let head ← (Json.obj ro).getKey "head"
    let headO ← head.asObj
    let name ← (← headO.atKey "predicate_name").asStr
    let headO := headO.set "predicate_name" (.str (name ++ "_MultBodyAggAux"))
    let fvs ← (← (← (Json.obj headO).getKey "record").getKey "field_value").asArr
    let (aggregation, transformation) ← splitAggFvs fvs
    let recO ← (← (Json.obj headO).getKey "record").asObj
    let headO := headO.set "record" (.obj (recO.set "field_value" (.arr transformation)))
    return (.arr aggregation, .obj (ro.set "head" (.obj headO)))

/-- The per-rule main loop of `MultiBodyAggregationRewrite`, threading the
collected signatures and original texts. -/
def multiBodyGo : List (String × Json) → List String →
    List (String × Json) → List (String × String) → List Json →
    Except Err (List Json × List (String × Json) × List (String × String))
  | [], _, aggFvsPerPred, originalFullText, newRules =>
      .ok (newRules.reverse, aggFvsPerPred, originalFullText)
  | (name, rule) :: rest, multi, aggFvsPerPred, originalFullText, newRules => do
      let fullText ← (← rule.getKey "full_text").asStr
      let originalFullText :=
        if (originalFullText.lookup name).isSome then
          originalFullText.map (fun (n, t) => if n == name then (n, fullText) else (n, t))
        else originalFullText ++ [(name, fullText)]
      if multi.contains name then do
        let (aggregationFvs, newRule) ← splitAggregation rule
        match aggFvsPerPred.lookup name with
        | some prev => do
            let expected ← stripAggregationHeritage (← prev.getKey "field_value")
            let observed ← stripAggregationHeritage aggregationFvs
            if expected != observed then
              .error (.parse "Signature differs for bodies." (Span.ofString fullText))
            else
              multiBodyGo rest multi aggFvsPerPred originalFullText (newRule :: newRules)
        | none =>
            multiBodyGo rest multi
              (aggFvsPerPred ++ [(name, jwrap "field_value" aggregationFvs)])
              originalFullText (newRule :: newRules)
      else multiBodyGo rest multi aggFvsPerPred originalFullText (rule :: newRules)

/-- The pass-through field values of the synthesized aggregating rule. -/
def passFvsOf : JArr → Except Err JArr
  | .nil => .ok .nil
  | .cons fv rest => do
      let field ← (← fv.asObj).atKey "field"
      let entry := jobj [("field", field),
        ("value", jwrap "expression" (jwrap "variable" (jobj [("var_name", field)])))]
      return .cons entry (← passFvsOf rest)

/-- The closing loop of `MultiBodyAggregationRewrite`: one synthesized
aggregating rule per multi-body predicate. -/
def multiBodyNewAggRules (aggFvsPerPred : List (String × Json))
    (originalFullText : List (String × String)) : List String → Except Err (List Json)
  | [] => .ok []
  | name :: rest => do
      match aggFvsPerPred.lookup name with
      | none => .error (.internal "map::at key missing")
      | some aggFvsJson => do
          let aggFvs ← (← aggFvsJson.getKey "field_value").asArr
          let passFvs ← passFvsOf aggFvs
          let head := jobj [("predicate_name", .str name),
                            ("record", jwrap "field_value" (.arr aggFvs))]
          let auxPred := jobj [("predicate_name", .str (name ++ "_MultBodyAggAux")),
                               ("record", jwrap "field_value" (.arr passFvs))]
          let body := jwrap "conjunction"
            (jwrap "conjunct" (jarr [jwrap "predicate" auxPred]))
          let rule := jobj [("head", head), ("body", body),
                            ("full_text", .str ((originalFullText.lookup name).getD "")),
                            ("distinct_denoted", .bool true)]
          return rule :: (← multiBodyNewAggRules aggFvsPerPred originalFullText rest)

/-- `MultiBodyAggregationRewrite`. -/
def multiBodyAggregationRewrite (rulesJson : Json) : Except Err Json := do
  let rules ← rulesJson.asArr
  let withNames ← rulesWithNames rules.toList
  let byName := groupByName withNames
  let multi := (byName.filter (fun (_, rs) =>
    1 < rs.length && (rs.headD .null).hasKey "distinct_denoted")).map (·.1)
  let (newRules, aggFvsPerPred, originalFullText) ← multiBodyGo withNames multi [] [] []
  let extra ← multiBodyNewAggRules aggFvsPerPred originalFullText multi
  return .arr (JArr.ofList (newRules ++ extra))

/-- The `ShiftArgs` helper of `AnnotationsFromDenotations`: bump integer
fields by one. -/
def shiftArgFields : JArr → JArr
  | .nil => .nil
  | .cons fv rest =>
      let fv' := match fv with
        | .obj fvo =>
            match fvo.lookup "field" with
            | some (.num n) => Json.obj (fvo.set "field" (.num (n + 1)))
            | _ => Json.obj fvo
        | other => other
      .cons fv' (shiftArgFields rest)

/-- One denotation of `AnnotationsFromDenotations`: shift the stored argument
fields in place and build the parallel annotation rule. -/
def annotationFromDenot (rule : Json) (denot annName : String) :
    Except Err (Option Json × Json) := do
  let ro ← rule.asObj
  if !ro.hasKey denot then return (none, rule)
  let args0 ← ro.atKey denot
  let argsO ← args0.asObj
  let fvs ← (← argsO.atKey "field_value").asArr
  let args := Json.obj (argsO.set "field_value" (.arr (shiftArgFields fvs)))
  let ro := ro.set denot args
  let headName ← (← (Json.obj ro).getKey "head").getKey "predicate_name"
  let fv0 := jobj [("field", .num 0), ("value", jwrap "expression" (jwrap "literal"
    (jwrap "the_predicate" (jobj [("predicate_name", headName)]))))]
  let argFvs ← (← args.getKey "field_value").asArr
  let head := jobj [("predicate_name", .str annName),
                    ("record", jwrap "field_value" (.arr (JArr.cons fv0 argFvs)))]
  let ann := jobj [("full_text", ← ro.atKey "full_text"), ("head", head)]
  return (some ann, .obj ro)

/-- `AnnotationsFromDenotations`: returns the produced annotation rules and
the rule with its denotation arguments shifted in place. -/
def annotationsFromDenotations (rule : Json) : Except Err (List Json × Json) := do
  let (a1, rule) ← annotationFromDenot rule "orderby_denoted" "@OrderBy"
  let (a2, rule) ← annotationFromDenot rule "limit_denoted" "@Limit"
  return ((a1.toList ++ a2.toList), rule)

/-- First index of `pat` in `v` (`std::string::find`). -/
def findSub : List Char → List Char → Option Nat
  | _, [] => some 0
  | [], _ => none
  | v@(_ :: rest), pat =>
      if pat.isPrefixOf v then some 0
      else (findSub rest pat).map (· + 1)

/-- Split a character list on a separator character. -/
def splitOnChar (sep : Char) : List Char → List (List Char)
  | [] => [[]]
  | c :: rest =>
      if c == sep then [] :: splitOnChar sep rest
      else
        match splitOnChar sep rest with
        | h :: t => (c :: h) :: t
        | [] => [[c]]

/-- Join strings with a separator. -/
def joinSep (sep : String) : List String → String
  | [] => ""
  | [x] => x
  | x :: rest => x ++ sep ++ joinSep sep rest

/-- `std::getline(stream, tmp, '.')` tokenisation: like splitting on `.`, but
an empty string yields no token and a trailing separator yields no trailing
empty token. -/
def getlineSplit (s : String) (sep : Char) : List String :=
  if s.data.isEmpty then []
  else
    let parts := (splitOnChar sep s.data).map String.mk
    if s.data.getLastD ' ' == sep then parts.dropLast else parts

/-- `SplitImport`: split `a.b.C [as D]` into file path, predicate and
synonym. -/
def splitImport (importStr : String) : Except Err (String × String × Option String) := do
  let (importPath, synonym) ←
    match findSub importStr.data " as ".data with
    | none => pure (importStr, none)
    | some pos =>
        if (findSub (importStr.data.drop (pos + 1)) " as ".data).isSome then
          .error (.parse "Too many as" (Span.ofString importStr))
        else
          pure (String.mk (importStr.data.take pos),
                some (String.mk (importStr.data.drop (pos + 4))))
  let parts := getlineSplit importPath '.'
  let bad := parts.isEmpty || (parts.getLastD "") == "" ||
    !(match (parts.getLastD "").data with
      | c :: _ => isUpperC c
      | [] => false)
  if bad then .error (.parse "One import per predicate please." (Span.ofString importStr))
  else
    return (joinSep "." parts.dropLast, parts.getLastD "", synonym)

/-- The modelled filesystem of the import resolver: import paths to file
contents.  The C++ performs blocking reads through `std::filesystem`; the
reads are the only I/O of the parser and are modelled by this explicit map. -/
def FileSys := List (String × String)

/-- `std::filesystem::path(root) / rel`. -/
def pathJoin (root rel : String) : String :=
  if root == "" then rel else root ++ "/" ++ rel

/-- Search the import roots in order (`for (const auto& root : roots)`). -/
def findInRoots (fs : FileSys) (roots : List String) (rel : String) : Option String :=
  match roots with
  | [] => none
  | root :: rest =>
      let p := pathJoin root rel
      if (List.lookup p fs).isSome then some p else findInRoots fs rest rel

/-- The prefix-uniquification loop of `ParseFileInternal` (`while
(existing.count(prefix))`). -/
def prefixLoop (existing : List String) (parts : List String) :
    Nat → String → Except Err String
  | idx, prefx =>
      if !existing.contains prefx then .ok prefx
      else
        match idx with
        | 0 => .error (.parse "Import paths equal modulo _ and /." (Span.ofString prefx))
        | idx' + 1 =>
            if idx' == 0 then
              .error (.parse "Import paths equal modulo _ and /." (Span.ofString prefx))
            else prefixLoop existing parts idx' ((parts.getD idx' "") ++ prefx)

/-- `capitalize` of the prefix computation: first character upper-cased, the
rest lower-cased. -/
def capitalizeId (x : String) : String :=
  match x.data with
  | [] => x
  | c :: rest => String.mk ((if isLowerC c then Char.ofNat (c.toNat - 32) else c) ::
      rest.map toLowerC)

/-- Association-list update used for the parsed-imports cache
(`parsed_imports[file] = parsed`). -/
def piInsert : List (String × Json) → String → Json → List (String × Json)
  | [], k, v => [(k, v)]
  | (k', v') :: rest, k, v =>
      if k' == k then (k, v) :: rest else (k', v') :: piInsert rest k v

/-- Sorted insertion by key. -/
def sortedInsertByKey (kv : String × Json) : List (String × Json) →
    List (String × Json)
  | [] => [kv]
  | (k', v') :: rest =>
      if kv.1 < k' then kv :: (k', v') :: rest
      else (k', v') :: sortedInsertByKey kv rest

/-- `std::map` iteration order over the parsed-imports cache: sorted by key. -/
def sortedByKey (l : List (String × Json)) : List (String × Json) :=
  l.foldl (fun acc kv => sortedInsertByKey kv acc) []

/-- Statement-loop state of `ParseFileInternal`. -/
structure FileState where
  rules : List Json
  importedPredicates : List Json
  predsCreated : List (String × List String)
  parsedImports : List (String × Json)

mutual

/-- `ParseImport`: resolve one import string against the filesystem model,
with the parsed-imports cache and the in-progress cycle set. -/
def parseImport (fs : FileSys) (roots : List String) (tm : Bool) :
    Nat → String → List (String × Json) → List String → List String →
    Except Err (Json × List (String × Json))
  | 0, _, _, _, _ => .error .fuel
  | fuel + 1, fileImportStr, parsedImports, inProgress, importChain => do
    match parsedImports.lookup fileImportStr with
    | some cached => return (cached, parsedImports)
    | none =>
      if inProgress.contains fileImportStr then
        .error (.parse ("Circular imports are not allowed: " ++
          joinSep "" (importChain.map (· ++ "->")) ++ fileImportStr)
          (Span.ofString fileImportStr))
      else do
        let inProgress := fileImportStr :: inProgress
        let parts := getlineSplit fileImportStr '.'
        let rel := joinSep "/" parts ++ ".l"
        let roots' := if roots.isEmpty then [""] else roots
        match findInRoots fs roots' rel with
        | none =>
            .error (.parse ("Imported file not found: " ++ rel)
              ((Span.ofString ("import " ++ fileImportStr ++ ".<PREDICATE>")).slice 7
                (7 + fileImportStr.length)))
        | some found => do
            let fileContent := ((List.lookup found fs).getD "")
            let (parsed, pi) ← parseFileInternal fs roots tm fuel fileContent
              fileImportStr parsedImports inProgress importChain
            return (parsed, piInsert pi fileImportStr parsed)

/-- The statement loop of `ParseFileInternal`. -/
def fileStatements (fs : FileSys) (roots : List String) (tm : Bool) :
    Nat → List Span → List String → List String → FileState →
    Except Err FileState
  | 0, _, _, _, _ => .error .fuel
  | _ + 1, [], _, _, st => .ok st
  | fuel + 1, stmt :: rest, inProgress, importChain, st => do
    if stmt.size == 0 then fileStatements fs roots tm fuel rest inProgress importChain st
    else if stmt.startsWith "import " then do
      let importStr := (stmt.sliceFrom "import ".length).str
      let (fileImportStr, importPredicate, synonym) ← splitImport importStr
      let (parsed, parsedImports) ← parseImport fs roots tm fuel fileImportStr
        st.parsedImports inProgress importChain
      let ipEntry := jobj [("file", .str fileImportStr),
                           ("predicate_name", .str importPredicate),
                           ("synonym", match synonym with | some sy => .str sy | none => .null)]
      let predsCreated ←
        if (st.predsCreated.lookup fileImportStr).isSome then pure st.predsCreated
        else do
          let prules ← (← parsed.getKey "rule").asArr
          let defined ← definedPredicates prules.toList
          let made ← madePredicates prules.toList
          pure (st.predsCreated ++ [(fileImportStr, setUnion defined made)])
      fileStatements fs roots tm fuel rest inProgress importChain
        { st with importedPredicates := st.importedPredicates ++ [ipEntry],
                  predsCreated, parsedImports }
    else do
      let (rules, rule?) ←
        match (← parseFunctionRuleImpl tm fuel stmt) with
        | some (ann, rule) => pure (st.rules ++ [ann], some rule)
        | none => do
            match (← parseFunctorRule tm fuel stmt) with
            | some rule => pure (st.rules, some rule)
            | none => do
                let r ← parseRule tm fuel stmt
                if r == .null then pure (st.rules, none)
                else do
                  let (anns, r') ← annotationsFromDenotations r
                  pure (st.rules ++ anns, some r')
      let rules := match rule? with
        | some rule => rules ++ [rule]
        | none => rules
      fileStatements fs roots tm fuel rest inProgress importChain { st with rules }

/-- `ParseFileInternal`: the whole per-file pipeline: comment removal,
statement split, statement parsing, the three rewrites, prefix computation,
renames, import checks, and (for `main`) the final merge. -/
def parseFileInternal (fs : FileSys) (roots : List String) (tm : Bool) :
    Nat → String → String → List (String × Json) → List String → List String →
    Except Err (Json × List (String × Json))
  | 0, _, _, _, _, _ => .error .fuel
  | fuel + 1, content, thisFileName, parsedImports, inProgress, importChain => do
    let tm := if (if thisFileName == "" then "main" else thisFileName) == "main" then
        tm || enactIncantations content
      else tm
    let importChain := importChain ++ [thisFileName]
    let removed ← removeComments (Span.ofString content)
    let s : Span := ⟨removed, 0, removed.length⟩
    let statements ← split s ";"
    let st ← fileStatements fs roots tm fuel statements inProgress importChain
      ⟨[], [], [], parsedImports⟩
    let rewritten ← dnfRewrite fuel (.arr (JArr.ofList st.rules))
    let rewritten ← multiBodyAggregationRewrite rewritten
    let rewritten ← rwAggs fuel rewritten
    let rules := (← rewritten.asArr).toList
    let prefx ←
      if thisFileName == "main" then pure ""
      else do
        let existing := (st.parsedImports.map (fun (_, v) =>
          match v with
          | .obj o => match o.lookup "predicates_prefix" with
            | some (.str p) => [p]
            | _ => []
          | _ => [])).flatten
        let parts := getlineSplit thisFileName '.'
        let idx := parts.length - 1
        prefixLoop existing parts idx (capitalizeId (parts.getD idx "") ++ "_")
    let rules ←
      if thisFileName != "main" then do
        let defined ← definedPredicates rules
        let made ← madePredicates rules
        let all := setUnion defined made
        pure (all.foldl (fun rs p =>
          if p != "" && p.data.headD ' ' != '@' && p != "++?" then
            rs.map (fun r => (renamePredicate p (prefx ++ p) r).1)
          else rs) rules)
      else pure rules
    let rules ← importChecks st.parsedImports st.predsCreated rules
      st.importedPredicates
    let rules ←
      if thisFileName == "main" then do
        let defined ← definedPredicates rules
        mainMerge (sortedByKey st.parsedImports) defined rules
      else pure rules
    let out := jobj [("rule", .arr (JArr.ofList rules)),
                     ("imported_predicates", .arr (JArr.ofList st.importedPredicates)),
                     ("predicates_prefix", .str prefx),
                     ("file_name", .str thisFileName)]
    return (out, st.parsedImports)

/-- The imported-predicate rename-and-check loop of `ParseFileInternal`. -/
def importChecks (parsedImports : List (String × Json))
    (predsCreated : List (String × List String)) :
    List Json → List Json → Except Err (List Json)
  | rules, [] => .ok rules
  | rules, ipEntry :: rest => do
      let ipo ← ipEntry.asObj
      let file ← (← ipo.atKey "file").asStr
      let importedPredName ← (← ipo.atKey "predicate_name").asStr
      let importedAs ←
        match (← ipo.atKey "synonym") with
        | .null => pure importedPredName
        | .str sy => pure sy
        | _ => .error (.internal "as_string on non-string")
      let importPrefix ←
        match parsedImports.lookup file with
        | none => .error (.internal "map::at key missing")
        | some v => (← v.getKey "predicates_prefix").asStr
      if importPrefix == "" then
        .error (.parse "Empty import prefix" (Span.ofString file))
      else do
        let renamed := rules.map (renamePredicate importedAs (importPrefix ++ importedPredName))
        let renameCount := (renamed.map (·.2)).sum
        let rules := renamed.map (·.1)
        let created := (predsCreated.lookup file).getD []
        if !created.contains (importPrefix ++ importedPredName) &&
            !created.contains importedPredName then
          .error (.parse "Predicate imported but not defined."
            (Span.ofString (file ++ " -> " ++ importedPredName)))
        else if renameCount == 0 then
          .error (.parse "Predicate imported but not used."
            (Span.ofString (file ++ " -> " ++ importedAs)))
        else importChecks parsedImports predsCreated rules rest

/-- The final merge loop of `ParseFileInternal` for the top-level file,
iterating the parsed imports in `std::map` (key-sorted) order. -/
def mainMerge : List (String × Json) → List String → List Json → Except Err (List Json)
  | [], _, rules => .ok rules
  | (_, v) :: rest, defined, rules => do
      let irules ← (← v.getKey "rule").asArr
      let newPreds ← definedPredicates irules.toList
      match newPreds.find? (fun p =>
          defined.contains p && p != "" && p.data.headD ' ' != '@') with
      | some p => .error (.parse "Predicate from file is overridden by importer."
          (Span.ofString p))
      | none =>
          mainMerge rest (setUnion defined newPreds) (rules ++ irules.toList)

end

/-- `ParseFile`. -/
def parseFile (fs : FileSys) (fuel : Nat) (content : String)
    (fileName : String) (importRoot : List String) : Except Err Json := do
  return (← parseFileInternal fs importRoot false fuel content fileName [] [] []).1

mutual

/-- A key occurring anywhere in a tree (used to state the rewrite
invariants). -/
def deepHasKey (key : String) : Json → Bool
  | .obj o => deepHasKeyObj key o
  | .arr a => deepHasKeyArr key a
  | _ => false

def deepHasKeyObj (key : String) : JObj → Bool
  | .nil => false
  | .cons k v t => k == key || deepHasKey key v || deepHasKeyObj key t

def deepHasKeyArr (key : String) : JArr → Bool
  | .nil => false
  | .cons v t => deepHasKey key v || deepHasKeyArr key t

end

/-- Element of a JSON array by index. -/
def Json.elemAt (j : Json) (i : Nat) : Except Err Json := do
  let rec go : JArr → Nat → Except Err Json
    | .nil, _ => .error (.internal "array index out of range")
    | .cons v _, 0 => .ok v
    | .cons _ t, n + 1 => go t n
  go (← j.asArr) i

deriving instance DecidableEq for Except

/-- A DNF leaf: a proposition carrying neither a top-level `conjunction` nor
a top-level `disjunction` key. -/
def IsDnfLeaf (c : Json) : Prop :=
  c.hasKey "conjunction" = false ∧ c.hasKey "disjunction" = false

/-- The emitted traverser steps carry positions at or beyond a lower bound,
strictly increasing left to right (proof helper for the split lemmas). -/
def StepsGE : Nat → List TStep → Prop
  | _, [] => True
  | pos, st :: rest => pos ≤ st.idx ∧ StepsGE (st.idx + 1) rest

/-
Theorems.  Each claim of the specification is settled below; shared helper
lemmas come first, claim theorems are named `claim_<id>...`.
-/

/-- Successful bind of `Except` decomposes into two successes. -/
theorem except_bind_ok {ε α β : Type} {a : Except ε α} {f : α → Except ε β} {b : β} :
    (a >>= f) = .ok b ↔ ∃ x, a = .ok x ∧ f x = .ok b := by
  cases a <;> simp [Bind.bind, Except.bind]

/-- Updating a key and looking it up. -/
theorem JObj.lookup_set_self :
    ∀ (o : JObj) (k : String) (v : Json), (o.set k v).lookup k = some v
  | .nil, k, v => by simp [JObj.set, JObj.lookup]
  | .cons k' v' t, k, v => by
      by_cases h : k' == k
      · simp [JObj.set, h, JObj.lookup, (by simpa using h : k' = k)]
      · simp [JObj.set, h, JObj.lookup, JObj.lookup_set_self t k v]

/-- Fetching a freshly updated key. -/
theorem json_getKey_obj_set (o : JObj) (k : String) (v : Json) :
    (Json.obj (o.set k v)).getKey k = .ok v := by
  simp [Json.getKey, Json.asObj, JObj.atKey, JObj.lookup_set_self, Bind.bind, Except.bind]

theorem view_of_size_zero {s : Span} (h : s.size = 0) : s.view = [] := by
  unfold Span.view
  unfold Span.size at h
  simp [h]

theorem str_of_size_zero {s : Span} (h : s.size = 0) : s.str = "" := by
  unfold Span.str
  rw [view_of_size_zero h]

theorem stop_eq_start {s : Span} (hW : s.Wf) (h : s.size = 0) : s.stop = s.start := by
  unfold Span.size at h
  have := hW.2
  omega

theorem slice_zero_zero {s : Span} (hW : s.Wf) (h : s.size = 0) : s.slice 0 0 = s := by
  have h2 := stop_eq_start hW h
  have h3 := hW.1
  unfold Span.slice Span.mk'
  cases s with
  | mk her st sp =>
      simp only at h2 h3 ⊢
      subst h2
      simp only [Nat.add_zero]
      congr 1 <;> simp [Nat.min_def] <;> omega

theorem stripSpaces_of_size_zero {s : Span} (hW : s.Wf) (h : s.size = 0) :
    stripSpaces s = s := by
  unfold stripSpaces
  rw [view_of_size_zero h]
  simp [slice_zero_zero hW h]

theorem peelCond_of_size_zero {s : Span} (h : s.size = 0) : peelCond s = false := by
  unfold peelCond
  simp [h]

theorem strip_of_size_zero {s : Span} (hW : s.Wf) (h : s.size = 0) : strip s = s := by
  unfold strip
  rw [h]
  show stripGo 1 s = s
  unfold stripGo
  simp [stripSpaces_of_size_zero hW h, peelCond_of_size_zero h]

theorem traverserRun_of_size_zero {s : Span} (h : s.size = 0) : traverserRun s = [] := by
  unfold traverserRun
  rw [h]
  show stepsGo s 1 0 [] = []
  unfold stepsGo
  simp [h]

theorem slice_zero_size {s : Span} (hW : s.Wf) (h : s.size = 0) : s.slice 0 s.size = s := by
  rw [h]
  exact slice_zero_zero hW h

theorem splitRaw_of_size_zero {s : Span} (hW : s.Wf) (h : s.size = 0) (sep : String) :
    splitRaw s sep = .ok [s] := by
  unfold splitRaw
  by_cases hsep : (sep.data.length == 0) = true
  · simp only [hsep, if_true]
  · simp only [Bool.not_eq_true] at hsep
    simp only [hsep, Bool.false_eq_true, if_false]
    rw [traverserRun_of_size_zero h]
    show splitRawGo s sep.data (sep.data.all isAlnumC) 1 [] 0 [] = _
    unfold splitRawGo
    simp [slice_zero_size hW h]

theorem split_of_size_zero {s : Span} (hW : s.Wf) (h : s.size = 0) (sep : String) :
    split s sep = .ok [s] := by
  unfold split
  rw [splitRaw_of_size_zero hW h sep]
  simp [Bind.bind, Except.bind, strip_of_size_zero hW h, pure, Except.pure]

theorem startsWith_of_size_zero {s : Span} (h : s.size = 0) (p : String)
    (hp : p.data ≠ []) : s.startsWith p = false := by
  unfold Span.startsWith
  rw [view_of_size_zero h]
  cases hd : p.data with
  | nil => exact absurd hd hp
  | cons c rest => simp [List.isPrefixOf]

theorem endsWith_of_size_zero {s : Span} (h : s.size = 0) (p : String)
    (hp : p.data ≠ []) : s.endsWith p = false := by
  unfold Span.endsWith
  rw [view_of_size_zero h]
  cases hd : p.data with
  | nil => exact absurd hd hp
  | cons c rest => simp [List.isSuffixOf, List.isPrefixOf]

theorem parseNumber_of_size_zero {s : Span} (h : s.size = 0) : parseNumber s = none := by
  unfold parseNumber
  rw [endsWith_of_size_zero h "u" (by decide)]
  simp only [Bool.false_eq_true, if_false]
  rw [str_of_size_zero h, view_of_size_zero h]
  have h1 : (("" : String) == "∞") = false := by decide
  have h2 : cStrtod [] = none := by decide
  rw [h1, h2]
  simp

theorem parseString_of_size_zero {s : Span} (h : s.size = 0) : parseString s = none := by
  unfold parseString
  rw [view_of_size_zero h]
  simp

theorem parseBoolean_of_size_zero {s : Span} (h : s.size = 0) : parseBoolean s = none := by
  unfold parseBoolean
  rw [str_of_size_zero h]
  simp

theorem parseNull_of_size_zero {s : Span} (h : s.size = 0) : parseNull s = none := by
  unfold parseNull
  rw [str_of_size_zero h]
  simp

theorem parsePredicateLiteral_of_size_zero {s : Span} (h : s.size = 0) :
    parsePredicateLiteral s = none := by
  unfold parsePredicateLiteral
  rw [str_of_size_zero h, view_of_size_zero h]
  simp

theorem parseVariable_of_size_zero {s : Span} (h : s.size = 0) :
    parseVariable s = .ok none := by
  unfold parseVariable
  rw [view_of_size_zero h]

theorem parseCombine_of_size_zero (tm : Bool) (fuel : Nat) {s : Span}
    (h : s.size = 0) :
    parseCombine tm fuel s = .ok none ∨ ∃ er, parseCombine tm fuel s = .error er := by
  cases fuel with
  | zero => exact .inr ⟨.fuel, rfl⟩
  | succ f =>
      left
      unfold parseCombine
      rw [startsWith_of_size_zero h "combine " (by decide)]
      simp [pure, Except.pure]

theorem parseImplication_of_size_zero (tm : Bool) (fuel : Nat) {s : Span}
    (h : s.size = 0) :
    parseImplication tm fuel s = .ok none ∨
      ∃ er, parseImplication tm fuel s = .error er := by
  cases fuel with
  | zero => exact .inr ⟨.fuel, rfl⟩
  | succ f =>
      left
      unfold parseImplication
      rw [startsWith_of_size_zero h "if " (by decide),
        startsWith_of_size_zero h "if\n" (by decide)]
      simp [pure, Except.pure]

theorem parseList_of_size_zero (tm : Bool) (fuel : Nat) {s : Span}
    (h : s.size = 0) :
    parseList tm fuel s = .ok none ∨ ∃ er, parseList tm fuel s = .error er := by
  cases fuel with
  | zero => exact .inr ⟨.fuel, rfl⟩
  | succ f =>
      left
      unfold parseList
      rw [h]
      simp [pure, Except.pure]

theorem parseLiteral_of_size_zero (tm : Bool) (fuel : Nat) {s : Span}
    (h : s.size = 0) :
    parseLiteral tm fuel s = .ok none ∨ ∃ er, parseLiteral tm fuel s = .error er := by
  cases fuel with
  | zero => exact .inr ⟨.fuel, rfl⟩
  | succ f =>
      unfold parseLiteral
      rw [parseNumber_of_size_zero h, parseString_of_size_zero h]
      rcases parseList_of_size_zero tm f h with hl | ⟨er, hl⟩
      · rw [hl]
        rw [parseBoolean_of_size_zero h, parseNull_of_size_zero h,
          parsePredicateLiteral_of_size_zero h]
        left
        simp [pure, Except.pure, Bind.bind, Except.bind]
      · rw [hl]
        right
        exact ⟨er, by simp [pure, Except.pure, Bind.bind, Except.bind]⟩

theorem parseGenericCall_of_size_zero (tm : Bool) {s : Span} (hW : s.Wf)
    (h : s.size = 0) (oc cc : Char) :
    parseGenericCall tm s oc cc = .ok none := by
  unfold parseGenericCall
  rw [strip_of_size_zero hW h]
  simp [h, pure, Except.pure, Bind.bind, Except.bind]

theorem parseRecord_of_size_zero (tm : Bool) (fuel : Nat) {s : Span} (hW : s.Wf)
    (h : s.size = 0) :
    parseRecord tm fuel s = .ok none ∨ ∃ er, parseRecord tm fuel s = .error er := by
  cases fuel with
  | zero => exact .inr ⟨.fuel, rfl⟩
  | succ f =>
      left
      unfold parseRecord
      rw [strip_of_size_zero hW h]
      simp [h, pure, Except.pure]

theorem parsePropImpl_of_size_zero (tm : Bool) (fuel : Nat) {s : Span} (hW : s.Wf)
    (h : s.size = 0) :
    parsePropImpl tm fuel s = .ok none ∨ ∃ er, parsePropImpl tm fuel s = .error er := by
  cases fuel with
  | zero => exact .inr ⟨.fuel, rfl⟩
  | succ f =>
      left
      unfold parsePropImpl
      rw [split_of_size_zero hW h]
      simp [pure, Except.pure, Bind.bind, Except.bind]

theorem parseCall_of_size_zero (tm : Bool) (fuel : Nat) {s : Span} (hW : s.Wf)
    (h : s.size = 0) (agg : Bool) :
    parseCall tm fuel s agg = .ok none ∨ ∃ er, parseCall tm fuel s agg = .error er := by
  cases fuel with
  | zero => exact .inr ⟨.fuel, rfl⟩
  | succ f =>
      left
      unfold parseCall
      rw [parseGenericCall_of_size_zero tm hW h]
      simp [pure, Except.pure, Bind.bind, Except.bind]

theorem parseUltraConciseCombine_of_size_zero (tm : Bool) (fuel : Nat) {s : Span}
    (hW : s.Wf) (h : s.size = 0) :
    parseUltraConciseCombine tm fuel s = .ok none ∨
      ∃ er, parseUltraConciseCombine tm fuel s = .error er := by
  cases fuel with
  | zero => exact .inr ⟨.fuel, rfl⟩
  | succ f =>
      left
      unfold parseUltraConciseCombine
      rw [parseGenericCall_of_size_zero tm hW h]
      simp [pure, Except.pure, Bind.bind, Except.bind]

theorem parseArraySub_of_size_zero (tm : Bool) (fuel : Nat) {s : Span}
    (hW : s.Wf) (h : s.size = 0) :
    parseArraySub tm fuel s = .ok none ∨ ∃ er, parseArraySub tm fuel s = .error er := by
  cases fuel with
  | zero => exact .inr ⟨.fuel, rfl⟩
  | succ f =>
      left
      unfold parseArraySub
      rw [parseGenericCall_of_size_zero tm hW h]
      simp [pure, Except.pure, Bind.bind, Except.bind]

theorem parseInfixGo_of_size_zero (tm : Bool) {s : Span} (hW : s.Wf) (h : s.size = 0) :
    ∀ (ops : List String) (fuel : Nat) (dis : List String),
      parseInfixGo tm fuel s ops dis = .ok none ∨
        ∃ er, parseInfixGo tm fuel s ops dis = .error er := by
  intro ops
  induction ops with
  | nil =>
      intro fuel dis
      cases fuel with
      | zero => exact .inr ⟨.fuel, rfl⟩
      | succ f => exact .inl rfl
  | cons op rest ih =>
      intro fuel dis
      cases fuel with
      | zero => exact .inr ⟨.fuel, rfl⟩
      | succ f =>
          unfold parseInfixGo
          by_cases hd : dis.contains op
          · simp only [hd, if_true]
            exact ih f dis
          · simp only [Bool.not_eq_true] at hd
            simp only [hd, Bool.false_eq_true, if_false]
            rw [splitRaw_of_size_zero hW h]
            have : ¬(1 < ([s] : List Span).length) := by simp
            simp only [Bind.bind, Except.bind, List.length_cons, List.length_nil,
              this, if_false, decide_eq_true_eq]
            simp only [show ¬(1 < 0 + 1) from by omega, if_false]
            exact ih f dis

theorem parseInfixOp_of_size_zero (tm : Bool) (fuel : Nat) {s : Span} (hW : s.Wf)
    (h : s.size = 0) (operators disallow : Option (List String)) :
    parseInfixOp tm fuel s operators disallow = .ok none ∨
      ∃ er, parseInfixOp tm fuel s operators disallow = .error er := by
  cases fuel with
  | zero => exact .inr ⟨.fuel, rfl⟩
  | succ f =>
      unfold parseInfixOp
      exact parseInfixGo_of_size_zero tm hW h _ f _

theorem parseSubscript_of_size_zero (tm : Bool) (fuel : Nat) {s : Span} (hW : s.Wf)
    (h : s.size = 0) :
    parseSubscript tm fuel s = .ok none ∨ ∃ er, parseSubscript tm fuel s = .error er := by
  cases fuel with
  | zero => exact .inr ⟨.fuel, rfl⟩
  | succ f =>
      left
      unfold parseSubscript
      rw [splitRaw_of_size_zero hW h]
      simp [pure, Except.pure, Bind.bind, Except.bind]

theorem parseNegation_of_size_zero (tm : Bool) (fuel : Nat) {s : Span} (hW : s.Wf)
    (h : s.size = 0) :
    parseNegation tm fuel s = .ok none ∨ ∃ er, parseNegation tm fuel s = .error er := by
  cases fuel with
  | zero => exact .inr ⟨.fuel, rfl⟩
  | succ f =>
      left
      unfold parseNegation
      rw [split_of_size_zero hW h]
      simp [pure, Except.pure, Bind.bind, Except.bind]

theorem parseNegationExpression_of_size_zero (tm : Bool) (fuel : Nat) {s : Span}
    (hW : s.Wf) (h : s.size = 0) :
    parseNegationExpression tm fuel s = .ok none ∨
      ∃ er, parseNegationExpression tm fuel s = .error er := by
  cases fuel with
  | zero => exact .inr ⟨.fuel, rfl⟩
  | succ f =>
      unfold parseNegationExpression
      rcases parseNegation_of_size_zero tm f hW h with hn | ⟨er, hn⟩
      · left
        rw [hn]
        simp [pure, Except.pure, Bind.bind, Except.bind]
      · right
        exact ⟨er, by rw [hn]; simp [pure, Except.pure, Bind.bind, Except.bind]⟩

theorem actuallyParseExpression_of_size_zero (tm : Bool) (fuel : Nat) {s : Span}
    (hW : s.Wf) (h : s.size = 0) (e : Json) :
    actuallyParseExpression tm fuel s ≠ .ok e := by
  cases fuel with
  | zero => simp [actuallyParseExpression]
  | succ f =>
      intro hok
      unfold actuallyParseExpression at hok
      rw [except_bind_ok] at hok
      obtain ⟨x1, hx1, hok⟩ := hok
      rcases parseCombine_of_size_zero tm f h with hp | ⟨er, hp⟩
      swap
      · rw [hp] at hx1; simp at hx1
      rw [hp] at hx1
      injection hx1 with hx1
      subst hx1
      simp only [] at hok
      rw [except_bind_ok] at hok
      obtain ⟨u2, hu2, hok⟩ := hok
      rw [except_bind_ok] at hok
      obtain ⟨x2, hx2, hok⟩ := hok
      rcases parseImplication_of_size_zero tm f h with hp2 | ⟨er, hp2⟩
      swap
      · rw [hp2] at hx2; simp at hx2
      rw [hp2] at hx2
      injection hx2 with hx2
      subst hx2
      simp only [] at hok
      rw [except_bind_ok] at hok
      obtain ⟨u3, hu3, hok⟩ := hok
      rw [except_bind_ok] at hok
      obtain ⟨x3, hx3, hok⟩ := hok
      rcases parseLiteral_of_size_zero tm f h with hp3 | ⟨er, hp3⟩
      swap
      · rw [hp3] at hx3; simp at hx3
      rw [hp3] at hx3
      injection hx3 with hx3
      subst hx3
      simp only [] at hok
      rw [except_bind_ok] at hok
      obtain ⟨u4, hu4, hok⟩ := hok
      rw [except_bind_ok] at hok
      obtain ⟨x4, hx4, hok⟩ := hok
      rw [parseVariable_of_size_zero h] at hx4
      injection hx4 with hx4
      subst hx4
      simp only [] at hok
      rw [except_bind_ok] at hok
      obtain ⟨u5, hu5, hok⟩ := hok
      rw [except_bind_ok] at hok
      obtain ⟨x5, hx5, hok⟩ := hok
      rcases parseRecord_of_size_zero tm f hW h with hp5 | ⟨er, hp5⟩
      swap
      · rw [hp5] at hx5; simp at hx5
      rw [hp5] at hx5
      injection hx5 with hx5
      subst hx5
      simp only [] at hok
      rw [except_bind_ok] at hok
      obtain ⟨u6, hu6, hok⟩ := hok
      rw [except_bind_ok] at hok
      obtain ⟨x6, hx6, hok⟩ := hok
      rcases parsePropImpl_of_size_zero tm f hW h with hp6 | ⟨er, hp6⟩
      swap
      · rw [hp6] at hx6; simp at hx6
      rw [hp6] at hx6
      injection hx6 with hx6
      subst hx6
      simp only [] at hok
      rw [except_bind_ok] at hok
      obtain ⟨u7, hu7, hok⟩ := hok
      rw [except_bind_ok] at hok
      obtain ⟨x7, hx7, hok⟩ := hok
      rcases parseCall_of_size_zero tm f hW h false with hp7 | ⟨er, hp7⟩
      swap
      · rw [hp7] at hx7; simp at hx7
      rw [hp7] at hx7
      injection hx7 with hx7
      subst hx7
      simp only [] at hok
      rw [except_bind_ok] at hok
      obtain ⟨u8, hu8, hok⟩ := hok
      rw [except_bind_ok] at hok
      obtain ⟨x8, hx8, hok⟩ := hok
      rcases parseUltraConciseCombine_of_size_zero tm f hW h with hp8 | ⟨er, hp8⟩
      swap
      · rw [hp8] at hx8; simp at hx8
      rw [hp8] at hx8
      injection hx8 with hx8
      subst hx8
      simp only [] at hok
      rw [except_bind_ok] at hok
      obtain ⟨u9, hu9, hok⟩ := hok
      rw [except_bind_ok] at hok
      obtain ⟨x9, hx9, hok⟩ := hok
      rcases parseInfixOp_of_size_zero tm f hW h none (some ["~"]) with hp9 | ⟨er, hp9⟩
      swap
      · rw [hp9] at hx9; simp at hx9
      rw [hp9] at hx9
      injection hx9 with hx9
      subst hx9
      simp only [] at hok
      rw [except_bind_ok] at hok
      obtain ⟨u10, hu10, hok⟩ := hok
      rw [except_bind_ok] at hok
      obtain ⟨x10, hx10, hok⟩ := hok
      rcases parseSubscript_of_size_zero tm f hW h with hp10 | ⟨er, hp10⟩
      swap
      · rw [hp10] at hx10; simp at hx10
      rw [hp10] at hx10
      injection hx10 with hx10
      subst hx10
      simp only [] at hok
      rw [except_bind_ok] at hok
      obtain ⟨u11, hu11, hok⟩ := hok
      rw [except_bind_ok] at hok
      obtain ⟨x11, hx11, hok⟩ := hok
      rcases parseNegationExpression_of_size_zero tm f hW h with hp11 | ⟨er, hp11⟩
      swap
      · rw [hp11] at hx11; simp at hx11
      rw [hp11] at hx11
      injection hx11 with hx11
      subst hx11
      simp only [] at hok
      rw [except_bind_ok] at hok
      obtain ⟨u12, hu12, hok⟩ := hok
      rw [except_bind_ok] at hok
      obtain ⟨x12, hx12, hok⟩ := hok
      rcases parseArraySub_of_size_zero tm f hW h with hp12 | ⟨er, hp12⟩
      swap
      · rw [hp12] at hx12; simp at hx12
      rw [hp12] at hx12
      injection hx12 with hx12
      subst hx12
      simp [Bind.bind, Except.bind, pure, Except.pure] at hok

theorem view_length {s : Span} (hW : s.Wf) : s.view.length = s.size := by
  unfold Span.view Span.size
  rw [List.length_take, List.length_drop]
  have h1 := hW.1
  omega

theorem mk'_Wf (h : List Char) (a b : Nat) : (Span.mk' h a b).Wf := by
  unfold Span.mk' Span.Wf
  exact ⟨Nat.min_le_right _ _, Nat.min_le_right _ _⟩

theorem slice_Wf (s : Span) (a b : Nat) : (s.slice a b).Wf := mk'_Wf _ _ _

theorem slice_all {s : Span} (hW : s.Wf) : s.slice 0 s.size = s := by
  obtain ⟨her, st, sp⟩ := s
  obtain ⟨h1, h2⟩ := hW
  unfold Span.slice Span.mk' Span.size
  simp only at h1 h2 ⊢
  congr 1 <;> omega

theorem slice_size {s : Span} (hW : s.Wf) {a b : Nat} (hab : a ≤ b)
    (hb : b ≤ s.size) : (s.slice a b).size = b - a := by
  obtain ⟨her, st, sp⟩ := s
  obtain ⟨h1, h2⟩ := hW
  unfold Span.slice Span.mk' Span.size at *
  simp only at h1 h2 hb ⊢
  omega

theorem slice_view {s : Span} (hW : s.Wf) {a b : Nat} (hab : a ≤ b)
    (hb : b ≤ s.size) : (s.slice a b).view = (s.view.drop a).take (b - a) := by
  obtain ⟨her, st, sp⟩ := s
  obtain ⟨h1, h2⟩ := hW
  unfold Span.slice Span.mk' Span.view Span.size at *
  simp only at h1 h2 hb ⊢
  have e2 : min (st + b) her.length = st + b := by omega
  have e1 : min (st + a) (min (st + b) her.length) = st + a := by omega
  rw [e1, e2]
  apply List.ext_getElem?
  intro n
  simp only [List.getElem?_take, List.getElem?_drop]
  by_cases hn : n < b - a
  · have hl : n < st + b - (st + a) := by omega
    have hm : a + n < sp - st := by omega
    simp only [hn, hl, hm, if_true]
    congr 1
    omega
  · have hl : ¬ n < st + b - (st + a) := by omega
    simp only [hn, hl, if_false]

theorem tw_len_le (p : Char → Bool) : ∀ (l : List Char),
    (l.takeWhile p).length ≤ l.length
  | [] => le_refl 0
  | c :: t => by
      rw [List.takeWhile_cons]
      by_cases hc : p c
      · simp only [hc, if_true, List.length_cons]
        exact Nat.succ_le_succ (tw_len_le p t)
      · simp [hc]

theorem tw_stop (p : Char → Bool) : ∀ (l : List Char),
    (l.takeWhile p).length < l.length →
      p (l.getD (l.takeWhile p).length ' ') = false
  | [], h => by simp at h
  | c :: t, h => by
      rw [List.takeWhile_cons] at h ⊢
      by_cases hc : p c
      · simp only [hc, if_true, List.length_cons, List.getD_cons_succ] at h ⊢
        exact tw_stop p t (Nat.lt_of_succ_lt_succ h)
      · simp only [Bool.not_eq_true] at hc
        simp [hc]

theorem tw_nil_of_head (p : Char → Bool) (c : Char) (t : List Char)
    (hc : p c = false) : ((c :: t).takeWhile p).length = 0 := by
  rw [List.takeWhile_cons]
  simp [hc]

theorem rl_le (v : List Char) (left : Nat) : ∀ r, rightLoop v left r ≤ r
  | 0 => le_refl 0
  | r + 1 => by
      unfold rightLoop
      by_cases hc : (decide (left < r + 1) && isSpaceC (v.getD (r + 1) ' ')) = true
      · rw [if_pos hc]
        exact le_trans (rl_le v left r) (Nat.le_succ r)
      · rw [if_neg hc]

theorem rl_ge (v : List Char) (left : Nat) : ∀ r, left ≤ r → left ≤ rightLoop v left r
  | 0, h => h
  | r + 1, h => by
      unfold rightLoop
      by_cases hc : (decide (left < r + 1) && isSpaceC (v.getD (r + 1) ' ')) = true
      · rw [if_pos hc]
        have hlt : left < r + 1 := of_decide_eq_true ((Bool.and_eq_true _ _).mp hc).1
        exact rl_ge v left r (Nat.lt_succ_iff.mp hlt)
      · rw [if_neg hc]
        exact h

theorem rl_nospace (v : List Char) (left : Nat) : ∀ r,
    left < rightLoop v left r → isSpaceC (v.getD (rightLoop v left r) ' ') = false
  | 0, h => by simp [rightLoop] at h
  | r + 1, h => by
      unfold rightLoop at h ⊢
      by_cases hc : (decide (left < r + 1) && isSpaceC (v.getD (r + 1) ' ')) = true
      · rw [if_pos hc] at h ⊢
        exact rl_nospace v left r h
      · rw [if_neg hc] at h ⊢
        simp only [Bool.and_eq_true, decide_eq_true_eq, not_and] at hc
        simp only [Bool.not_eq_true] at hc
        exact hc h

theorem stripSpaces_Wf (s : Span) : (stripSpaces s).Wf := by
  simp only [stripSpaces]
  split
  · exact slice_Wf _ _ _
  · exact slice_Wf _ _ _

theorem slice_view_getD {s : Span} (hW : s.Wf) {a b i : Nat} (hab : a ≤ b)
    (hb : b ≤ s.size) (hi : i < b - a) :
    (s.slice a b).view.getD i ' ' = s.view.getD (a + i) ' ' := by
  rw [slice_view hW hab hb]
  rw [List.getD_eq_getElem?_getD, List.getD_eq_getElem?_getD]
  rw [List.getElem?_take, if_pos hi, List.getElem?_drop]

theorem stripSpaces_size_le {s : Span} (hW : s.Wf) : (stripSpaces s).size ≤ s.size := by
  have hn := view_length hW
  simp only [stripSpaces]
  by_cases hv : s.view.isEmpty
  · rw [if_pos hv, slice_size hW (le_refl 0) (Nat.zero_le _)]
    exact Nat.zero_le _
  · rw [if_neg hv]
    have hlle := tw_len_le isSpaceC s.view
    by_cases hr : s.view.length - 1 ≤ (s.view.takeWhile isSpaceC).length
    · rw [if_pos hr]
      have hne : s.view ≠ [] := by simpa [List.isEmpty_iff] using hv
      have h1 : 1 ≤ s.view.length := List.length_pos.mpr hne
      rw [slice_size hW (by omega) (by omega)]
      omega
    · rw [if_neg hr]
      have hrl := rl_le s.view (s.view.takeWhile isSpaceC).length (s.view.length - 1)
      have hrg := rl_ge s.view (s.view.takeWhile isSpaceC).length (s.view.length - 1)
        (by omega)
      rw [slice_size hW (by omega) (by omega)]
      omega

theorem stripSpaces_trimmed {s : Span} (hW : s.Wf) :
    (stripSpaces s).size = 0 ∨
      (isSpaceC ((stripSpaces s).view.getD 0 ' ') = false ∧
       isSpaceC ((stripSpaces s).view.getD ((stripSpaces s).view.length - 1) ' ')
         = false) := by
  have hn := view_length hW
  simp only [stripSpaces]
  by_cases hv : s.view.isEmpty
  · rw [if_pos hv]
    left
    rw [slice_size hW (le_refl 0) (Nat.zero_le _)]
  · rw [if_neg hv]
    have hne : s.view ≠ [] := by simpa [List.isEmpty_iff] using hv
    have h1 : 1 ≤ s.view.length := List.length_pos.mpr hne
    have hlle := tw_len_le isSpaceC s.view
    by_cases hll : (s.view.takeWhile isSpaceC).length = s.view.length
    · -- all spaces: the result is the empty span at the right end
      have hr : s.view.length - 1 ≤ (s.view.takeWhile isSpaceC).length := by omega
      rw [if_pos hr]
      left
      rw [slice_size hW (by omega) (by omega)]
      omega
    · have hlt : (s.view.takeWhile isSpaceC).length < s.view.length := by omega
      have hsl := tw_stop isSpaceC s.view hlt
      by_cases hr : s.view.length - 1 ≤ (s.view.takeWhile isSpaceC).length
      · -- only the last character is non-space
        rw [if_pos hr]
        right
        have hWsl := slice_Wf s (s.view.takeWhile isSpaceC).length (s.view.length - 1 + 1)
        have hsz := @slice_size s hW (s.view.takeWhile isSpaceC).length
          (s.view.length - 1 + 1) (by omega) (by omega)
        have hvl := view_length hWsl
        constructor
        · rw [slice_view_getD hW (by omega) (by omega) (by omega)]
          simpa using hsl
        · rw [hvl, hsz]
          have he : s.view.length - 1 + 1 - (s.view.takeWhile isSpaceC).length - 1 = 0 := by
            omega
          rw [he, slice_view_getD hW (by omega) (by omega) (by omega)]
          simpa using hsl
      · rw [if_neg hr]
        right
        have hrl := rl_le s.view (s.view.takeWhile isSpaceC).length (s.view.length - 1)
        have hrg := rl_ge s.view (s.view.takeWhile isSpaceC).length (s.view.length - 1)
          (by omega)
        have hWsl := slice_Wf s (s.view.takeWhile isSpaceC).length
          (rightLoop s.view (s.view.takeWhile isSpaceC).length (s.view.length - 1) + 1)
        have hsz := @slice_size s hW (s.view.takeWhile isSpaceC).length
          (rightLoop s.view (s.view.takeWhile isSpaceC).length (s.view.length - 1) + 1)
          (by omega) (by omega)
        have hvl := view_length hWsl
        constructor
        · rw [slice_view_getD hW (by omega) (by omega) (by omega)]
          simpa using hsl
        · rw [hvl, hsz]
          by_cases heq : rightLoop s.view (s.view.takeWhile isSpaceC).length
              (s.view.length - 1) = (s.view.takeWhile isSpaceC).length
          · have he : rightLoop s.view (s.view.takeWhile isSpaceC).length
                (s.view.length - 1) + 1 - (s.view.takeWhile isSpaceC).length - 1 = 0 := by
              omega
            rw [he, slice_view_getD hW (by omega) (by omega) (by omega)]
            simpa using hsl
          · have hgt : (s.view.takeWhile isSpaceC).length <
                rightLoop s.view (s.view.takeWhile isSpaceC).length (s.view.length - 1) := by
              omega
            have hns := rl_nospace s.view (s.view.takeWhile isSpaceC).length
              (s.view.length - 1) hgt
            rw [slice_view_getD hW (by omega) (by omega) (by omega)]
            have he : (s.view.takeWhile isSpaceC).length +
                (rightLoop s.view (s.view.takeWhile isSpaceC).length (s.view.length - 1)
                  + 1 - (s.view.takeWhile isSpaceC).length - 1) =
                rightLoop s.view (s.view.takeWhile isSpaceC).length (s.view.length - 1) := by
              omega
            rw [he]
            exact hns

theorem stripSpaces_fix {t : Span} (hW : t.Wf)
    (h : t.size = 0 ∨ (isSpaceC (t.view.getD 0 ' ') = false ∧
      isSpaceC (t.view.getD (t.view.length - 1) ' ') = false)) :
    stripSpaces t = t := by
  rcases h with h | ⟨h1, h2⟩
  · exact stripSpaces_of_size_zero hW h
  · have hne : t.view ≠ [] := by
      intro hnil
      rw [hnil] at h1
      simp [isSpaceC] at h1
    have hn1 : 1 ≤ t.view.length := List.length_pos.mpr hne
    have hn := view_length hW
    have hl0 : (t.view.takeWhile isSpaceC).length = 0 := by
      obtain ⟨c, rest, hcr⟩ := List.exists_cons_of_ne_nil hne
      rw [hcr]
      apply tw_nil_of_head
      rw [hcr] at h1
      simpa using h1
    simp only [stripSpaces]
    have hv : t.view.isEmpty = false := by simpa [List.isEmpty_iff] using hne
    rw [hv]
    simp only [Bool.false_eq_true, if_false, hl0]
    by_cases hr : t.view.length - 1 ≤ 0
    · rw [if_pos hr]
      have hone : t.view.length = 1 := by omega
      have : t.view.length - 1 + 1 = t.size := by omega
      rw [this, slice_all hW]
    · rw [if_neg hr]
      have h2l : 2 ≤ t.view.length := by omega
      obtain ⟨m, hm⟩ : ∃ m, t.view.length - 1 = m + 1 := ⟨t.view.length - 2, by omega⟩
      rw [hm]
      unfold rightLoop
      have hcond : (decide (0 < m + 1) && isSpaceC (t.view.getD (m + 1) ' ')) = false := by
        have : t.view.getD (m + 1) ' ' = t.view.getD (t.view.length - 1) ' ' := by
          rw [hm]
        rw [this, h2]
        simp
      rw [hcond]
      simp only [Bool.false_eq_true, if_false]
      have : m + 1 + 1 = t.size := by omega
      rw [this, slice_all hW]

theorem peelCond_size {t : Span} (h : peelCond t = true) : 2 ≤ t.size := by
  unfold peelCond at h
  simp only [Bool.and_eq_true, decide_eq_true_eq] at h
  exact h.1.1.1

theorem stripGo_fix : ∀ (fuel : Nat) (s : Span), s.Wf → s.size < fuel →
    (stripGo fuel s).Wf ∧ stripSpaces (stripGo fuel s) = stripGo fuel s ∧
      peelCond (stripGo fuel s) = false
  | 0, _, _, h => absurd h (Nat.not_lt_zero _)
  | fuel + 1, s, hW, h => by
      simp only [stripGo]
      by_cases hp : peelCond (stripSpaces s) = true
      · rw [if_pos hp]
        have h2 : 2 ≤ (stripSpaces s).size := peelCond_size hp
        have hle := stripSpaces_size_le hW
        have hWs := stripSpaces_Wf s
        have hsz : ((stripSpaces s).slice 1 ((stripSpaces s).size - 1)).size
            = (stripSpaces s).size - 2 := by
          rw [slice_size hWs (by omega) (by omega)]
          omega
        exact stripGo_fix fuel _ (slice_Wf _ _ _) (by omega)
      · rw [if_neg hp]
        exact ⟨stripSpaces_Wf s,
          stripSpaces_fix (stripSpaces_Wf s) (stripSpaces_trimmed hW),
          by simpa using hp⟩

theorem StepsGE_mono : ∀ {steps : List TStep} {p q : Nat}, p ≤ q →
    StepsGE q steps → StepsGE p steps
  | [], _, _, _, _ => trivial
  | _ :: _, _, _, h, hs => ⟨le_trans h hs.1, hs.2⟩

theorem StepsGE_drop : ∀ (steps : List TStep) (p k : Nat), StepsGE p steps →
    StepsGE (p + k) (steps.drop k)
  | _, _, 0, h => by simpa using h
  | [], _, _ + 1, _ => by simp [StepsGE, List.drop_nil]
  | st :: rest, p, k + 1, h => by
      simp only [List.drop_succ_cons]
      have h3 : StepsGE (p + 1) rest := StepsGE_mono (by have := h.1; omega) h.2
      exact StepsGE_mono (by omega) (StepsGE_drop rest (p + 1) k h3)

theorem trackEmit_idx (pos : Nat) (state : List Char) (c : Char) :
    (trackEmit pos state c).1.idx = pos := by
  unfold trackEmit
  repeat' split
  all_goals rfl

theorem stepsGo_ge (s : Span) : ∀ (fuel pos : Nat) (state : List Char),
    StepsGE pos (stepsGo s fuel pos state)
  | 0, _, _ => trivial
  | fuel + 1, pos, state => by
      have IH1 : ∀ st, StepsGE pos (stepsGo s fuel (pos + 1) st) :=
        fun st => StepsGE_mono (Nat.le_succ pos) (stepsGo_ge s fuel (pos + 1) st)
      have IH1' : ∀ st, StepsGE (pos + 1) (stepsGo s fuel (pos + 1) st) :=
        fun st => stepsGo_ge s fuel (pos + 1) st
      have IH2 : ∀ st, StepsGE pos (stepsGo s fuel (pos + 2) st) :=
        fun st => StepsGE_mono (by omega) (stepsGo_ge s fuel (pos + 2) st)
      rw [stepsGo]
      split
      · split
        case h_4 rest =>
          simp only []
          rcases hte : trackEmit pos rest (s.at pos) with ⟨step, st'⟩
          have ht := trackEmit_idx pos rest (s.at pos)
          rw [hte] at ht
          exact ⟨le_of_eq ht.symm, by rw [ht]; exact IH1' st'⟩
        case h_9 =>
          simp only []
          split
          · exact IH1 _
          split
          · exact ⟨le_refl _, IH1' _⟩
          split
          · exact ⟨le_refl _, IH1' _⟩
          split
          · exact ⟨le_refl _, IH1' _⟩
          split
          · exact ⟨le_refl _, IH1' _⟩
          split
          · exact IH2 _
          rcases hte : trackEmit pos state (s.at pos) with ⟨step, st'⟩
          have ht := trackEmit_idx pos state (s.at pos)
          rw [hte] at ht
          exact ⟨le_of_eq ht.symm, by rw [ht]; exact IH1' st'⟩
        all_goals simp only []
        all_goals (repeat' split)
        all_goals first
          | exact IH1 _
          | exact IH2 _
          | exact ⟨le_refl _, IH1' _⟩
      · trivial

theorem intercalate_snoc (sep : List Char) : ∀ (xs : List (List Char)) (y : List Char),
    List.intercalate sep (xs ++ [y]) = (xs.map (fun p => p ++ sep)).flatten ++ y
  | [], y => by simp [List.intercalate]
  | x :: xs, y => by
      have hcc : ∀ (b : List Char) (l : List (List Char)),
          List.intercalate sep (x :: b :: l) = x ++ sep ++ List.intercalate sep (b :: l) := by
        intro b l
        simp [List.intercalate, List.intersperse_cons_cons]
      cases xs with
      | nil =>
          simp only [List.nil_append, List.cons_append, hcc]
          simp [List.intercalate]
      | cons b l =>
          simp only [List.cons_append, hcc]
          rw [← List.cons_append, intercalate_snoc sep (b :: l) y]
          simp

theorem splitRawGo_join (s : Span) (sepL : List Char) (alnum : Bool) (hW : s.Wf) :
    ∀ (fuel : Nat) (steps : List TStep) (partStart : Nat) (acc : List Span)
      (parts : List Span),
      StepsGE partStart steps → partStart ≤ s.size →
      ((acc.map Span.view).map (fun p => p ++ sepL)).flatten = s.view.take partStart →
      splitRawGo s sepL alnum fuel steps partStart acc = .ok parts →
      List.intercalate sepL (parts.map Span.view) = s.view
  | fuel, [], partStart, acc, parts, _, hle, hinv, heq => by
      rw [splitRawGo] at heq
      injection heq with heq
      subst heq
      rw [List.map_append, List.map_cons, List.map_nil, intercalate_snoc, hinv]
      have hvl := view_length hW
      rw [slice_view hW hle (le_refl s.size)]
      have hdt : (s.view.drop partStart).take (s.size - partStart) = s.view.drop partStart := by
        apply List.take_of_length_le
        rw [List.length_drop, hvl]
      rw [hdt, List.take_append_drop]
  | 0, _ :: _, partStart, acc, parts, _, _, _, heq => by
      rw [splitRawGo] at heq
      simp at heq
  | fuel + 1, step :: rest, partStart, acc, parts, hge, hle, hinv, heq => by
      rw [splitRawGo] at heq
      by_cases h1 : (step.status != TStatus.ok) = true
      · rw [if_pos h1] at heq
        simp at heq
      rw [if_neg h1] at heq
      have hgeR : StepsGE partStart rest :=
        StepsGE_mono (by have := hge.1; omega) hge.2
      have Rsame : splitRawGo s sepL alnum fuel rest partStart acc = Except.ok parts →
          List.intercalate sepL (parts.map Span.view) = s.view :=
        fun h => splitRawGo_join s sepL alnum hW fuel rest partStart acc parts hgeR hle hinv h
      by_cases h2 : (!step.state.isEmpty) = true
      · rw [if_pos h2] at heq
        exact Rsame heq
      rw [if_neg h2] at heq
      simp only [] at heq
      split at heq
      · rename_i h3
        split at heq
        · exact Rsame heq
        split at heq
        · exact Rsame heq
        split at heq
        · exact Rsame heq
        simp only [Bool.and_eq_true, decide_eq_true_eq, beq_iff_eq] at h3
        obtain ⟨hbound, hsub⟩ := h3
        have hvl := view_length hW
        have hile : step.idx ≤ s.size := by omega
        have hps : partStart ≤ step.idx := hge.1
        have hge' : StepsGE (step.idx + sepL.length) (rest.drop (sepL.length - 1)) := by
          have hd := StepsGE_drop rest (step.idx + 1) (sepL.length - 1) hge.2
          exact StepsGE_mono (by omega) hd
        have hle' : step.idx + sepL.length ≤ s.size := by omega
        have hinv' : (((acc ++ [s.slice partStart step.idx]).map Span.view).map
            (fun p => p ++ sepL)).flatten = s.view.take (step.idx + sepL.length) := by
          rw [List.map_append, List.map_append, List.flatten_append]
          rw [hinv]
          simp only [List.map_cons, List.map_nil, List.flatten_cons, List.flatten_nil,
            List.append_nil]
          rw [slice_view hW hps hile]
          rw [List.take_add s.view step.idx sepL.length]
          have hpi : step.idx = partStart + (step.idx - partStart) := by omega
          rw [hpi, List.take_add s.view partStart (step.idx - partStart)]
          have hss : (s.view.drop step.idx).take sepL.length = sepL := by
            have : subAt s.view step.idx sepL.length = sepL := hsub
            simpa [subAt] using this
          rw [← hpi, hss]
          simp
        exact splitRawGo_join s sepL alnum hW fuel (rest.drop (sepL.length - 1))
          (step.idx + sepL.length) (acc ++ [s.slice partStart step.idx]) parts
          hge' hle' hinv' heq
      · exact Rsame heq

/-- Claim C7: for a well-formed span, the parts of the raw split joined with
the separator between them reconstruct the span's text exactly, and `Split`
returns exactly the outer strips of those raw parts. -/
theorem claim_C7_split_reconstruction (s : Span) (sep : String) (parts : List Span)
    (hW : s.Wf) (h : splitRaw s sep = .ok parts) :
    List.intercalate sep.data (parts.map Span.view) = s.view ∧
      split s sep = .ok (parts.map strip) := by
  constructor
  · unfold splitRaw at h
    by_cases hz : (sep.data.length == 0) = true
    · rw [if_pos hz] at h
      injection h with h
      subst h
      simp only [List.map_cons, List.map_nil]
      have hd : sep.data = [] := List.length_eq_zero.mp (beq_iff_eq.mp hz)
      rw [hd]
      simp [List.intercalate]
    · rw [if_neg hz] at h
      simp only [] at h
      exact splitRawGo_join s sep.data (sep.data.all isAlnumC) hW _ _ 0 [] parts
        (stepsGo_ge s _ 0 []) (Nat.zero_le _) (by simp) h
  · unfold split
    rw [h]
    simp [Bind.bind, Except.bind, pure, Except.pure]

/-- Witness for claim C7 at the concrete input `a,b(c,d),e` split on `,`:
the comma inside the parentheses does not split. -/
theorem claim_C7_witness :
    List.intercalate ",".data
      ([⟨"a,b(c,d),e".data, 0, 1⟩, ⟨"a,b(c,d),e".data, 2, 8⟩,
        ⟨"a,b(c,d),e".data, 9, 10⟩].map Span.view) =
      (Span.ofString "a,b(c,d),e").view ∧
    split (Span.ofString "a,b(c,d),e") "," =
      .ok ([⟨"a,b(c,d),e".data, 0, 1⟩, ⟨"a,b(c,d),e".data, 2, 8⟩,
        ⟨"a,b(c,d),e".data, 9, 10⟩].map strip) :=
  claim_C7_split_reconstruction (Span.ofString "a,b(c,d),e") ","
    [⟨"a,b(c,d),e".data, 0, 1⟩, ⟨"a,b(c,d),e".data, 2, 8⟩,
      ⟨"a,b(c,d),e".data, 9, 10⟩]
    ⟨by decide, by decide⟩ (by decide)

theorem tw_all_self {p : Char → Bool} {l : List Char} (h : l.all p = true) :
    l.takeWhile p = l :=
  List.takeWhile_eq_self_iff.mpr (by simpa [List.all_eq_true] using h)

theorem tw_append_all {p : Char → Bool} : ∀ {ws : List Char} (t : List Char),
    ws.all p = true → (ws ++ t).takeWhile p = ws ++ t.takeWhile p := by
  intro ws
  induction ws with
  | nil => intro t _; simp
  | cons c r ih =>
      intro t h
      simp only [List.all_cons, Bool.and_eq_true] at h
      simp only [List.cons_append, List.takeWhile_cons, h.1, if_true]
      rw [ih t h.2]

theorem tw_cons_false {p : Char → Bool} {c : Char} (t : List Char)
    (h : p c = false) : (c :: t).takeWhile p = [] := by
  simp [List.takeWhile_cons, h]

theorem drop_tw_length {p : Char → Bool} : ∀ (l : List Char),
    l.drop (l.takeWhile p).length = l.dropWhile p
  | [] => rfl
  | c :: t => by
      by_cases hc : p c
      · simp only [List.takeWhile_cons, List.dropWhile_cons, hc, if_true,
          List.length_cons, List.drop_succ_cons]
        exact drop_tw_length t
      · simp only [Bool.not_eq_true] at hc
        simp [List.takeWhile_cons, List.dropWhile_cons, hc]

theorem tw_append_drop {p : Char → Bool} (l : List Char) :
    l.takeWhile p ++ l.drop (l.takeWhile p).length = l := by
  rw [drop_tw_length]
  exact List.takeWhile_append_dropWhile p l

theorem tw_whole {p : Char → Bool} {l : List Char}
    (h : (l.takeWhile p).length = l.length) : l.takeWhile p = l := by
  have hs := @tw_append_drop p l
  have hlen : (l.drop (l.takeWhile p).length).length = 0 := by
    rw [List.length_drop]
    omega
  have hnil : l.drop (l.takeWhile p).length = [] := List.eq_nil_of_length_eq_zero hlen
  conv_rhs => rw [← hs]
  rw [hnil, List.append_nil]

theorem signSplit_other {c : Char} (r : List Char) (h1 : c ≠ '+') (h2 : c ≠ '-') :
    signSplit (c :: r) = (0, false, c :: r) := by
  unfold signSplit
  split
  · rename_i heq
    injection heq with heq1 heq2
    exact absurd heq1 h1
  · rename_i heq
    injection heq with heq1 heq2
    exact absurd heq1 h2
  · rfl

theorem munchExp_core_fwd {marks : List Char} {m : Char} {e : Int}
    (sgn r2 : List Char) (neg : Bool)
    (hm : marks.contains (toLowerC m) = true)
    (hsgn : IsSignOpt sgn)
    (hval : ∀ ds : List Char, (if neg = true then -(digitsToNat ds : Int)
      else (digitsToNat ds : Int)) = ExpVal sgn ds)
    (h : (let ds := r2.takeWhile isDigitC;
      if ds.isEmpty then ((0 : Nat), (0 : Int))
      else (1 + sgn.length + ds.length,
        if neg then -(digitsToNat ds : Int) else (digitsToNat ds : Int))) =
      ((m :: (sgn ++ r2)).length, e)) :
    IsExpOpt marks (m :: (sgn ++ r2)) e := by
  simp only [] at h
  by_cases hds : (r2.takeWhile isDigitC).isEmpty = true
  · rw [if_pos hds] at h
    injection h with h1 h2
    simp at h1
  · rw [if_neg hds] at h
    injection h with h1 h2
    have htw : r2.takeWhile isDigitC = r2 := by
      apply tw_whole
      simp only [List.length_cons, List.length_append] at h1
      omega
    right
    refine ⟨m, sgn, r2, rfl, hm, hsgn, ?_, ?_, ?_⟩
    · intro hnil
      subst hnil
      simp at hds
    · rw [← htw]
      exact List.all_takeWhile
    · rw [← h2, htw, hval r2]

theorem munchExp_whole_fwd {marks l : List Char} {e : Int}
    (h : munchExp marks l = (l.length, e)) : IsExpOpt marks l e := by
  cases l with
  | nil =>
      left
      refine ⟨rfl, ?_⟩
      have h0 : munchExp marks [] = (0, 0) := rfl
      rw [h0] at h
      injection h with h1 h2
      exact h2.symm
  | cons m rest =>
      unfold munchExp at h
      simp only [] at h
      by_cases hm : marks.contains (toLowerC m) = true
      swap
      · rw [if_neg hm] at h
        injection h with h1 h2
        simp at h1
      rw [if_pos hm] at h
      rcases rest with _ | ⟨c2, r2⟩
      · rw [show signSplit [] = (0, false, []) from rfl] at h
        simp only [] at h
        exact munchExp_core_fwd [] [] false hm (.inl rfl)
          (fun ds => by simp [ExpVal]) h
      · by_cases hp : c2 = '+'
        · subst hp
          rw [show signSplit ('+' :: r2) = (1, false, r2) from rfl] at h
          simp only [] at h
          exact munchExp_core_fwd ['+'] r2 false hm (.inr (.inl rfl))
            (fun ds => by simp [ExpVal]) h
        by_cases hneg : c2 = '-'
        · subst hneg
          rw [show signSplit ('-' :: r2) = (1, true, r2) from rfl] at h
          simp only [] at h
          exact munchExp_core_fwd ['-'] r2 true hm (.inr (.inr rfl))
            (fun ds => by simp [ExpVal]) h
        · rw [signSplit_other r2 hp hneg] at h
          simp only [] at h
          exact munchExp_core_fwd [] (c2 :: r2) false hm (.inl rfl)
            (fun ds => by simp [ExpVal]) h

theorem digit_ne_plus {a : Char} (h : isDigitC a = true) : a ≠ '+' := by
  intro he
  rw [he] at h
  exact absurd h (by decide)

theorem digit_ne_minus {a : Char} (h : isDigitC a = true) : a ≠ '-' := by
  intro he
  rw [he] at h
  exact absurd h (by decide)

theorem munchExp_bwd {marks l : List Char} {e : Int}
    (h : IsExpOpt marks l e) : munchExp marks l = (l.length, e) := by
  rcases h with ⟨hl, he⟩ | ⟨m, sgn, ds, hl, hm, hsgn, hdsne, hdsall, he⟩
  · subst hl he
    rfl
  · subst hl
    unfold munchExp
    simp only []
    rw [if_pos hm]
    have htw : ds.takeWhile isDigitC = ds := tw_all_self hdsall
    have hdse : ds.isEmpty = false := by
      cases ds with
      | nil => exact absurd rfl hdsne
      | cons a b => rfl
    rcases hsgn with hs | hs | hs
    all_goals subst hs
    · simp only [List.nil_append]
      have hsp : signSplit ds = (0, false, ds) := by
        cases ds with
        | nil => exact absurd rfl hdsne
        | cons a b =>
            have ha : isDigitC a = true := by
              simp only [List.all_cons, Bool.and_eq_true] at hdsall
              exact hdsall.1
            exact signSplit_other b (digit_ne_plus ha) (digit_ne_minus ha)
      rw [hsp]
      simp only [htw, hdse, Bool.false_eq_true, if_false]
      have hev : e = (digitsToNat ds : Int) := by simpa [ExpVal] using he
      subst hev
      simp only [List.length_cons]
      congr 1
      omega
    · simp only [List.singleton_append]
      rw [show signSplit ('+' :: ds) = (1, false, ds) from rfl]
      simp only [htw, hdse, Bool.false_eq_true, if_false]
      have hev : e = (digitsToNat ds : Int) := by simpa [ExpVal] using he
      subst hev
      simp only [List.cons_append, List.singleton_append, List.length_cons]
      congr 1
      omega
    · simp only [List.singleton_append]
      rw [show signSplit ('-' :: ds) = (1, true, ds) from rfl]
      simp only [htw, hdse, Bool.false_eq_true, if_false]
      have hev : e = -(digitsToNat ds : Int) := by simpa [ExpVal] using he
      subst hev
      simp only [List.cons_append, List.singleton_append, List.length_cons]
      congr 1
      omega

theorem char_eq_of_toNat {a b : Char} (h : a.toNat = b.toNat) : a = b :=
  Char.ofNat_toNat a ▸ Char.ofNat_toNat b ▸ congrArg Char.ofNat h

theorem toLowerC_cases {m t tu : Char} (h : toLowerC m = t)
    (htu : ('A' ≤ tu && tu ≤ 'Z') = true) (ht : t.toNat = tu.toNat + 32) :
    m = t ∨ m = tu := by
  unfold toLowerC at h
  by_cases hu : isUpperC m = true
  · rw [if_pos hu] at h
    right
    unfold isUpperC at hu
    simp only [Bool.and_eq_true, decide_eq_true_eq] at hu htu
    obtain ⟨h1, h2⟩ := hu
    obtain ⟨h3, h4⟩ := htu
    rw [Char.le_def] at h1 h2 h3 h4
    have h1n : (65 : Nat) ≤ m.toNat := h1
    have h2n : m.toNat ≤ (90 : Nat) := h2
    have h3n : (65 : Nat) ≤ tu.toNat := h3
    have h4n : tu.toNat ≤ (90 : Nat) := h4
    have hval : (m.toNat + 32).isValidChar := by
      left
      omega
    have hofn : (Char.ofNat (m.toNat + 32)).toNat = m.toNat + 32 := by
      unfold Char.ofNat
      split
      · rfl
      · exact absurd hval (by assumption)
    rw [h] at hofn
    exact char_eq_of_toNat (by omega)
  · rw [if_neg hu] at h
    exact .inl h

theorem munchFrac_other {dt : Char → Bool} {c : Char} (rest : List Char)
    (h : c ≠ '.') : munchFrac dt (c :: rest) = (0, []) := by
  unfold munchFrac
  split
  · rename_i heq
    injection heq with heq1 heq2
    exact absurd heq1 h
  · rfl

theorem munchFrac_nil (dt : Char → Bool) : munchFrac dt [] = (0, []) := rfl

theorem munchFrac_dot (dt : Char → Bool) (rest : List Char) :
    munchFrac dt ('.' :: rest) = (1 + (rest.takeWhile dt).length, rest.takeWhile dt) :=
  rfl

theorem munchDec_whole_fwd {cs : List Char} {form : NumForm}
    (h : munchDec cs = some (cs.length, form)) :
    ∃ d1 fr d2 ex e, cs = d1 ++ fr ++ ex ∧ d1.all isDigitC = true ∧
      IsFracOpt isDigitC fr d2 ∧ d1 ++ d2 ≠ [] ∧ IsExpOpt ['e'] ex e ∧
      form = .dec (digitsToNat (d1 ++ d2)) (e - d2.length) := by
  unfold munchDec at h
  simp only [] at h
  have hsplit1 := @tw_append_drop isDigitC cs
  rcases hdrop : cs.drop (cs.takeWhile isDigitC).length with _ | ⟨c0, r0⟩
  · rw [hdrop, munchFrac_nil] at h
    simp only [] at h
    by_cases hemp : ((cs.takeWhile isDigitC) ++ ([] : List Char)).isEmpty = true
    · rw [if_pos hemp] at h
      simp at h
    · rw [if_neg hemp] at h
      rcases hex : munchExp ['e'] (cs.drop ((cs.takeWhile isDigitC).length + 0)) with
        ⟨expLen, e10⟩
      rw [hex] at h
      simp only [] at h
      injection h with h
      injection h with hlen hform
      have hexlist : cs.drop ((cs.takeWhile isDigitC).length + 0) = [] := by
        rw [Nat.add_zero, hdrop]
      rw [hexlist] at hex
      injection hex with hex1 hex2
      refine ⟨cs.takeWhile isDigitC, [], [], [], e10, ?_, List.all_takeWhile,
        .inl ⟨rfl, rfl⟩, ?_, .inl ⟨rfl, hex2.symm⟩, ?_⟩
      · rw [List.append_nil, List.append_nil]
        rw [hdrop, List.append_nil] at hsplit1
        exact hsplit1.symm
      · intro hne
        rw [hne] at hemp
        simp at hemp
      · rw [← hform]
  · rw [hdrop] at hsplit1
    have hlencs : cs.length = (cs.takeWhile isDigitC).length + (1 + r0.length) := by
      have := congrArg List.length hsplit1
      simp only [List.length_append, List.length_cons] at this
      omega
    by_cases hc0 : c0 = '.'
    · subst hc0
      rw [hdrop, munchFrac_dot] at h
      simp only [] at h
      by_cases hemp : ((cs.takeWhile isDigitC) ++ r0.takeWhile isDigitC).isEmpty = true
      · rw [if_pos hemp] at h
        simp at h
      · rw [if_neg hemp] at h
        rcases hex : munchExp ['e'] (cs.drop ((cs.takeWhile isDigitC).length +
            (1 + (r0.takeWhile isDigitC).length))) with ⟨expLen, e10⟩
        rw [hex] at h
        simp only [] at h
        injection h with h
        injection h with hlen hform
        have hr0 := @tw_append_drop isDigitC r0
        have hexlist : cs.drop ((cs.takeWhile isDigitC).length +
            (1 + (r0.takeWhile isDigitC).length)) =
            r0.drop (r0.takeWhile isDigitC).length := by
          rw [← List.drop_drop, hdrop]
          rw [show (1 + (r0.takeWhile isDigitC).length) =
            (r0.takeWhile isDigitC).length + 1 from by omega]
          rw [List.drop_succ_cons]
        rw [hexlist] at hex
        have hr0len : (r0.takeWhile isDigitC).length +
            (r0.drop (r0.takeWhile isDigitC).length).length = r0.length := by
          have := congrArg List.length hr0
          simp only [List.length_append] at this
          omega
        have hexfull : expLen = (r0.drop (r0.takeWhile isDigitC).length).length := by
          omega
        rw [hexfull] at hex
        refine ⟨cs.takeWhile isDigitC, '.' :: r0.takeWhile isDigitC,
          r0.takeWhile isDigitC, r0.drop (r0.takeWhile isDigitC).length, e10,
          ?_, List.all_takeWhile, .inr ⟨rfl, List.all_takeWhile⟩, ?_,
          munchExp_whole_fwd hex, ?_⟩
        · conv_lhs => rw [← hsplit1]
          simp only [List.append_assoc, List.cons_append]
          rw [hr0]
        · intro hne
          rw [hne] at hemp
          simp at hemp
        · rw [← hform]
    · rw [hdrop, munchFrac_other r0 hc0] at h
      simp only [] at h
      by_cases hemp : ((cs.takeWhile isDigitC) ++ ([] : List Char)).isEmpty = true
      · rw [if_pos hemp] at h
        simp at h
      · rw [if_neg hemp] at h
        rcases hex : munchExp ['e'] (cs.drop ((cs.takeWhile isDigitC).length + 0)) with
          ⟨expLen, e10⟩
        rw [hex] at h
        simp only [] at h
        injection h with h
        injection h with hlen hform
        have hexlist : cs.drop ((cs.takeWhile isDigitC).length + 0) = c0 :: r0 := by
          rw [Nat.add_zero, hdrop]
        rw [hexlist] at hex
        have hexfull : expLen = (c0 :: r0).length := by
          simp only [List.length_cons]
          omega
        rw [hexfull] at hex
        refine ⟨cs.takeWhile isDigitC, [], [], c0 :: r0, e10, ?_, List.all_takeWhile,
          .inl ⟨rfl, rfl⟩, ?_, munchExp_whole_fwd hex, ?_⟩
        · rw [List.append_nil]
          exact hsplit1.symm
        · intro hne
          rw [hne] at hemp
          simp at hemp
        · rw [← hform]

theorem markE_cases {m : Char} (h : (['e'] : List Char).contains (toLowerC m) = true) :
    m = 'e' ∨ m = 'E' := by
  have hl : toLowerC m = 'e' := by
    simpa [List.contains] using h
  exact toLowerC_cases hl (by decide) (by decide)

theorem markP_cases {m : Char} (h : (['p'] : List Char).contains (toLowerC m) = true) :
    m = 'p' ∨ m = 'P' := by
  have hl : toLowerC m = 'p' := by
    simpa [List.contains] using h
  exact toLowerC_cases hl (by decide) (by decide)

theorem expTail_tw {marks ex : List Char} {e : Int} {dt : Char → Bool}
    (hmarks : ∀ m : Char, marks.contains (toLowerC m) = true → dt m = false ∧ m ≠ '.')
    (hex : IsExpOpt marks ex e) : ex.takeWhile dt = [] ∧ munchFrac dt ex = (0, []) := by
  rcases hex with ⟨hnil, _⟩ | ⟨m, sgn, ds, hl, hm, _, _, _, _⟩
  · subst hnil
    exact ⟨rfl, rfl⟩
  · subst hl
    obtain ⟨hdt, hdot⟩ := hmarks m hm
    exact ⟨tw_cons_false _ hdt, munchFrac_other _ hdot⟩

theorem expTail_e {ex : List Char} {e : Int} (hex : IsExpOpt ['e'] ex e) :
    ex.takeWhile isDigitC = [] ∧ munchFrac isDigitC ex = (0, []) := by
  refine expTail_tw ?_ hex
  intro m hm
  rcases markE_cases hm with h | h
  all_goals subst h
  all_goals exact ⟨by decide, by decide⟩

theorem expTail_p {ex : List Char} {e : Int} (hex : IsExpOpt ['p'] ex e) :
    ex.takeWhile isHexDigitC = [] ∧ munchFrac isHexDigitC ex = (0, []) := by
  refine expTail_tw ?_ hex
  intro m hm
  rcases markP_cases hm with h | h
  all_goals subst h
  all_goals exact ⟨by decide, by decide⟩

theorem munchDec_bwd {d1 fr d2 ex : List Char} {e : Int}
    (hd1 : d1.all isDigitC = true) (hfr : IsFracOpt isDigitC fr d2)
    (hne : d1 ++ d2 ≠ []) (hex : IsExpOpt ['e'] ex e) :
    munchDec (d1 ++ fr ++ ex) = some ((d1 ++ fr ++ ex).length,
      .dec (digitsToNat (d1 ++ d2)) (e - d2.length)) := by
  obtain ⟨htwex, hfrex⟩ := expTail_e hex
  have hexlen := munchExp_bwd hex
  unfold munchDec
  simp only []
  rw [List.append_assoc]
  rcases hfr with ⟨hfr1, hd2⟩ | ⟨hfr1, hd2all⟩
  · subst hfr1
    subst hd2
    simp only [List.nil_append]
    rw [tw_append_all ex hd1, htwex, List.append_nil, List.drop_left, hfrex]
    simp only []
    have hemp : (d1 ++ ([] : List Char)).isEmpty = false := by
      rcases d1 with _ | ⟨a, b⟩
      · exact absurd rfl hne
      · rfl
    rw [hemp]
    simp only [Bool.false_eq_true, if_false, Nat.add_zero]
    have hdl : List.drop d1.length (d1 ++ ex) = ex := List.drop_left d1 ex
    rw [hdl, hexlen]
    simp only [List.length_append]
    rw [List.append_nil]
  · subst hfr1
    simp only [List.cons_append, List.append_assoc]
    have hstep : ('.' :: (d2 ++ ex)).takeWhile isDigitC = [] :=
      tw_cons_false _ (by decide)
    rw [tw_append_all ('.' :: (d2 ++ ex)) hd1, hstep, List.append_nil]
    have hdl : List.drop d1.length (d1 ++ '.' :: (d2 ++ ex)) = '.' :: (d2 ++ ex) :=
      List.drop_left d1 _
    rw [hdl, munchFrac_dot]
    rw [tw_append_all ex hd2all, htwex, List.append_nil]
    simp only []
    have hemp : (d1 ++ d2).isEmpty = false := by
      rcases hd : d1 ++ d2 with _ | ⟨a, b⟩
      · exact absurd hd hne
      · rfl
    rw [hemp]
    simp only [Bool.false_eq_true, if_false]
    have hdl2 : List.drop (d1.length + (1 + d2.length)) (d1 ++ '.' :: (d2 ++ ex)) = ex := by
      rw [← List.drop_drop, hdl]
      rw [show 1 + d2.length = d2.length + 1 from by omega, List.drop_succ_cons]
      have : d2 ++ ex = d2 ++ ex := rfl
      rw [show List.drop d2.length (d2 ++ ex) = ex from List.drop_left d2 ex]
    rw [hdl2, hexlen]
    simp only [List.length_append, List.length_cons]
    congr 2
    omega

theorem munchHex_whole_fwd {cs : List Char} {form : NumForm}
    (h : munchHex cs = some (cs.length, form)) :
    ∃ x h1 fr h2 ex e, cs = '0' :: x :: (h1 ++ fr ++ ex) ∧ (x = 'x' ∨ x = 'X') ∧
      h1.all isHexDigitC = true ∧ IsFracOpt isHexDigitC fr h2 ∧ h1 ++ h2 ≠ [] ∧
      IsExpOpt ['p'] ex e ∧
      form = .hex (hexDigitsToNat (h1 ++ h2)) (e - 4 * h2.length) := by
  unfold munchHex at h
  split at h
  case h_2 => simp at h
  rename_i x rest
  by_cases hx : (x == 'x' || x == 'X') = true
  swap
  · rw [if_neg hx] at h
    simp at h
  rw [if_pos hx] at h
  simp only [Bool.or_eq_true, beq_iff_eq] at hx
  simp only [] at h
  simp only [List.length_cons] at h
  have hsplit1 := @tw_append_drop isHexDigitC rest
  rcases hdrop : rest.drop (rest.takeWhile isHexDigitC).length with _ | ⟨c0, r0⟩
  · rw [hdrop, munchFrac_nil] at h
    simp only [] at h
    by_cases hemp : ((rest.takeWhile isHexDigitC) ++ ([] : List Char)).isEmpty = true
    · rw [if_pos hemp] at h
      simp at h
    · rw [if_neg hemp] at h
      rcases hex : munchExp ['p'] (rest.drop ((rest.takeWhile isHexDigitC).length + 0)) with
        ⟨expLen, e2⟩
      rw [hex] at h
      simp only [] at h
      injection h with h
      injection h with hlen hform
      have hexlist : rest.drop ((rest.takeWhile isHexDigitC).length + 0) = [] := by
        rw [Nat.add_zero, hdrop]
      rw [hexlist] at hex
      injection hex with hex1 hex2
      refine ⟨x, rest.takeWhile isHexDigitC, [], [], [], e2, ?_, hx, List.all_takeWhile,
        .inl ⟨rfl, rfl⟩, ?_, .inl ⟨rfl, hex2.symm⟩, ?_⟩
      · rw [List.append_nil, List.append_nil]
        rw [hdrop, List.append_nil] at hsplit1
        rw [hsplit1]
      · intro hne
        rw [hne] at hemp
        simp at hemp
      · rw [← hform]
  · rw [hdrop] at hsplit1
    have hlenrest : rest.length = (rest.takeWhile isHexDigitC).length + (1 + r0.length) := by
      have := congrArg List.length hsplit1
      simp only [List.length_append, List.length_cons] at this
      omega
    by_cases hc0 : c0 = '.'
    · subst hc0
      rw [hdrop, munchFrac_dot] at h
      simp only [] at h
      by_cases hemp : ((rest.takeWhile isHexDigitC) ++ r0.takeWhile isHexDigitC).isEmpty = true
      · rw [if_pos hemp] at h
        simp at h
      · rw [if_neg hemp] at h
        rcases hex : munchExp ['p'] (rest.drop ((rest.takeWhile isHexDigitC).length +
            (1 + (r0.takeWhile isHexDigitC).length))) with ⟨expLen, e2⟩
        rw [hex] at h
        simp only [] at h
        injection h with h
        injection h with hlen hform
        have hr0 := @tw_append_drop isHexDigitC r0
        have hexlist : rest.drop ((rest.takeWhile isHexDigitC).length +
            (1 + (r0.takeWhile isHexDigitC).length)) =
            r0.drop (r0.takeWhile isHexDigitC).length := by
          rw [← List.drop_drop, hdrop]
          rw [show (1 + (r0.takeWhile isHexDigitC).length) =
            (r0.takeWhile isHexDigitC).length + 1 from by omega]
          rw [List.drop_succ_cons]
        rw [hexlist] at hex
        have hr0len : (r0.takeWhile isHexDigitC).length +
            (r0.drop (r0.takeWhile isHexDigitC).length).length = r0.length := by
          have := congrArg List.length hr0
          simp only [List.length_append] at this
          omega
        have hexfull : expLen = (r0.drop (r0.takeWhile isHexDigitC).length).length := by
          omega
        rw [hexfull] at hex
        refine ⟨x, rest.takeWhile isHexDigitC, '.' :: r0.takeWhile isHexDigitC,
          r0.takeWhile isHexDigitC, r0.drop (r0.takeWhile isHexDigitC).length, e2,
          ?_, hx, List.all_takeWhile, .inr ⟨rfl, List.all_takeWhile⟩, ?_,
          munchExp_whole_fwd hex, ?_⟩
        · conv_lhs => rw [← hsplit1]
          simp only [List.append_assoc, List.cons_append]
          rw [hr0]
        · intro hne
          rw [hne] at hemp
          simp at hemp
        · rw [← hform]
    · rw [hdrop, munchFrac_other r0 hc0] at h
      simp only [] at h
      by_cases hemp : ((rest.takeWhile isHexDigitC) ++ ([] : List Char)).isEmpty = true
      · rw [if_pos hemp] at h
        simp at h
      · rw [if_neg hemp] at h
        rcases hex : munchExp ['p'] (rest.drop ((rest.takeWhile isHexDigitC).length + 0)) with
          ⟨expLen, e2⟩
        rw [hex] at h
        simp only [] at h
        injection h with h
        injection h with hlen hform
        have hexlist : rest.drop ((rest.takeWhile isHexDigitC).length + 0) = c0 :: r0 := by
          rw [Nat.add_zero, hdrop]
        rw [hexlist] at hex
        have hexfull : expLen = (c0 :: r0).length := by
          simp only [List.length_cons]
          omega
        rw [hexfull] at hex
        refine ⟨x, rest.takeWhile isHexDigitC, [], [], c0 :: r0, e2, ?_, hx,
          List.all_takeWhile, .inl ⟨rfl, rfl⟩, ?_, munchExp_whole_fwd hex, ?_⟩
        · rw [List.append_nil]
          rw [hsplit1]
        · intro hne
          rw [hne] at hemp
          simp at hemp
        · rw [← hform]

theorem munchHex_bwd {x : Char} {h1 fr h2 ex : List Char} {e : Int}
    (hx : x = 'x' ∨ x = 'X') (hh1 : h1.all isHexDigitC = true)
    (hfr : IsFracOpt isHexDigitC fr h2) (hne : h1 ++ h2 ≠ [])
    (hex : IsExpOpt ['p'] ex e) :
    munchHex ('0' :: x :: (h1 ++ fr ++ ex)) =
      some (('0' :: x :: (h1 ++ fr ++ ex)).length,
        .hex (hexDigitsToNat (h1 ++ h2)) (e - 4 * h2.length)) := by
  obtain ⟨htwex, hfrex⟩ := expTail_p hex
  have hexlen := munchExp_bwd hex
  have main : ∀ y : Char, (y == 'x' || y == 'X') = true →
      munchHex ('0' :: y :: (h1 ++ fr ++ ex)) =
      some (('0' :: y :: (h1 ++ fr ++ ex)).length,
        .hex (hexDigitsToNat (h1 ++ h2)) (e - 4 * h2.length)) := by
    intro y hy
    unfold munchHex
    simp only []
    rw [if_pos hy]
    simp only [List.length_cons]
    rw [List.append_assoc]
    rcases hfr with ⟨hfr1, hd2⟩ | ⟨hfr1, hd2all⟩
    · subst hfr1
      subst hd2
      simp only [List.nil_append]
      rw [tw_append_all ex hh1, htwex, List.append_nil, List.drop_left, hfrex]
      simp only []
      have hemp : (h1 ++ ([] : List Char)).isEmpty = false := by
        rcases h1 with _ | ⟨a, b⟩
        · exact absurd rfl hne
        · rfl
      rw [hemp]
      simp only [Bool.false_eq_true, if_false, Nat.add_zero]
      have hdl : List.drop h1.length (h1 ++ ex) = ex := List.drop_left h1 ex
      rw [hdl, hexlen]
      simp only [List.length_append]
      rw [List.append_nil]
      congr 2
      omega
    · subst hfr1
      simp only [List.cons_append, List.append_assoc]
      have hstep : ('.' :: (h2 ++ ex)).takeWhile isHexDigitC = [] :=
        tw_cons_false _ (by decide)
      rw [tw_append_all ('.' :: (h2 ++ ex)) hh1, hstep, List.append_nil]
      have hdl : List.drop h1.length (h1 ++ '.' :: (h2 ++ ex)) = '.' :: (h2 ++ ex) :=
        List.drop_left h1 _
      rw [hdl, munchFrac_dot]
      rw [tw_append_all ex hd2all, htwex, List.append_nil]
      simp only []
      have hemp : (h1 ++ h2).isEmpty = false := by
        rcases hd : h1 ++ h2 with _ | ⟨a, b⟩
        · exact absurd hd hne
        · rfl
      rw [hemp]
      simp only [Bool.false_eq_true, if_false]
      have hdl2 : List.drop (h1.length + (1 + h2.length)) (h1 ++ '.' :: (h2 ++ ex)) = ex := by
        rw [← List.drop_drop, hdl]
        rw [show 1 + h2.length = h2.length + 1 from by omega, List.drop_succ_cons]
        rw [show List.drop h2.length (h2 ++ ex) = ex from List.drop_left h2 ex]
      rw [hdl2, hexlen]
      simp only [List.length_append, List.length_cons]
      congr 2
      omega
  rcases hx with hx | hx
  all_goals subst hx
  · exact main 'x' (by decide)
  · exact main 'X' (by decide)

theorem lower_take_head {cs : List Char} {k : Nat} {a : Char} {tl : List Char}
    (h : (cs.take k).map toLowerC = a :: tl) : ∃ c t, cs = c :: t ∧ toLowerC c = a := by
  cases cs with
  | nil => simp at h
  | cons c t =>
      cases k with
      | zero => simp at h
      | succ k =>
          simp only [List.take_succ_cons, List.map_cons] at h
          injection h with h1 h2
          exact ⟨c, t, rfl, h1⟩

theorem lower_take_ne_head {cs : List Char} {c : Char} {t : List Char} (hcs : cs = c :: t)
    {k : Nat} {L : List Char} {a : Char} {tl : List Char} (hL : L = a :: tl)
    (hne : toLowerC c ≠ a) : (cs.take k).map toLowerC ≠ L := by
  subst hL
  intro h
  obtain ⟨c', t', hcs', hc'⟩ := lower_take_head h
  rw [hcs] at hcs'
  injection hcs' with he
  exact hne (he ▸ hc')

theorem digit_toLower {c : Char} (h : isDigitC c = true) : toLowerC c = c := by
  unfold toLowerC
  rw [if_neg]
  intro hu
  unfold isDigitC at h
  unfold isUpperC at hu
  simp only [Bool.and_eq_true, decide_eq_true_eq] at h hu
  rw [Char.le_def] at *
  have h1 : c.toNat ≤ (57 : Nat) := h.2
  have h2 : (65 : Nat) ≤ c.toNat := hu.1
  omega

theorem digit_lower_ne_i {c : Char} (h : isDigitC c = true) : toLowerC c ≠ 'i' := by
  rw [digit_toLower h]
  intro he
  rw [he] at h
  exact absurd h (by decide)

theorem digit_lower_ne_n {c : Char} (h : isDigitC c = true) : toLowerC c ≠ 'n' := by
  rw [digit_toLower h]
  intro he
  rw [he] at h
  exact absurd h (by decide)

theorem munchHex_none_of {cs : List Char}
    (h : ∀ x rest, cs = '0' :: x :: rest → (x == 'x' || x == 'X') = false) :
    munchHex cs = none := by
  unfold munchHex
  split
  · rename_i x rest
    rw [h x rest rfl]
    simp
  · rfl

theorem munchNanTail_empty {cs : List Char} (h : cs.drop 3 = []) :
    munchNanTail cs = 0 := by
  unfold munchNanTail
  rw [h]

theorem munchNanTail_other {cs : List Char} {c : Char} {rest : List Char}
    (hdrop : cs.drop 3 = c :: rest) (hc : c ≠ '(') : munchNanTail cs = 0 := by
  unfold munchNanTail
  rw [hdrop]
  split
  · rename_i heq
    injection heq with heq1 heq2
    exact absurd heq1 hc
  · rfl

theorem munchNanTail_paren {cs rest : List Char} (hdrop : cs.drop 3 = '(' :: rest) :
    munchNanTail cs =
      if rest.getD (rest.takeWhile isNanChar).length ' ' == ')' then
        1 + (rest.takeWhile isNanChar).length + 1
      else 0 := by
  unfold munchNanTail
  rw [hdrop]
  simp only []

theorem nan_seq_decomp {rest : List Char}
    (hpar : (rest.getD (rest.takeWhile isNanChar).length ' ' == ')') = true)
    (hlen : rest.length = (rest.takeWhile isNanChar).length + 1) :
    rest = rest.takeWhile isNanChar ++ [')'] := by
  have hsp := @tw_append_drop isNanChar rest
  have hdl : (rest.drop (rest.takeWhile isNanChar).length).length = 1 := by
    rw [List.length_drop]
    omega
  rcases hd : rest.drop (rest.takeWhile isNanChar).length with _ | ⟨c1, r1⟩
  · rw [hd] at hdl
    simp at hdl
  · rw [hd] at hdl hsp
    simp only [List.length_cons] at hdl
    have hr1 : r1 = [] := by
      cases r1 with
      | nil => rfl
      | cons a b => simp at hdl
    subst hr1
    have hgd : rest.getD (rest.takeWhile isNanChar).length ' ' = c1 := by
      rw [List.getD_eq_getElem?_getD]
      have hge := List.getElem?_drop rest (rest.takeWhile isNanChar).length 0
      rw [Nat.add_zero] at hge
      rw [← hge, hd]
      rfl
    rw [hgd] at hpar
    have : c1 = ')' := by simpa using hpar
    subst this
    exact hsp.symm

theorem nanSeq_getD {seq : List Char} (hseq : seq.all isNanChar = true) :
    (seq ++ [')']).takeWhile isNanChar = seq ∧
      ((seq ++ [')']).getD seq.length ' ' == ')') = true := by
  constructor
  · rw [tw_append_all [')'] hseq, tw_cons_false _ (by decide), List.append_nil]
  · rw [List.getD_eq_getElem?_getD, List.getElem?_append_right (le_refl _)]
    simp

theorem munchBody_whole_fwd {cs : List Char} {form : NumForm}
    (h : munchBody cs = some (cs.length, form)) : StrtodBody cs form := by
  unfold munchBody at h
  simp only [] at h
  by_cases h8 : (cs.take 8).map toLowerC = "infinity".data
  · rw [if_pos h8] at h
    injection h with h
    injection h with hlen hform
    left
    have hl8 : cs.length ≥ 8 := by
      have := congrArg List.length h8
      simp only [List.length_map, List.length_take] at this
      have hd : ("infinity".data).length = 8 := by decide
      rw [hd] at this
      omega
    have htk : cs.take 8 = cs := by
      apply List.take_of_length_le
      omega
    rw [htk] at h8
    exact ⟨h8, hform.symm⟩
  rw [if_neg h8] at h
  by_cases h3 : (cs.take 3).map toLowerC = "inf".data
  · rw [if_pos h3] at h
    injection h with h
    injection h with hlen hform
    right; left
    have hl3 : cs.length ≥ 3 := by
      have := congrArg List.length h3
      simp only [List.length_map, List.length_take] at this
      have hd : ("inf".data).length = 3 := by decide
      rw [hd] at this
      omega
    have htk : cs.take 3 = cs := by
      apply List.take_of_length_le
      omega
    rw [htk] at h3
    exact ⟨h3, hform.symm⟩
  rw [if_neg h3] at h
  by_cases hn : (cs.take 3).map toLowerC = "nan".data
  · rw [if_pos hn] at h
    injection h with h
    injection h with hlen hform
    right; right; left
    have hl3 : cs.length ≥ 3 := by
      have := congrArg List.length hn
      simp only [List.length_map, List.length_take] at this
      have hd : ("nan".data).length = 3 := by decide
      rw [hd] at this
      omega
    refine ⟨hn, ?_, hform.symm⟩
    rcases hdrop : cs.drop 3 with _ | ⟨c0, r0⟩
    · exact .inl rfl
    · right
      have hdl : r0.length + 1 = cs.length - 3 := by
        have := congrArg List.length hdrop
        rw [List.length_drop] at this
        simp only [List.length_cons] at this
        omega
      by_cases hc0 : c0 = '('
      · subst hc0
        rw [munchNanTail_paren hdrop] at hlen
        by_cases hpar : (r0.getD (r0.takeWhile isNanChar).length ' ' == ')') = true
        · rw [if_pos hpar] at hlen
          have hr0len : r0.length = (r0.takeWhile isNanChar).length + 1 := by omega
          have hdec := nan_seq_decomp hpar hr0len
          refine ⟨r0.takeWhile isNanChar, ?_, List.all_takeWhile⟩
          rw [← hdec]
        · rw [if_neg hpar] at hlen
          omega
      · rw [munchNanTail_other hdrop hc0] at hlen
        omega
  rw [if_neg hn] at h
  rcases hhx : munchHex cs with _ | r
  · rw [hhx] at h
    simp only [] at h
    obtain ⟨d1, fr, d2, ex, e, hcs, hd1, hfr, hne2, hexo, hform⟩ := munchDec_whole_fwd h
    right; right; right; right
    exact ⟨d1, fr, d2, ex, e, hcs, hd1, hfr, hne2, hexo, hform⟩
  · rw [hhx] at h
    simp only [] at h
    rw [h] at hhx
    obtain ⟨x, h1, fr, h2, ex, e, hcs, hx, hh1, hfr, hne2, hexo, hform⟩ :=
      munchHex_whole_fwd hhx
    right; right; right; left
    exact ⟨x, h1, fr, h2, ex, e, hcs, hx, hh1, hfr, hne2, hexo, hform⟩

theorem munchBody_bwd {cs : List Char} {form : NumForm}
    (h : StrtodBody cs form) : munchBody cs = some (cs.length, form) := by
  unfold munchBody
  simp only []
  rcases h with ⟨hmap, hform⟩ | ⟨hmap, hform⟩ | ⟨hmap, hdrop, hform⟩ |
    ⟨x, h1, fr, h2, ex, e, hcs, hx, hh1, hfr, hne2, hexo, hform⟩ |
    ⟨d1, fr, d2, ex, e, hcs, hd1, hfr, hne2, hexo, hform⟩
  · -- infinity
    have hlen : cs.length = 8 := by
      have := congrArg List.length hmap
      simpa using this
    have htk : cs.take 8 = cs := List.take_of_length_le (by omega)
    rw [if_pos (by rw [htk]; exact hmap)]
    rw [hform, hlen]
  · -- inf
    have hlen : cs.length = 3 := by
      have := congrArg List.length hmap
      simpa using this
    have htk3 : cs.take 3 = cs := List.take_of_length_le (by omega)
    have htk8 : cs.take 8 = cs := List.take_of_length_le (by omega)
    have h8 : (cs.take 8).map toLowerC ≠ "infinity".data := by
      rw [htk8, hmap]
      decide
    rw [if_neg h8, if_pos (by rw [htk3]; exact hmap)]
    rw [hform, hlen]
  · -- nan
    have hhead : ∃ c t, cs = c :: t ∧ toLowerC c = 'n' := lower_take_head hmap
    obtain ⟨c, t, hcst, hcl⟩ := hhead
    have h8 : (cs.take 8).map toLowerC ≠ "infinity".data :=
      lower_take_ne_head hcst (show "infinity".data = 'i' :: "nfinity".data by decide)
        (by rw [hcl]; decide)
    have h3 : (cs.take 3).map toLowerC ≠ "inf".data :=
      lower_take_ne_head hcst (show "inf".data = 'i' :: "nf".data by decide)
        (by rw [hcl]; decide)
    rw [if_neg h8, if_neg h3, if_pos hmap, hform]
    have hlen3 : cs.length ≥ 3 := by
      have := congrArg List.length hmap
      simp only [List.length_map, List.length_take] at this
      have hd : ("nan".data).length = 3 := by decide
      rw [hd] at this
      omega
    rcases hdrop with hd0 | ⟨seq, hds, hseq⟩
    · rw [munchNanTail_empty hd0]
      have : cs.length = 3 := by
        have := congrArg List.length hd0
        rw [List.length_drop] at this
        simp only [List.length_nil] at this
        omega
      rw [this]
    · rw [munchNanTail_paren hds]
      obtain ⟨htw, hgd⟩ := nanSeq_getD hseq
      rw [htw, hgd]
      simp only [if_true]
      have : cs.length = 3 + (1 + seq.length + 1) := by
        have := congrArg List.length hds
        rw [List.length_drop] at this
        simp only [List.length_cons, List.length_append] at this
        simp only [List.length_cons, List.length_nil] at this
        omega
      rw [this]
  · -- hex
    subst hcs
    have h8 : (('0' :: x :: (h1 ++ fr ++ ex)).take 8).map toLowerC ≠ "infinity".data :=
      lower_take_ne_head rfl (show "infinity".data = 'i' :: "nfinity".data by decide)
        (by decide)
    have h3 : (('0' :: x :: (h1 ++ fr ++ ex)).take 3).map toLowerC ≠ "inf".data :=
      lower_take_ne_head rfl (show "inf".data = 'i' :: "nf".data by decide) (by decide)
    have hn : (('0' :: x :: (h1 ++ fr ++ ex)).take 3).map toLowerC ≠ "nan".data :=
      lower_take_ne_head rfl (show "nan".data = 'n' :: "an".data by decide) (by decide)
    rw [if_neg h8, if_neg h3, if_neg hn]
    rw [munchHex_bwd hx hh1 hfr hne2 hexo]
    rw [hform]
  · -- decimal
    subst hcs
    -- head of the decimal body is a digit or a dot
    have hhead : ∃ c t, d1 ++ fr ++ ex = c :: t ∧ (isDigitC c = true ∨ c = '.') := by
      rcases d1 with _ | ⟨a, b⟩
      · rcases hfr with ⟨hfr1, hd2⟩ | ⟨hfr1, hd2all⟩
        · subst hfr1 hd2
          exact absurd rfl hne2
        · subst hfr1
          exact ⟨'.', d2 ++ ex, by simp, .inr rfl⟩
      · have ha : isDigitC a = true := by
          simp only [List.all_cons, Bool.and_eq_true] at hd1
          exact hd1.1
        exact ⟨a, b ++ fr ++ ex, by simp, .inl ha⟩
    obtain ⟨c, t, hcst, hcd⟩ := hhead
    have hlni : toLowerC c ≠ 'i' := by
      rcases hcd with hcd | hcd
      · exact digit_lower_ne_i hcd
      · subst hcd
        decide
    have hlnn : toLowerC c ≠ 'n' := by
      rcases hcd with hcd | hcd
      · exact digit_lower_ne_n hcd
      · subst hcd
        decide
    have h8 : ((d1 ++ fr ++ ex).take 8).map toLowerC ≠ "infinity".data :=
      lower_take_ne_head hcst (show "infinity".data = 'i' :: "nfinity".data by decide) hlni
    have h3 : ((d1 ++ fr ++ ex).take 3).map toLowerC ≠ "inf".data :=
      lower_take_ne_head hcst (show "inf".data = 'i' :: "nf".data by decide) hlni
    have hn : ((d1 ++ fr ++ ex).take 3).map toLowerC ≠ "nan".data :=
      lower_take_ne_head hcst (show "nan".data = 'n' :: "an".data by decide) hlnn
    rw [if_neg h8, if_neg h3, if_neg hn]
    have hhexn : munchHex (d1 ++ fr ++ ex) = none := by
      apply munchHex_none_of
      intro x rest heq
      rcases d1 with _ | ⟨a, b⟩
      · rcases hfr with ⟨hfr1, hd2⟩ | ⟨hfr1, hd2all⟩
        · subst hfr1 hd2
          exact absurd rfl hne2
        · subst hfr1
          simp only [List.nil_append, List.cons_append] at heq
          injection heq with he1 he2
          exact absurd he1 (by decide)
      · rcases b with _ | ⟨a2, b2⟩
        · -- d1 = [a]
          simp only [List.cons_append, List.nil_append] at heq
          injection heq with he1 he2
          subst he1
          rcases hfr with ⟨hfr1, hd2⟩ | ⟨hfr1, hd2all⟩
          · subst hfr1
            -- ex = x :: ...
            rcases hexo with ⟨hexnil, _⟩ | ⟨m, sgn, ds, hl, hm, _, _, _, _⟩
            · rw [hexnil] at he2
              simp at he2
            · rw [hl] at he2
              simp only [List.nil_append, List.cons_append] at he2
              injection he2 with he3 he4
              subst he3
              rcases markE_cases hm with hmm | hmm
              all_goals subst hmm
              all_goals decide
          · subst hfr1
            simp only [List.nil_append, List.cons_append] at he2
            injection he2 with he3 he4
            subst he3
            decide
        · -- d1 has two or more digits
          simp only [List.cons_append, List.append_assoc] at heq
          injection heq with he1 he2
          injection he2 with he3 he4
          have ha2 : isDigitC a2 = true := by
            simp only [List.all_cons, Bool.and_eq_true] at hd1
            exact hd1.2.1
          rw [← he3]
          by_cases hxeq : a2 = 'x'
          · rw [hxeq] at ha2
            exact absurd ha2 (by decide)
          by_cases hxeq2 : a2 = 'X'
          · rw [hxeq2] at ha2
            exact absurd ha2 (by decide)
          · simp only [Bool.or_eq_false_iff]
            exact ⟨beq_false_of_ne hxeq, beq_false_of_ne hxeq2⟩
    rw [hhexn]
    simp only []
    rw [munchDec_bwd hd1 hfr hne2 hexo]
    rw [hform]

theorem digit_not_space {c : Char} (h : isDigitC c = true) : isSpaceC c = false := by
  have h1 : c ≠ ' ' := fun he => absurd (he ▸ h) (by decide)
  have h2 : c ≠ '\t' := fun he => absurd (he ▸ h) (by decide)
  have h3 : c ≠ '\n' := fun he => absurd (he ▸ h) (by decide)
  have h4 : c ≠ '\x0b' := fun he => absurd (he ▸ h) (by decide)
  have h5 : c ≠ '\x0c' := fun he => absurd (he ▸ h) (by decide)
  have h6 : c ≠ '\r' := fun he => absurd (he ▸ h) (by decide)
  unfold isSpaceC
  simp [beq_false_of_ne h1, beq_false_of_ne h2, beq_false_of_ne h3,
    beq_false_of_ne h4, beq_false_of_ne h5, beq_false_of_ne h6]

theorem map_head_cons {body : List Char} {a : Char} {tl : List Char}
    (h : body.map toLowerC = a :: tl) : ∃ c t, body = c :: t ∧ toLowerC c = a := by
  cases body with
  | nil => simp at h
  | cons c t =>
      simp only [List.map_cons] at h
      injection h with h1 h2
      exact ⟨c, t, rfl, h1⟩

theorem strtodBody_head {body : List Char} {form : NumForm} (h : StrtodBody body form) :
    ∃ c t, body = c :: t ∧ isSpaceC c = false ∧ c ≠ '+' ∧ c ≠ '-' := by
  rcases h with ⟨hmap, _⟩ | ⟨hmap, _⟩ | ⟨hmap, _, _⟩ |
    ⟨x, h1, fr, h2, ex, e, hcs, _, _, _, _, _, _⟩ |
    ⟨d1, fr, d2, ex, e, hcs, hd1, hfr, hne2, hexo, _⟩
  · have hm2 : body.map toLowerC = 'i' :: "nfinity".data := by
      rw [hmap]
    obtain ⟨c, t, hct, hcl⟩ := map_head_cons hm2
    rcases @toLowerC_cases c 'i' 'I' hcl (by decide) (by decide) with hc | hc
    · subst hc
      exact ⟨'i', t, hct, by decide, by decide, by decide⟩
    · subst hc
      exact ⟨'I', t, hct, by decide, by decide, by decide⟩
  · have hm2 : body.map toLowerC = 'i' :: "nf".data := by
      rw [hmap]
    obtain ⟨c, t, hct, hcl⟩ := map_head_cons hm2
    rcases @toLowerC_cases c 'i' 'I' hcl (by decide) (by decide) with hc | hc
    · subst hc
      exact ⟨'i', t, hct, by decide, by decide, by decide⟩
    · subst hc
      exact ⟨'I', t, hct, by decide, by decide, by decide⟩
  · have hm2 : (body.take 3).map toLowerC = 'n' :: "an".data := by
      rw [hmap]
    obtain ⟨c, t, hct, hcl⟩ := lower_take_head hm2
    rcases @toLowerC_cases c 'n' 'N' hcl (by decide) (by decide) with hc | hc
    · subst hc
      exact ⟨'n', t, hct, by decide, by decide, by decide⟩
    · subst hc
      exact ⟨'N', t, hct, by decide, by decide, by decide⟩
  · exact ⟨'0', x :: (h1 ++ fr ++ ex), hcs, by decide, by decide, by decide⟩
  · subst hcs
    rcases d1 with _ | ⟨a, b⟩
    · rcases hfr with ⟨hfr1, hd2⟩ | ⟨hfr1, hd2all⟩
      · subst hfr1 hd2
        exact absurd rfl hne2
      · subst hfr1
        exact ⟨'.', d2 ++ ex, by simp, by decide, by decide, by decide⟩
    · have ha : isDigitC a = true := by
        simp only [List.all_cons, Bool.and_eq_true] at hd1
        exact hd1.1
      exact ⟨a, b ++ fr ++ ex, by simp, digit_not_space ha, digit_ne_plus ha,
        digit_ne_minus ha⟩

theorem cStrtod_whole_fwd {cs : List Char} {form : NumForm}
    (h : cStrtod cs = some (cs.length, form)) : StrtodWholeNum cs form := by
  unfold cStrtod at h
  simp only [] at h
  have hws := @tw_append_drop isSpaceC cs
  have hwslen : (cs.takeWhile isSpaceC).length +
      (cs.drop (cs.takeWhile isSpaceC).length).length = cs.length := by
    have := congrArg List.length hws
    simp only [List.length_append] at this
    omega
  rcases hdw : cs.drop (cs.takeWhile isSpaceC).length with _ | ⟨c0, r0⟩
  · rw [hdw] at h
    rw [show signSplit [] = (0, false, []) from rfl] at h
    simp only [] at h
    rcases hmb : munchBody [] with _ | ⟨n, f⟩
    · rw [hmb] at h
      simp at h
    · rw [hmb] at h
      simp only [] at h
      have : munchBody [] = none := by decide
      rw [this] at hmb
      simp at hmb
  · have hcore : ∀ (sgn rest : List Char), IsSignOpt sgn → c0 :: r0 = sgn ++ rest →
        (match munchBody rest with
          | some (n, form) => some ((cs.takeWhile isSpaceC).length + sgn.length + n, form)
          | none => none) = some (cs.length, form) →
        StrtodWholeNum cs form := by
      intro sgn rest hsgn hshape hm
      rcases hmb : munchBody rest with _ | ⟨n, f⟩
      · rw [hmb] at hm
        simp at hm
      · rw [hmb] at hm
        simp only [] at hm
        injection hm with hm
        injection hm with hmlen hmform
        have hrl : rest.length = n := by
          have := congrArg List.length hshape
          simp only [List.length_cons, List.length_append] at this
          rw [hdw] at hwslen
          simp only [List.length_cons] at hwslen
          omega
        rw [← hrl] at hmb
        subst hmform
        refine ⟨cs.takeWhile isSpaceC, sgn, rest, ?_, List.all_takeWhile, hsgn,
          munchBody_whole_fwd hmb⟩
        conv_lhs => rw [← hws]
        rw [hdw, hshape, List.append_assoc]
    rw [hdw] at h
    by_cases hp : c0 = '+'
    · subst hp
      rw [show signSplit ('+' :: r0) = (1, false, r0) from rfl] at h
      simp only [] at h
      exact hcore ['+'] r0 (.inr (.inl rfl)) rfl h
    by_cases hm : c0 = '-'
    · subst hm
      rw [show signSplit ('-' :: r0) = (1, true, r0) from rfl] at h
      simp only [] at h
      exact hcore ['-'] r0 (.inr (.inr rfl)) rfl h
    · rw [signSplit_other r0 hp hm] at h
      simp only [] at h
      exact hcore [] (c0 :: r0) (.inl rfl) rfl h

theorem cStrtod_whole_bwd {cs : List Char} {form : NumForm}
    (h : StrtodWholeNum cs form) : cStrtod cs = some (cs.length, form) := by
  obtain ⟨ws, sgn, body, hcs, hws, hsgn, hbody⟩ := h
  obtain ⟨bc, bt, hbct, hbsp, hbp, hbm⟩ := strtodBody_head hbody
  have hmb := munchBody_bwd hbody
  subst hcs
  unfold cStrtod
  simp only []
  have htw : (ws ++ sgn ++ body).takeWhile isSpaceC = ws := by
    rw [List.append_assoc, tw_append_all (sgn ++ body) hws]
    have : (sgn ++ body).takeWhile isSpaceC = [] := by
      rcases hsgn with hs | hs | hs
      all_goals subst hs
      · simp only [List.nil_append]
        rw [hbct]
        exact tw_cons_false _ hbsp
      · exact tw_cons_false _ (by decide)
      · exact tw_cons_false _ (by decide)
    rw [this, List.append_nil]
  rw [htw]
  have hdw : (ws ++ sgn ++ body).drop ws.length = sgn ++ body := by
    rw [List.append_assoc]
    exact List.drop_left ws _
  rw [hdw]
  have hss : signSplit (sgn ++ body) = (sgn.length, true, body) ∨
      signSplit (sgn ++ body) = (sgn.length, false, body) := by
    rcases hsgn with hs | hs | hs
    all_goals subst hs
    · right
      simp only [List.nil_append, List.length_nil]
      rw [hbct]
      rw [signSplit_other bt hbp hbm]
    · right
      rfl
    · left
      rfl
  have hfinal : ∀ (b : Bool), signSplit (sgn ++ body) = (sgn.length, b, body) →
      (match signSplit (sgn ++ body) with
        | (signLen, _, rest) =>
          match munchBody rest with
          | some (n, form) => some (ws.length + signLen + n, form)
          | none => none) = some ((ws ++ sgn ++ body).length, form) := by
    intro b hb
    rw [hb]
    simp only []
    rw [hmb]
    simp only [List.length_append]
  rcases hss with hss | hss
  · exact hfinal _ hss
  · exact hfinal _ hss

/-- Claim C4 (amended): after dropping one trailing `u`, the literal `∞`
yields the number node `-1`; any other text yields a number node storing the
`u`-stripped text exactly when the whole text is a `strtod` subject sequence
(optional whitespace and sign, then a decimal, hexadecimal, infinity or NaN
body) whose converted value raises no range error, and otherwise `ParseNumber`
reports not-this-shape; acceptance is not limited to finite values. -/
theorem claim_C4_amended (s0 t : Span) (hW : t.Wf)
    (ht : t = if s0.endsWith "u" then s0.slice 0 (s0.size - 1) else s0) :
    (t.str = "∞" → parseNumber s0 = some (jobj [("number", Json.str "-1")])) ∧
    (t.str ≠ "∞" →
      (parseNumber s0 = some (jobj [("number", Json.str t.str)]) ↔
        ∃ form, StrtodWholeNum t.view form ∧ strtodRangeErr form = false) ∧
      (parseNumber s0 = none ↔
        ¬ ∃ form, StrtodWholeNum t.view form ∧ strtodRangeErr form = false)) := by
  have hvl : t.view.length = t.size := view_length hW
  constructor
  · intro hinf
    unfold parseNumber
    rw [← ht]
    simp only []
    have hbq : (t.str == "∞") = true := by
      rw [hinf]
      decide
    rw [hbq]
    simp
  · intro hninf
    have hne : (t.str == "∞") = false := beq_false_of_ne hninf
    have hbase : parseNumber s0 = (
        match cStrtod t.view with
        | none => none
        | some (consumed, form) =>
            if consumed == t.size && !strtodRangeErr form then
              some (jobj [("number", .str t.str)])
            else none) := by
      unfold parseNumber
      rw [← ht]
      simp only []
      rw [hne]
      simp only [Bool.false_eq_true, if_false]
    constructor
    · constructor
      · intro hsome
        rw [hbase] at hsome
        rcases hcs : cStrtod t.view with _ | ⟨consumed, form⟩
        · rw [hcs] at hsome
          simp at hsome
        · rw [hcs] at hsome
          simp only [] at hsome
          by_cases hcond : (consumed == t.size && !strtodRangeErr form) = true
          · simp only [Bool.and_eq_true, beq_iff_eq, Bool.not_eq_true'] at hcond
            obtain ⟨hclen, hcrange⟩ := hcond
            subst hclen
            rw [← hvl] at hcs
            exact ⟨form, cStrtod_whole_fwd hcs, hcrange⟩
          · rw [if_neg hcond] at hsome
            simp at hsome
      · rintro ⟨form, hwhole, hrange⟩
        have hcs := cStrtod_whole_bwd hwhole
        rw [hbase, hcs]
        simp only []
        rw [hvl]
        simp [hrange]
    · constructor
      · intro hnone
        rintro ⟨form, hwhole, hrange⟩
        have hcs := cStrtod_whole_bwd hwhole
        rw [hbase, hcs] at hnone
        simp only [] at hnone
        rw [hvl] at hnone
        simp [hrange] at hnone
      · intro hnex
        rw [hbase]
        rcases hcs : cStrtod t.view with _ | ⟨consumed, form⟩
        · rfl
        · simp only []
          by_cases hcond : (consumed == t.size && !strtodRangeErr form) = true
          · exfalso
            apply hnex
            simp only [Bool.and_eq_true, beq_iff_eq, Bool.not_eq_true'] at hcond
            obtain ⟨hclen, hcrange⟩ := hcond
            subst hclen
            rw [← hvl] at hcs
            exact ⟨form, cStrtod_whole_fwd hcs, hcrange⟩
          · rw [if_neg hcond]

set_option maxRecDepth 8192 in
/-- Counterexample to claim C4: `inf` and `nan` are accepted as number
literals although they do not denote finite values, while `1e-320` denotes a
finite (subnormal) value yet is rejected, since glibc `strtod` flags it as a
range error. -/
theorem claim_C4_counterexample :
    parseNumber (Span.ofString "inf") = some (jobj [("number", Json.str "inf")]) ∧
    parseNumber (Span.ofString "nan") = some (jobj [("number", Json.str "nan")]) ∧
    parseNumber (Span.ofString "1e-320") = none := by
  refine ⟨?_, ?_, ?_⟩ <;> decide

/-- Witness for claim C4 at the concrete input `3.5u`. -/
theorem claim_C4_witness :
    ((⟨"3.5u".data, 0, 3⟩ : Span).str = "∞" →
      parseNumber (Span.ofString "3.5u") = some (jobj [("number", Json.str "-1")])) ∧
    ((⟨"3.5u".data, 0, 3⟩ : Span).str ≠ "∞" →
      (parseNumber (Span.ofString "3.5u") =
          some (jobj [("number", Json.str (⟨"3.5u".data, 0, 3⟩ : Span).str)]) ↔
        ∃ form, StrtodWholeNum (⟨"3.5u".data, 0, 3⟩ : Span).view form ∧
          strtodRangeErr form = false) ∧
      (parseNumber (Span.ofString "3.5u") = none ↔
        ¬ ∃ form, StrtodWholeNum (⟨"3.5u".data, 0, 3⟩ : Span).view form ∧
          strtodRangeErr form = false)) :=
  claim_C4_amended (Span.ofString "3.5u") ⟨"3.5u".data, 0, 3⟩
    ⟨by decide, by decide⟩ (by decide)

/-- Claim C6: `Strip` is idempotent — for every well-formed span,
stripping the stripped span returns it unchanged, since the output of the
strip loop has no leading or trailing whitespace and satisfies no further
peelable-parenthesis condition. -/
theorem claim_C6_strip_idempotent (s : Span) (hW : s.Wf) : strip (strip s) = strip s := by
  obtain ⟨hWt, hfix, hpeel⟩ := stripGo_fix (s.size + 1) s hW (Nat.lt_succ_self _)
  show stripGo ((strip s).size + 1) (strip s) = strip s
  simp only [stripGo]
  unfold strip
  rw [hfix, if_neg (by rw [hpeel]; exact Bool.false_ne_true)]

/-- Witness for claim C6 at the concrete input `\x20((a))\x20`. -/
theorem claim_C6_witness :
    strip (strip (Span.ofString " ((a)) ")) = strip (Span.ofString " ((a)) ") :=
  claim_C6_strip_idempotent (Span.ofString " ((a)) ") ⟨by decide, by decide⟩

/-- Claim C9 (amended): every expression node returned by `ParseExpression`
carries an `expression_heritage` key equal to the parsed source substring,
and that substring is never empty, since parsing an empty span always fails;
nodes synthesized by desugaring may lack the key (see the counterexample). -/
theorem claim_C9_amended (tm : Bool) (fuel : Nat) (s : Span) (j : Json)
    (hW : s.Wf) (hok : parseExpression tm fuel s = .ok j) :
    (∃ o, j = .obj o ∧ o.lookup "expression_heritage" = some (.str s.str)) ∧
      s.str ≠ "" := by
  cases fuel with
  | zero => simp [parseExpression] at hok
  | succ f =>
      unfold parseExpression at hok
      rw [except_bind_ok] at hok
      obtain ⟨e, he, hok⟩ := hok
      rw [except_bind_ok] at hok
      obtain ⟨o, ho, hok⟩ := hok
      simp [pure, Except.pure] at hok
      subst hok
      refine ⟨⟨o.set "expression_heritage" (.str s.str), rfl,
        JObj.lookup_set_self o _ _⟩, ?_⟩
      intro hstr
      have hv : s.view = [] := by
        have := congrArg String.data hstr
        simpa [Span.str] using this
      have hsz : s.size = 0 := by
        rw [← view_length hW, hv]
        rfl
      exact actuallyParseExpression_of_size_zero tm f hW hsz e he

/-- Witness for claim C9 at the concrete input `x`. -/
theorem claim_C9_witness :
    (∃ o, (jobj [("variable", (jobj [("var_name", (.str "x"))])),
        ("expression_heritage", (.str "x"))]) = .obj o ∧
      o.lookup "expression_heritage" = some (.str (Span.ofString "x").str)) ∧
      (Span.ofString "x").str ≠ "" :=
  claim_C9_amended false 30 (Span.ofString "x")
    (jobj [("variable", (jobj [("var_name", (.str "x"))])),
      ("expression_heritage", (.str "x"))])
    ⟨by decide, by decide⟩ (by decide)

/-- Claim C10: parsing an empty top-level source succeeds and returns an
empty rule list, no imported predicates, the empty prefix and file name
`main`; a source of only whitespace, comments and semicolons behaves the
same. -/
theorem claim_C10_empty_parse :
    parseFile [] 50 "" "main" [] =
      .ok (jobj [("rule", jarr []), ("imported_predicates", jarr []),
                 ("predicates_prefix", .str ""), ("file_name", .str "main")]) ∧
    parseFile [] 50 " /* note */ ; # line\n ;; " "main" [] =
      .ok (jobj [("rule", jarr []), ("imported_predicates", jarr []),
                 ("predicates_prefix", .str ""), ("file_name", .str "main")]) := by
  constructor <;> decide

/-- Claim C8: when file `a` imports `b` and `b` imports `a`, resolution of
the import that is already in the in-progress set fails with a circular
dependency error whose message spells out the chain `main->a->b->a`, naming
both files. -/
theorem claim_C8_circular_import :
    parseFile [("a.l", "import b.B;"), ("b.l", "import a.A;")] 50
      "import a.A;" "main" [] =
      .error (.parse "Circular imports are not allowed: main->a->b->a"
        (Span.ofString "a")) := by
  decide

/-- Counterexample to claim C3: a rule head carrying an aggregating value
`Max = y` parses successfully although the head does not carry the
`distinct` suffix — the claim says this must fail.  The rule is instead
implicitly marked `distinct_denoted`. -/
theorem claim_C3_counterexample :
    parseRule false 30 (Span.ofString "Q(x) Max = y") =
      .ok (jobj [("head", (jobj [("predicate_name", (.str "Q")), ("record", (jobj [("field_value", (jarr [(jobj [("field", (.num 0)), ("value", (jobj [("expression", (jobj [("variable", (jobj [("var_name", (.str "x"))])), ("expression_heritage", (.str "x"))]))]))]), (jobj [("field", (.str "logica_value")), ("value", (jobj [("aggregation", (jobj [("operator", (.str "Max")), ("argument", (jobj [("variable", (jobj [("var_name", (.str "y"))])), ("expression_heritage", (.str "y"))])), ("expression_heritage", (.str " Max = y"))]))]))])]))]))])), ("distinct_denoted", (.bool true)), ("full_text", (.str "Q(x) Max = y"))]) := by
  decide

/-- Claim C3 as amended: an aggregated record field `field ? op = expr`
without the `distinct` suffix is a parsing error; with `distinct` it yields
the aggregation slot and the rule is marked `distinct_denoted`; an
aggregating head value `op = expr` with nonempty `op` always succeeds,
adding a `logica_value` aggregation and implicitly marking the rule
`distinct_denoted`, whether or not `distinct` is written. -/
theorem claim_C3_amended :
    parseRule false 30 (Span.ofString "Q(a? Max= b)") =
      .error (.parse "Aggregation appears in a non-distinct predicate. Did you forget distinct?"
        ((Span.ofString "Q(a? Max= b)").slice 0 12)) ∧
    parseRule false 30 (Span.ofString "Q(a? Max= b) distinct") =
      .ok (jobj [("head", (jobj [("predicate_name", (.str "Q")), ("record", (jobj [("field_value", (jarr [(jobj [("field", (.str "a")), ("value", (jobj [("aggregation", (jobj [("operator", (.str "Max")), ("argument", (jobj [("variable", (jobj [("var_name", (.str "b"))])), ("expression_heritage", (.str "b"))])), ("expression_heritage", (.str "Max= b"))]))]))])]))]))])), ("distinct_denoted", (.bool true)), ("full_text", (.str "Q(a? Max= b) distinct"))]) ∧
    parseRule false 30 (Span.ofString "Q(x) Max = y") =
      .ok (jobj [("head", (jobj [("predicate_name", (.str "Q")), ("record", (jobj [("field_value", (jarr [(jobj [("field", (.num 0)), ("value", (jobj [("expression", (jobj [("variable", (jobj [("var_name", (.str "x"))])), ("expression_heritage", (.str "x"))]))]))]), (jobj [("field", (.str "logica_value")), ("value", (jobj [("aggregation", (jobj [("operator", (.str "Max")), ("argument", (jobj [("variable", (jobj [("var_name", (.str "y"))])), ("expression_heritage", (.str "y"))])), ("expression_heritage", (.str " Max = y"))]))]))])]))]))])), ("distinct_denoted", (.bool true)), ("full_text", (.str "Q(x) Max = y"))]) := by
  refine ⟨?_, ?_, ?_⟩ <;> decide

/-- Counterexample to claim C1: after the aggregation rewrite, the head
field-value slot of `Q(a? Max= b) distinct` still contains the `aggregation`
key (its `operator` and `argument` are gone, but the key itself remains,
now holding the converted expression). -/
theorem claim_C1_counterexample :
    (do
      let r ← parseRule false 30 (Span.ofString "Q(a? Max= b) distinct")
      let rules ← dnfRewrite 30 (jarr [r])
      let rules ← multiBodyAggregationRewrite rules
      let rules ← rewriteAggregationsAsExpressions 40 rules
      let slotValue ← (← (← (← (← (← rules.elemAt 0).getKey "head").getKey
        "record").getKey "field_value").elemAt 0).getKey "value"
      return slotValue.hasKey "aggregation") = .ok true := by
  decide

/-- Counterexample to claim C2: the DNF rewrite of
`R() :- ~(P() | Q())` leaves a `disjunction` node at depth inside the rule
body (inside the combine of the desugared negation). -/
theorem claim_C2_counterexample :
    (do
      let r ← parseRule false 30 (Span.ofString "R() :- ~(P() | Q())")
      let rules ← dnfRewrite 30 (jarr [r])
      let body ← (← rules.elemAt 0).getKey "body"
      return deepHasKey "disjunction" body) = .ok true := by
  decide

/-- Counterexample to claim C9: the constant `1` synthesized inside the
negation's `Combine` (the `argument` of the `Min` aggregation produced for
`~P(x)`) is an expression node that carries no `expression_heritage` key at
all. -/
theorem claim_C9_counterexample :
    (do
      let p ← parseProposition false 30 (Span.ofString "~P(x)")
      let combine ← (← (← (← (← (← (← p.getKey "predicate").getKey
        "record").getKey "field_value").elemAt 0).getKey "value").getKey
        "expression").getKey "combine"
      let agg ← (← (← (← (← (← combine.getKey "head").getKey "record").getKey
        "field_value").elemAt 0).getKey "value").getKey "aggregation"
      let argument ← agg.getKey "argument"
      return (argument, argument.hasKey "expression_heritage")) =
      .ok (jobj [("literal", jobj [("the_number", jobj [("number", .str "1")])])],
           false) := by
  decide

/-- Claim C5: the proposition `~P(x)` desugars to
`IsNull(Combine { logica_value? Min = 1 :- P(x) })` — an `IsNull` call whose
positional argument is a combine aggregating `Min` over the constant number
`1`, with the negated proposition wrapped as a conjunction as the combine
body; and a `~` whose top-level split has a nonempty left part, or more than
two parts, is the parsing error `Negation "~" is a unary operator.`. -/
theorem claim_C5_negation :
    parseProposition false 30 (Span.ofString "~P(x)") =
      .ok (jobj [("predicate", (jobj [("predicate_name", (.str "IsNull")), ("record", (jobj [("field_value", (jarr [(jobj [("field", (.num 0)), ("value", (jobj [("expression", (jobj [("combine", (jobj [("body", (jobj [("conjunction", (jobj [("conjunct", (jarr [(jobj [("predicate", (jobj [("predicate_name", (.str "P")), ("record", (jobj [("field_value", (jarr [(jobj [("field", (.num 0)), ("value", (jobj [("expression", (jobj [("variable", (jobj [("var_name", (.str "x"))])), ("expression_heritage", (.str "x"))]))]))])]))]))]))])]))]))])), ("distinct_denoted", (.bool true)), ("full_text", (.str "~P(x)")), ("head", (jobj [("predicate_name", (.str "Combine")), ("record", (jobj [("field_value", (jarr [(jobj [("field", (.str "logica_value")), ("value", (jobj [("aggregation", (jobj [("operator", (.str "Min")), ("argument", (jobj [("literal", (jobj [("the_number", (jobj [("number", (.str "1"))]))]))])), ("expression_heritage", (.str "~P(x)"))]))]))])]))]))]))]))]))]))])]))]))]))]) ∧
    (∀ (tm : Bool) (fuel : Nat) (s : Span) (parts : List Span),
      split s "~" = .ok parts → 2 ≤ parts.length →
      ¬(parts.length = 2 ∧ (parts.headD (s.slice 0 0)).size = 0) →
      parseNegation tm (fuel + 1) s =
        .error (.parse "Negation \"~\" is a unary operator." s)) := by
  constructor
  · decide
  · intro tm fuel s parts h hlen hshape
    have h1 : (parts.length == 1) = false := by
      simp only [beq_eq_false_iff_ne, ne_eq]; omega
    have h2 : (parts.length != 2 || (parts.headD (s.slice 0 0)).size != 0) = true := by
      by_cases he : parts.length = 2
      · have hne : (parts.headD (s.slice 0 0)).size ≠ 0 := fun hz => hshape ⟨he, hz⟩
        simp only [bne_iff_ne, ne_eq, Bool.or_eq_true]
        right
        simpa [List.headD] using hne
      · simp [he]
    simp only [parseNegation, h, bind, Except.bind, h1, h2, Bool.false_eq_true,
      if_false, if_true]
    rfl

/-- Witness for the hypotheses of the C5 theorem: the split of `a ~ b` on
`~` has two parts with a nonempty left part, and the negation parser indeed
reports the unary-operator error there. -/
theorem claim_C5_witness :
    parseNegation false 30 (Span.ofString "a ~ b") =
      .error (.parse "Negation \"~\" is a unary operator." (Span.ofString "a ~ b")) := by
  have h := claim_C5_negation.2 false 29 (Span.ofString "a ~ b")
    [(Span.ofString "a ~ b").slice 0 1, (Span.ofString "a ~ b").slice 4 5]
    (by decide) (by decide) (by decide)
  exact h

/-- Claim C1 as amended: the aggregation rewrite does not remove the
`aggregation` key of a field-value slot; it erases the slot's `operator` and
`argument` and adds, under the same `aggregation` key, an `expression`
holding a call of the mapped operator applied to the argument.  The operator
map sends `+` to `Agg+`, `++` to `Agg++`, `*` to the backquoted `*`, and any
other operator to itself. -/
theorem claim_C1_amended :
    (∀ (fname op vn argher herstr : String) (fuel : Nat),
      rwAggs (fuel + 40)
        (jobj [("field", .str fname),
               ("value", jobj [("aggregation",
                 jobj [("operator", .str op),
                       ("argument", jobj [("variable", jobj [("var_name", .str vn)]),
                                          ("expression_heritage", .str argher)]),
                       ("expression_heritage", .str herstr)])])]) =
      .ok (jobj [("field", .str fname),
                 ("value", jobj [("aggregation",
                   jobj [("expression_heritage", .str herstr),
                         ("expression", jobj [
                           ("call", jobj [("predicate_name", .str (aggregationOperator op)),
                                          ("record", jobj [("field_value", jarr [
                                            jobj [("field", .num 0),
                                                  ("value", jobj [("expression",
                                                    jobj [("variable", jobj [("var_name", .str vn)]),
                                                          ("expression_heritage", .str argher)])])]])])]),
                           ("expression_heritage", .str herstr)])])])])) ∧
    aggregationOperator "+" = "Agg+" ∧
    aggregationOperator "++" = "Agg++" ∧
    aggregationOperator "*" = "`*`" ∧
    (∀ r : String, r ≠ "+" → r ≠ "++" → r ≠ "*" → aggregationOperator r = r) := by
  refine ⟨fun fname op vn argher herstr fuel => rfl, by decide, by decide, by decide, ?_⟩
  intro r h1 h2 h3
  simp [aggregationOperator, h1, h2, h3]

/-- Witness for the C1 amended theorem: the slot rewrite and the operator
map evaluated at concrete inputs. -/
theorem claim_C1_witness :
    rwAggs 40
      (jobj [("field", .str "a"),
             ("value", jobj [("aggregation",
               jobj [("operator", .str "+"),
                     ("argument", jobj [("variable", jobj [("var_name", .str "b")]),
                                        ("expression_heritage", .str "b")]),
                     ("expression_heritage", .str "+ = b")])])]) =
    .ok (jobj [("field", .str "a"),
               ("value", jobj [("aggregation",
                 jobj [("expression_heritage", .str "+ = b"),
                       ("expression", jobj [
                         ("call", jobj [("predicate_name", .str "Agg+"),
                                        ("record", jobj [("field_value", jarr [
                                          jobj [("field", .num 0),
                                                ("value", jobj [("expression",
                                                  jobj [("variable", jobj [("var_name", .str "b")]),
                                                        ("expression_heritage", .str "b")])])]])])]),
                         ("expression_heritage", .str "+ = b")])])])]) ∧
    aggregationOperator "Sum" = "Sum" := by
  constructor
  · exact claim_C1_amended.1 "a" "+" "b" "b" "+ = b" 0
  · exact claim_C1_amended.2.2.2.2 "Sum" (by decide) (by decide) (by decide)

/-- Every conjunct list of a distributive product consists of members of the
input DNFs. -/
theorem conjunctionOfDnfs_leaves (P : Json → Prop) :
    ∀ dnfs : List (List (List Json)),
      (∀ d ∈ dnfs, ∀ conj ∈ d, ∀ c ∈ conj, P c) →
      ∀ conj ∈ conjunctionOfDnfs dnfs, ∀ c ∈ conj, P c := by
  intro dnfs
  induction dnfs with
  | nil =>
      intro _ conj hconj c hc
      simp [conjunctionOfDnfs] at hconj
      subst hconj
      simp at hc
  | cons first rest ih =>
      intro hall conj hconj c hc
      cases rest with
      | nil =>
          simp [conjunctionOfDnfs] at hconj
          exact hall first (by simp) conj hconj c hc
      | cons d2 rest2 =>
          simp only [conjunctionOfDnfs, List.mem_flatMap, List.mem_map] at hconj
          obtain ⟨a, ha, b, hb, rfl⟩ := hconj
          rcases List.mem_append.mp hc with hca | hcb
          · exact hall first (by simp) a ha c hca
          · exact ih (fun d hd => hall d (by simp [hd])) b hb c hcb

/-- Every conjunct produced by `proposition_to_dnf` is a DNF leaf. -/
theorem dnf_leaves (fuel : Nat) :
    (∀ p dnf, propositionToDnf fuel p = .ok dnf →
       ∀ conj ∈ dnf, ∀ c ∈ conj, IsDnfLeaf c) ∧
    (∀ ps dnfs, propToDnfList fuel ps = .ok dnfs →
       ∀ d ∈ dnfs, ∀ conj ∈ d, ∀ c ∈ conj, IsDnfLeaf c) := by
  induction fuel with
  | zero => exact ⟨fun p dnf h => by simp [propositionToDnf] at h,
                   fun ps dnfs h => by simp [propToDnfList] at h⟩
  | succ fuel ih =>
      constructor
      · intro p dnf h conj hconj c hc
        by_cases hcj : p.hasKey "conjunction"
        · simp only [propositionToDnf, hcj, if_true] at h
          rw [except_bind_ok] at h
          obtain ⟨x1, hx1, h⟩ := h
          rw [except_bind_ok] at h
          obtain ⟨x2, hx2, h⟩ := h
          rw [except_bind_ok] at h
          obtain ⟨csArr, hcsArr, h⟩ := h
          rw [except_bind_ok] at h
          obtain ⟨dnfs, hdnfs, h⟩ := h
          simp only [pure, Except.pure, Except.ok.injEq] at h
          subst h
          exact conjunctionOfDnfs_leaves _ dnfs
            (fun d hd => ih.2 _ _ hdnfs d hd) conj hconj c hc
        · by_cases hdj : p.hasKey "disjunction"
          · simp only [propositionToDnf, hcj, hdj, if_true, Bool.false_eq_true,
              if_false] at h
            rw [except_bind_ok] at h
            obtain ⟨x1, hx1, h⟩ := h
            rw [except_bind_ok] at h
            obtain ⟨x2, hx2, h⟩ := h
            rw [except_bind_ok] at h
            obtain ⟨dsArr, hdsArr, h⟩ := h
            rw [except_bind_ok] at h
            obtain ⟨parts, hparts, h⟩ := h
            simp only [pure, Except.pure, Except.ok.injEq] at h
            subst h
            rw [List.mem_flatten] at hconj
            obtain ⟨d, hd, hconjd⟩ := hconj
            exact ih.2 _ _ hparts d hd conj hconjd c hc
          · simp only [propositionToDnf, hcj, hdj, Bool.false_eq_true, if_false] at h
            simp only [pure, Except.pure, Except.ok.injEq] at h
            subst h
            simp at hconj
            subst hconj
            simp at hc
            subst hc
            exact ⟨by simpa using hcj, by simpa using hdj⟩
      · intro ps dnfs h d hd conj hconj c hc
        cases ps with
        | nil =>
            simp [propToDnfList] at h
            subst h
            simp at hd
        | cons p rest =>
            simp only [propToDnfList] at h
            rw [except_bind_ok] at h
            obtain ⟨d1, hd1, h⟩ := h
            rw [except_bind_ok] at h
            obtain ⟨drest, hdrest, h⟩ := h
            simp only [pure, Except.pure, Except.ok.injEq] at h
            subst h
            rcases List.mem_cons.mp hd with hd | hd
            · exact ih.1 _ _ hd1 conj (hd ▸ hconj) c hc
            · exact ih.2 _ _ hdrest d hd conj hconj c hc

/-- One rewritten rule: any body in the output of `dnfRewriteRule` is a
single conjunction of DNF leaves. -/
theorem dnfRewriteRule_spec (fuel : Nat) (rule : Json) (l : List Json)
    (h : dnfRewriteRule fuel rule = .ok l) :
    ∀ r ∈ l, ∀ b, r.hasKey "body" = true → r.getKey "body" = .ok b →
      ∃ cs : List Json,
        b = jwrap "conjunction" (jwrap "conjunct" (.arr (JArr.ofList cs))) ∧
        ∀ c ∈ cs, IsDnfLeaf c := by
  intro r hr b hkey hget
  by_cases hb : rule.hasKey "body"
  · simp only [dnfRewriteRule, hb, Bool.not_true, Bool.false_eq_true, if_false] at h
    rw [except_bind_ok] at h
    obtain ⟨u0, hu0, h⟩ := h
    rw [except_bind_ok] at h
    obtain ⟨bj, hbj, h⟩ := h
    rw [except_bind_ok] at h
    obtain ⟨dnf, hdnf, h⟩ := h
    rw [except_bind_ok] at h
    obtain ⟨ro, hro, h⟩ := h
    simp only [pure, Except.pure, Except.ok.injEq] at h
    subst h
    rw [List.mem_map] at hr
    obtain ⟨conjuncts, hconjuncts, rfl⟩ := hr
    refine ⟨conjuncts, ?_, fun c hc => (dnf_leaves fuel).1 _ _ hdnf conjuncts hconjuncts c hc⟩
    have := json_getKey_obj_set ro "body"
      (jwrap "conjunction" (jwrap "conjunct" (.arr (JArr.ofList conjuncts))))
    rw [this] at hget
    exact (Except.ok.injEq _ _).mp hget.symm
  · simp only [dnfRewriteRule, hb] at h
    simp only [Bool.not_false, if_true, pure, Except.pure, Except.ok.injEq] at h
    subst h
    simp at hr
    subst hr
    rw [hkey] at hb
    simp at hb

/-- Every rule of the rewritten list satisfies the body shape. -/
theorem dnfRewriteRules_spec (fuel : Nat) :
    ∀ (rules : List Json) (l : List Json), dnfRewriteRules fuel rules = .ok l →
      ∀ r ∈ l, ∀ b, r.hasKey "body" = true → r.getKey "body" = .ok b →
        ∃ cs : List Json,
          b = jwrap "conjunction" (jwrap "conjunct" (.arr (JArr.ofList cs))) ∧
          ∀ c ∈ cs, IsDnfLeaf c := by
  intro rules
  induction rules with
  | nil =>
      intro l h
      simp only [dnfRewriteRules, pure, Except.pure, Except.ok.injEq] at h
      subst h
      simp
  | cons rule rest ih =>
      intro l h
      simp only [dnfRewriteRules] at h
      rw [except_bind_ok] at h
      obtain ⟨l1, hl1, h⟩ := h
      rw [except_bind_ok] at h
      obtain ⟨l2, hl2, h⟩ := h
      simp only [pure, Except.pure, Except.ok.injEq] at h
      subst h
      intro r hr
      rcases List.mem_append.mp hr with hr | hr
      · exact dnfRewriteRule_spec fuel rule l1 hl1 r hr
      · exact ih l2 hl2 r hr

/-- Claim C2 as amended: after the DNF rewrite, every rule that still has a
body has a single conjunction as its body, and none of the conjuncts carries
a top-level `conjunction` or `disjunction` key (disjunctions nested inside
atomic propositions may remain at depth, see the counterexample). -/
theorem claim_C2_amended :
    ∀ (fuel : Nat) (rules out : Json), dnfRewrite fuel rules = .ok out →
      ∃ l : List Json, out = .arr (JArr.ofList l) ∧
        ∀ r ∈ l, ∀ b, r.hasKey "body" = true → r.getKey "body" = .ok b →
          ∃ cs : List Json,
            b = jwrap "conjunction" (jwrap "conjunct" (.arr (JArr.ofList cs))) ∧
            ∀ c ∈ cs, IsDnfLeaf c := by
  intro fuel rules out h
  simp only [dnfRewrite] at h
  rw [except_bind_ok] at h
  obtain ⟨a, ha, h⟩ := h
  rw [except_bind_ok] at h
  obtain ⟨l, hl, h⟩ := h
  simp only [pure, Except.pure, Except.ok.injEq] at h
  subst h
  exact ⟨l, rfl, dnfRewriteRules_spec fuel a.toList l hl⟩

/-- Witness for the C2 amended theorem at a concrete rewritten rule list. -/
theorem claim_C2_witness :
    ∃ l : List Json, (jarr [jobj [("head", Json.str "Q")]] : Json) =
        .arr (JArr.ofList l) ∧
      ∀ r ∈ l, ∀ b, r.hasKey "body" = true → r.getKey "body" = .ok b →
        ∃ cs : List Json,
          b = jwrap "conjunction" (jwrap "conjunct" (.arr (JArr.ofList cs))) ∧
          ∀ c ∈ cs, IsDnfLeaf c :=
  claim_C2_amended 5 (jarr [jobj [("head", Json.str "Q")]])
    (jarr [jobj [("head", Json.str "Q")]]) (by decide)
